import Mathlib

/-!
# Shard controller state machine (`src/shardctrler/state_machine.go`)

A shallow embedding of `CtrlerStateMachine` and its four operations
`Query`, `Join`, `Leave`, `Move`, together with the helpers `copyGroups`,
`gidWithMaxShards` and `gidWithMinShards`.

Conventions of the embedding.

* A Go `map[int]V` is a key/value list `List (Int × V)`; the list order is
  the order in which a `range` loop enumerates the map.  `mapGet?` is the
  two-valued lookup `v, ok := m[k]`, `mapSet` is `m[k] = v` and `mapDelete`
  is `delete(m, k)`.  A list stands for a Go map when its keys are distinct.
* The array `[NShards]int` is a `List Int`; a configuration is well formed
  when that list has exactly `NShards` entries.
* A method call returns the receiver after the call together with its
  outcome: `.ok e` when the call returns `e`, `.error .panic` when it stops
  with a run-time panic, `.error .fuel` when the unbounded `for` loop of
  `Join` has not reached its `break` within the given number of moves.
  Every method writes the receiver only in its last statement, so the
  receiver is returned untouched with every `.error`.
-/

namespace ShardCtrler

/-! ## Declarations of the package that live outside `state_machine.go` -/

/-- Modelled from the spec: the constant `NShards` is declared outside
`state_machine.go`; the spec fixes it as a system-wide constant and uses the
value 10 in its examples. -/
def NShards : Nat := 10

/-- Modelled from the spec: the type `Err` is declared outside
`state_machine.go`; the only value this file uses is the success marker
`OK`. -/
inductive Err where
  | OK
  deriving DecidableEq, Repr

/-- Modelled from the spec: the struct `Config` is declared outside
`state_machine.go`; it carries the version `Num`, the array `Shards` of
type `[NShards]int` and the map `Groups` from gid to server list. -/
structure Config where
  Num : Int
  Shards : List Int
  Groups : List (Int × List String)
  deriving DecidableEq, Repr

/-- Modelled from the spec: the function `DefaultConfig` is declared outside
`state_machine.go`; the first element of the log has version 0, no groups
and every shard mapped to 0. -/
def DefaultConfig : Config :=
  { Num := 0, Shards := List.replicate NShards 0, Groups := [] }

/-- Why a call did not return. -/
inductive Fault where
  | panic
  | fuel
  deriving DecidableEq, Repr

/-! ## Go maps as key/value lists -/

/-- The lookup `v, ok := m[k]`. -/
def mapGet? {β : Type} : List (Int × β) → Int → Option β
  | [], _ => none
  | (k', v) :: m, k => if k' = k then some v else mapGet? m k

/-- The assignment `m[k] = v`: an existing key keeps its place in the
enumeration, a new key is enumerated last. -/
def mapSet {β : Type} : List (Int × β) → Int → β → List (Int × β)
  | [], k, v => [(k, v)]
  | (k', v') :: m, k, v => if k' = k then (k, v) :: m else (k', v') :: mapSet m k v

/-- The statement `delete(m, k)`. -/
def mapDelete {β : Type} (m : List (Int × β)) (k : Int) : List (Int × β) :=
  m.filter (fun e => decide (e.1 ≠ k))

/-- The keys of a map, in enumeration order. -/
def mapKeys {β : Type} (m : List (Int × β)) : List Int :=
  m.map Prod.fst

/-- The slice-valued read `m[k]`, which is the nil slice for a missing key. -/
def shardsOf (m : List (Int × List Nat)) (k : Int) : List Nat :=
  (mapGet? m k).getD []

/-- The call `sort.Ints(gids)`. -/
def sortInts (gids : List Int) : List Int :=
  gids.insertionSort (fun a b => a ≤ b)

/-! ## The state machine -/

structure CtrlerStateMachine where
  Configs : List Config
  deriving DecidableEq, Repr

def NewCtrlerStateMachine : CtrlerStateMachine :=
  { Configs := [DefaultConfig] }

/-- The method `Query`: `csm.Configs[len-1]` panics on an empty log. -/
def Query (csm : CtrlerStateMachine) (num : Int) :
    CtrlerStateMachine × Except Fault (Config × Err) :=
  if num < 0 ∨ num ≥ (csm.Configs.length : Int) then
    match csm.Configs.getLast? with
    | some c => (csm, .ok (c, Err.OK))
    | none => (csm, .error Fault.panic)
  else
    match csm.Configs[num.toNat]? with
    | some c => (csm, .ok (c, Err.OK))
    | none => (csm, .error Fault.panic)

/-- The function `copyGroups`: a fresh map receiving every entry of
`groups`. -/
def copyGroups (groups : List (Int × List String)) : List (Int × List String) :=
  groups.foldl (fun newGroup e => mapSet newGroup e.1 e.2) []

/-- The scan of `gidWithMaxShards` over the sorted gids, carrying
`maxGid, maxShards`. -/
def scanMax (gidToShars : List (Int × List Nat)) : List Int → Int → Int → Int
  | [], maxGid, _ => maxGid
  | gid :: gids, maxGid, maxShards =>
    if ((shardsOf gidToShars gid).length : Int) > maxShards then
      scanMax gidToShars gids gid ((shardsOf gidToShars gid).length : Int)
    else
      scanMax gidToShars gids maxGid maxShards

def gidWithMaxShards (gidToShars : List (Int × List Nat)) : Int :=
  match mapGet? gidToShars 0 with
  | some (_ :: _) => 0
  | _ => scanMax gidToShars (sortInts (mapKeys gidToShars)) (-1) (-1)

/-- The scan of `gidWithMinShards` over the sorted gids, carrying
`minGid, minShards`. -/
def scanMin (gidToShars : List (Int × List Nat)) : List Int → Int → Int → Int
  | [], minGid, _ => minGid
  | gid :: gids, minGid, minShards =>
    if gid ≠ 0 ∧ ((shardsOf gidToShars gid).length : Int) < minShards then
      scanMin gidToShars gids gid ((shardsOf gidToShars gid).length : Int)
    else
      scanMin gidToShars gids minGid minShards

def gidWithMinShards (gidToShars : List (Int × List Nat)) : Int :=
  scanMin gidToShars (sortInts (mapKeys gidToShars)) (-1) ((NShards : Int) + 1)

/-- The loop of `Join` that adds the groups of the argument which the new
configuration does not know yet. -/
def joinGroups (newGroups : List (Int × List String)) :
    List (Int × List String) → List (Int × List String)
  | [] => newGroups
  | (gid, servers) :: groups =>
    match mapGet? newGroups gid with
    | some _ => joinGroups newGroups groups
    | none => joinGroups (mapSet newGroups gid servers) groups

/-- The loop `for gid := range newConfig.Groups { gidToShards[gid] = make([]int, 0) }`. -/
def initGidToShards (groups : List (Int × List String)) : List (Int × List Nat) :=
  groups.foldl (fun gidToShards e => mapSet gidToShards e.1 []) []

/-- The loop `for shard, gid := range newConfig.Shards`, from index `shard`
on. -/
def fillGidToShards (gidToShards : List (Int × List Nat)) (shard : Nat) :
    List Int → List (Int × List Nat)
  | [] => gidToShards
  | gid :: shards =>
    fillGidToShards (mapSet gidToShards gid (shardsOf gidToShards gid ++ [shard]))
      (shard + 1) shards

/-- The `gid -> shards` view that `Join` and `Leave` build. -/
def buildGidToShards (groups : List (Int × List String)) (shards : List Int) :
    List (Int × List Nat) :=
  fillGidToShards (initGidToShards groups) 0 shards

/-- The rebalance loop `for { ... }` of `Join`; `fuel` bounds the number of
single-shard moves.  Indexing `gidToShards[maxGid][0]` panics on an empty
slice. -/
def rebalance : Nat → List (Int × List Nat) → Except Fault (List (Int × List Nat))
  | fuel, gidToShards =>
    let maxGid := gidWithMaxShards gidToShards
    let minGid := gidWithMinShards gidToShards
    if maxGid ≠ 0 ∧
        ((shardsOf gidToShards maxGid).length : Int)
          - ((shardsOf gidToShards minGid).length : Int) ≤ 1 then
      .ok gidToShards
    else
      match fuel with
      | 0 => .error Fault.fuel
      | fuel + 1 =>
        match shardsOf gidToShards maxGid with
        | [] => .error Fault.panic
        | shard :: _ =>
          let gidToShards1 :=
            mapSet gidToShards minGid (shardsOf gidToShards minGid ++ [shard])
          let gidToShards2 :=
            mapSet gidToShards1 maxGid (shardsOf gidToShards1 maxGid).tail
          rebalance fuel gidToShards2

/-- The inner loop `for _, shard := range shards { newShards[shard] = gid }`;
the array write panics outside `[0, NShards)`. -/
def storeShards (gid : Int) : List Nat → List Int → Except Fault (List Int)
  | [], newShards => .ok newShards
  | shard :: shards, newShards =>
    if shard < NShards then storeShards gid shards (newShards.set shard gid)
    else .error Fault.panic

/-- The loop `for gid, shards := range gidToShards` that writes the view
back into the array. -/
def storeGidToShards : List (Int × List Nat) → List Int → Except Fault (List Int)
  | [], newShards => .ok newShards
  | (gid, shards) :: gidToShards, newShards =>
    match storeShards gid shards newShards with
    | .ok newShards1 => storeGidToShards gidToShards newShards1
    | .error f => .error f

/-- The method `Join`. -/
def Join (fuel : Nat) (csm : CtrlerStateMachine) (groups : List (Int × List String)) :
    CtrlerStateMachine × Except Fault Err :=
  match csm.Configs.getLast? with
  | none => (csm, .error Fault.panic)
  | some lastConfig =>
    let num : Int := csm.Configs.length
    let newGroups := joinGroups (copyGroups lastConfig.Groups) groups
    let gidToShards := buildGidToShards newGroups lastConfig.Shards
    match rebalance fuel gidToShards with
    | .error f => (csm, .error f)
    | .ok gidToShards1 =>
      match storeGidToShards gidToShards1 (List.replicate NShards 0) with
      | .error f => (csm, .error f)
      | .ok newShards =>
        ({ Configs := csm.Configs ++ [{ Num := num, Shards := newShards, Groups := newGroups }] },
          .ok Err.OK)

/-- The loop `for _, gid := range gids` of `Leave`, carrying
`newConfig.Groups`, `gidToShards` and `unassignedShards`. -/
def leaveGids :
    List Int → List (Int × List String) → List (Int × List Nat) → List Nat →
      List (Int × List String) × List (Int × List Nat) × List Nat
  | [], newGroups, gidToShards, unassignedShards => (newGroups, gidToShards, unassignedShards)
  | gid :: gids, newGroups, gidToShards, unassignedShards =>
    let newGroups1 :=
      match mapGet? newGroups gid with
      | some _ => mapDelete newGroups gid
      | none => newGroups
    match mapGet? gidToShards gid with
    | some shards =>
      leaveGids gids newGroups1 (mapDelete gidToShards gid) (unassignedShards ++ shards)
    | none => leaveGids gids newGroups1 gidToShards unassignedShards

/-- The loop `for _, shard := range unassignedShards` of `Leave`. -/
def assignShards : List Nat → List (Int × List Nat) → List (Int × List Nat)
  | [], gidToShards => gidToShards
  | shard :: shards, gidToShards =>
    let minGid := gidWithMinShards gidToShards
    assignShards shards (mapSet gidToShards minGid (shardsOf gidToShards minGid ++ [shard]))

/-- The method `Leave`. -/
def Leave (csm : CtrlerStateMachine) (gids : List Int) :
    CtrlerStateMachine × Except Fault Err :=
  match csm.Configs.getLast? with
  | none => (csm, .error Fault.panic)
  | some lastConfig =>
    let num : Int := csm.Configs.length
    let gidToShards := buildGidToShards (copyGroups lastConfig.Groups) lastConfig.Shards
    match leaveGids gids (copyGroups lastConfig.Groups) gidToShards [] with
    | (newGroups, gidToShards1, unassignedShards) =>
      let stored : Except Fault (List Int) :=
        if newGroups.length ≠ 0 then
          storeGidToShards (assignShards unassignedShards gidToShards1)
            (List.replicate NShards 0)
        else .ok (List.replicate NShards 0)
      match stored with
      | .error f => (csm, .error f)
      | .ok newShards =>
        ({ Configs := csm.Configs ++ [{ Num := num, Shards := newShards, Groups := newGroups }] },
          .ok Err.OK)

/-- The method `Move`: the array write `newConfig.Shards[shardid] = gid`
panics outside `[0, NShards)`. -/
def Move (csm : CtrlerStateMachine) (shardid gid : Int) :
    CtrlerStateMachine × Except Fault Err :=
  match csm.Configs.getLast? with
  | none => (csm, .error Fault.panic)
  | some lastConfig =>
    let num : Int := csm.Configs.length
    if 0 ≤ shardid ∧ shardid < (NShards : Int) then
      ({ Configs := csm.Configs ++
          [{ Num := num, Shards := lastConfig.Shards.set shardid.toNat gid,
             Groups := copyGroups lastConfig.Groups }] },
        .ok Err.OK)
    else (csm, .error Fault.panic)

/-! ## Specification vocabulary -/

instance instDecidableEqExcept {ε α : Type} [DecidableEq ε] [DecidableEq α] :
    DecidableEq (Except ε α)
  | .ok a, .ok b => if h : a = b then isTrue (by rw [h]) else isFalse (by intro e; cases e; exact h rfl)
  | .error a, .error b =>
    if h : a = b then isTrue (by rw [h]) else isFalse (by intro e; cases e; exact h rfl)
  | .ok _, .error _ => isFalse (by intro e; cases e)
  | .error _, .ok _ => isFalse (by intro e; cases e)

/-- The states a controller can be in: the fresh state machine and every
state a successful call of `Join`, `Leave` or `Move` leads to. -/
inductive Reachable : CtrlerStateMachine → Prop
  | init : Reachable NewCtrlerStateMachine
  | join {csm csm1 : CtrlerStateMachine} (fuel : Nat) (groups : List (Int × List String)) :
      Reachable csm → Join fuel csm groups = (csm1, .ok Err.OK) → Reachable csm1
  | leave {csm csm1 : CtrlerStateMachine} (gids : List Int) :
      Reachable csm → Leave csm gids = (csm1, .ok Err.OK) → Reachable csm1
  | move {csm csm1 : CtrlerStateMachine} (shardid gid : Int) :
      Reachable csm → Move csm shardid gid = (csm1, .ok Err.OK) → Reachable csm1

/-- The number of shards a configuration maps to `gid`. -/
def shardCount (c : Config) (gid : Int) : Nat :=
  c.Shards.count gid

/-- The shard counts of the groups of a configuration whose gid is not 0. -/
def groupCounts (c : Config) : List Nat :=
  ((mapKeys c.Groups).filter (fun gid => decide (gid ≠ 0))).map (shardCount c)

/-- The balance property: the largest shard count of a group with gid ≠ 0
exceeds the smallest one by at most 1 (nothing is asked when there is no
such group). -/
def Balanced (c : Config) : Prop :=
  ∀ hi lo : Nat, (groupCounts c).max? = some hi → (groupCounts c).min? = some lo →
    (hi : Int) - (lo : Int) ≤ 1

/-- Every shard entry is 0 or a key of the configuration's groups. -/
def ShardsValid (c : Config) : Prop :=
  ∀ gid ∈ c.Shards, gid = 0 ∨ gid ∈ mapKeys c.Groups

/-- The view `v` holds the partial assignment `B` of shards to gids: shard
`s` is in the slice of `g` exactly when `B[s] = some g`, the keys of `v`
are distinct and no slice repeats a shard. -/
structure Rep (v : List (Int × List Nat)) (B : List (Option Int)) : Prop where
  keys : (mapKeys v).Nodup
  mem : ∀ g s, s ∈ shardsOf v g ↔ B[s]? = some (some g)
  nodup : ∀ g, (shardsOf v g).Nodup
  len : ∀ g, (shardsOf v g).length = B.count (some g)

/-- The assignment with the shards of `g` taken out. -/
def blank (g : Int) (B : List (Option Int)) : List (Option Int) :=
  B.map (fun x => if x = some g then none else x)

/-- The array a partial assignment stands for: an unassigned shard reads 0. -/
def toShards (B : List (Option Int)) : List Int :=
  B.map (fun x => x.getD 0)

/-- The number of shards not held by a gid of `R`. -/
def pending (R : List Int) (B : List (Option Int)) : Nat :=
  B.countP (fun x => decide (∀ r ∈ R, x ≠ some r))

/-- The view after one turn of the rebalance loop of `Join` that moves
shard `s`, the first shard of `maxGid`, to `minGid`. -/
def moveFirst (v : List (Int × List Nat)) (s : Nat) : List (Int × List Nat) :=
  mapSet (mapSet v (gidWithMinShards v) (shardsOf v (gidWithMinShards v) ++ [s]))
    (gidWithMaxShards v)
    (shardsOf (mapSet v (gidWithMinShards v) (shardsOf v (gidWithMinShards v) ++ [s]))
      (gidWithMaxShards v)).tail

/-- The gids of `R` are keys different from 0 whose slice is at most one
longer than the slice of any key different from 0. -/
def Receivers (v : List (Int × List Nat)) (R : List Int) : Prop :=
  ∀ x ∈ R, x ≠ 0 ∧ x ∈ mapKeys v ∧
    ∀ k ∈ mapKeys v, k ≠ 0 → (shardsOf v x).length ≤ (shardsOf v k).length + 1

/-- The condition under which the rebalance loop of `Join` breaks. -/
def LoopDone (v : List (Int × List Nat)) : Prop :=
  gidWithMaxShards v ≠ 0 ∧
    ((shardsOf v (gidWithMaxShards v)).length : Int)
      - ((shardsOf v (gidWithMinShards v)).length : Int) ≤ 1

/-- The balance property over every gid different from 0 that is a key of
the groups or owns a shard. -/
def BalancedAll (c : Config) : Prop :=
  ∀ g k : Int, g ≠ 0 → k ≠ 0 → (g ∈ mapKeys c.Groups ∨ g ∈ c.Shards) →
    (k ∈ mapKeys c.Groups ∨ k ∈ c.Shards) → c.Shards.count g ≤ c.Shards.count k + 1

/-- The balance property of a view: the slices of two keys different from 0
differ in length by at most 1. -/
def ViewBalanced (v : List (Int × List Nat)) : Prop :=
  ∀ g ∈ mapKeys v, ∀ k ∈ mapKeys v, g ≠ 0 → k ≠ 0 →
    (shardsOf v g).length ≤ (shardsOf v k).length + 1

/-- The assignment with the shards of every gid of `gids` taken out. -/
def blankAll (gids : List Int) (B : List (Option Int)) : List (Option Int) :=
  gids.foldl (fun B g => blank g B) B

/-- The map with every key of `gids` deleted. -/
def deleteAll {β : Type} (gids : List Int) (m : List (Int × β)) : List (Int × β) :=
  gids.foldl (fun m g => mapDelete m g) m

/-- A configuration is well formed when its array has `NShards` entries and
the keys of its groups are distinct. -/
def WellFormed (c : Config) : Prop :=
  c.Shards.length = NShards ∧ (mapKeys c.Groups).Nodup

/-- The states reached from the fresh state machine by successful calls of
`Join` and `Leave` only. -/
inductive ReachableJL : CtrlerStateMachine → Prop
  | init : ReachableJL NewCtrlerStateMachine
  | join {csm csm1 : CtrlerStateMachine} (fuel : Nat) (groups : List (Int × List String)) :
      ReachableJL csm → Join fuel csm groups = (csm1, .ok Err.OK) → ReachableJL csm1
  | leave {csm csm1 : CtrlerStateMachine} (gids : List Int) :
      ReachableJL csm → Leave csm gids = (csm1, .ok Err.OK) → ReachableJL csm1

/-- The states reached from the fresh state machine by successful calls of
`Join` whose argument has no key 0 and which leave at least one group, of
`Leave`, and of `Move` whose target is 0 or a group of the latest
configuration. -/
inductive ReachableValid : CtrlerStateMachine → Prop
  | init : ReachableValid NewCtrlerStateMachine
  | join {csm csm1 : CtrlerStateMachine} (fuel : Nat) (groups : List (Int × List String)) :
      ReachableValid csm → (∀ g ∈ mapKeys groups, g ≠ 0) →
      (∀ c, csm.Configs.getLast? = some c → groups ≠ [] ∨ c.Groups ≠ []) →
      Join fuel csm groups = (csm1, .ok Err.OK) → ReachableValid csm1
  | leave {csm csm1 : CtrlerStateMachine} (gids : List Int) :
      ReachableValid csm → Leave csm gids = (csm1, .ok Err.OK) → ReachableValid csm1
  | move {csm csm1 : CtrlerStateMachine} (shardid gid : Int) :
      ReachableValid csm →
      (∀ c, csm.Configs.getLast? = some c → gid = 0 ∨ gid ∈ mapKeys c.Groups) →
      Move csm shardid gid = (csm1, .ok Err.OK) → ReachableValid csm1

/-! ## Example states -/

/-- The fresh state machine after `Move(0, 7)`: shard 0 is mapped to gid 7,
which is not a group. -/
def movedOnFresh : CtrlerStateMachine :=
  (Move NewCtrlerStateMachine 0 7).1

/-- The state after `Join({1: [a]})`: gid 1 owns every shard. -/
def oneGroup : CtrlerStateMachine :=
  (Join NShards NewCtrlerStateMachine [(1, ["a"])]).1

/-- The state `oneGroup` after `Move(0, 7)`. -/
def movedOnOneGroup : CtrlerStateMachine :=
  (Move oneGroup 0 7).1

/-- The state after `Join({1: [a], 2: [b]})` and `Move(1, 1)`: gid 1 owns six
shards and gid 2 owns four. -/
def skewed : CtrlerStateMachine :=
  (Move (Join NShards NewCtrlerStateMachine [(1, ["a"]), (2, ["b"])]).1 1 1).1

/-- The latest configuration of `movedOnFresh`. -/
def movedOnFreshConfig : Config :=
  { Num := 1, Shards := [7, 0, 0, 0, 0, 0, 0, 0, 0, 0], Groups := [] }

/-- The latest configuration of `oneGroup`. -/
def oneGroupConfig : Config :=
  { Num := 1, Shards := [1, 1, 1, 1, 1, 1, 1, 1, 1, 1], Groups := [(1, ["a"])] }

/-- The latest configuration of `movedOnOneGroup`. -/
def movedOnOneGroupConfig : Config :=
  { Num := 2, Shards := [7, 1, 1, 1, 1, 1, 1, 1, 1, 1], Groups := [(1, ["a"])] }

/-- The latest configuration of `skewed`. -/
def skewedConfig : Config :=
  { Num := 2, Shards := [1, 1, 1, 2, 1, 2, 1, 2, 1, 2], Groups := [(1, ["a"]), (2, ["b"])] }

/-- The states reached from the fresh state machine by successful calls of
`Join` whose argument has no key 0, of `Leave` and of `Move`. -/
inductive ReachableNoZero : CtrlerStateMachine → Prop
  | init : ReachableNoZero NewCtrlerStateMachine
  | join {csm csm1 : CtrlerStateMachine} (fuel : Nat) (groups : List (Int × List String)) :
      ReachableNoZero csm → (∀ g ∈ mapKeys groups, g ≠ 0) →
      Join fuel csm groups = (csm1, .ok Err.OK) → ReachableNoZero csm1
  | leave {csm csm1 : CtrlerStateMachine} (gids : List Int) :
      ReachableNoZero csm → Leave csm gids = (csm1, .ok Err.OK) → ReachableNoZero csm1
  | move {csm csm1 : CtrlerStateMachine} (shardid gid : Int) :
      ReachableNoZero csm → Move csm shardid gid = (csm1, .ok Err.OK) → ReachableNoZero csm1

/-- The state after `Join({0: [x]})` on the fresh state machine. -/
def zeroGroup : CtrlerStateMachine :=
  (Join NShards NewCtrlerStateMachine [(0, ["x"])]).1

/-- The single-shard moves `(shard, maxGid, minGid)` that the rebalance loop
of `Join` makes within `fuel` turns, in order. -/
def rebalanceMoves : Nat → List (Int × List Nat) → List (Nat × Int × Int)
  | 0, _ => []
  | fuel + 1, gidToShards =>
    let maxGid := gidWithMaxShards gidToShards
    let minGid := gidWithMinShards gidToShards
    if maxGid ≠ 0 ∧
        ((shardsOf gidToShards maxGid).length : Int)
          - ((shardsOf gidToShards minGid).length : Int) ≤ 1 then
      []
    else
      match shardsOf gidToShards maxGid with
      | [] => []
      | shard :: _ => (shard, maxGid, minGid) :: rebalanceMoves fuel (moveFirst gidToShards shard)

/-- The gids of `D` are 0 or, once gid 0 holds no shard, gids whose slice is
at most one shorter than any slice. -/
def Donors (v : List (Int × List Nat)) (D : List Int) : Prop :=
  ∀ d ∈ D, d = 0 ∨
    (shardsOf v 0 = [] ∧ ∀ k, (shardsOf v k).length ≤ (shardsOf v d).length + 1)

/-- Two configurations that differ at most in the enumeration order of their
groups. -/
def ConfigEquiv (c c' : Config) : Prop :=
  c'.Num = c.Num ∧ c'.Shards = c.Shards ∧ c'.Groups.Perm c.Groups

/-- Two logs whose configurations differ, entry by entry, at most in the
enumeration order of their groups. -/
def LogEquiv (csm csm' : CtrlerStateMachine) : Prop :=
  List.Forall₂ ConfigEquiv csm.Configs csm'.Configs

/-- A mutating call with its arguments. -/
inductive Op where
  | join (groups : List (Int × List String))
  | leave (gids : List Int)
  | move (shardid gid : Int)

/-- The call `op` on `csm`. -/
def applyOp (fuel : Nat) (csm : CtrlerStateMachine) : Op → CtrlerStateMachine × Except Fault Err
  | .join groups => Join fuel csm groups
  | .leave gids => Leave csm gids
  | .move shardid gid => Move csm shardid gid

/-- The calls `ops` made in order: the state machine after the last call and
the outcome of every call (a call that does not return leaves the state
machine as it was). -/
def runOps (fuel : Nat) : CtrlerStateMachine → List Op →
    CtrlerStateMachine × List (Except Fault Err)
  | csm, [] => (csm, [])
  | csm, op :: ops =>
    ((runOps fuel (applyOp fuel csm op).1 ops).1,
      (applyOp fuel csm op).2 :: (runOps fuel (applyOp fuel csm op).1 ops).2)

/-- Two calls that differ at most in the enumeration order of the map given
to `Join`. -/
def OpEquiv : Op → Op → Prop
  | .join groups, .join groups' => groups'.Perm groups ∧ (mapKeys groups).Nodup
  | .leave gids, .leave gids' => gids' = gids
  | .move shardid gid, .move shardid' gid' => shardid' = shardid ∧ gid' = gid
  | _, _ => False

/-- The state after `Join({1: [a], 2: [b]})`, the argument enumerated with
gid 1 first. -/
def joinedAB : CtrlerStateMachine :=
  (Join NShards NewCtrlerStateMachine [(1, ["a"]), (2, ["b"])]).1

/-- The state after `Join({1: [a], 2: [b]})`, the argument enumerated with
gid 2 first. -/
def joinedBA : CtrlerStateMachine :=
  (Join NShards NewCtrlerStateMachine [(2, ["b"]), (1, ["a"])]).1

/-- The latest configuration of `joinedAB`. -/
def joinedABConfig : Config :=
  { Num := 1, Shards := [1, 2, 1, 2, 1, 2, 1, 2, 1, 2], Groups := [(1, ["a"]), (2, ["b"])] }

/-- The latest configuration of `joinedBA`. -/
def joinedBAConfig : Config :=
  { Num := 1, Shards := [1, 2, 1, 2, 1, 2, 1, 2, 1, 2], Groups := [(2, ["b"]), (1, ["a"])] }

/-- A sequence of calls, the argument of `Join` enumerated with gid 3 first. -/
def opsCD : List Op :=
  [.join [(3, ["c"]), (4, ["d"])], .move 0 4, .leave [1], .move 10 1]

/-- The sequence `opsCD`, the argument of `Join` enumerated with gid 4
first. -/
def opsDC : List Op :=
  [.join [(4, ["d"]), (3, ["c"])], .move 0 4, .leave [1], .move 10 1]

/-! ## Key/value lists -/

theorem mapGet?_mapSet {β : Type} (m : List (Int × β)) (k : Int) (v : β) (k' : Int) :
    mapGet? (mapSet m k v) k' = if k = k' then some v else mapGet? m k' := by
  induction m with
  | nil => simp [mapSet, mapGet?]
  | cons e m ih =>
    obtain ⟨a, b⟩ := e
    by_cases h : a = k
    · subst h
      by_cases h' : a = k' <;> simp [mapSet, mapGet?, h']
    · by_cases h' : a = k'
      · subst h'
        simp [mapSet, mapGet?, h, Ne.symm h]
      · simp [mapSet, mapGet?, h, h', ih]

theorem mem_mapKeys_iff {β : Type} (m : List (Int × β)) (k : Int) :
    k ∈ mapKeys m ↔ ∃ v, mapGet? m k = some v := by
  induction m with
  | nil => simp [mapKeys, mapGet?]
  | cons e m ih =>
    obtain ⟨a, b⟩ := e
    by_cases h : a = k
    · subst h
      simp [mapKeys, mapGet?]
    · have ih' : k ∈ List.map Prod.fst m ↔ ∃ v, mapGet? m k = some v := ih
      simp [mapKeys, mapGet?, h, Ne.symm h, ih']

theorem not_mem_mapKeys_iff {β : Type} (m : List (Int × β)) (k : Int) :
    k ∉ mapKeys m ↔ mapGet? m k = none := by
  rw [mem_mapKeys_iff]
  cases mapGet? m k <;> simp

theorem mem_mapKeys_mapSet {β : Type} (m : List (Int × β)) (k : Int) (v : β) (k' : Int) :
    k' ∈ mapKeys (mapSet m k v) ↔ k' = k ∨ k' ∈ mapKeys m := by
  rw [mem_mapKeys_iff, mem_mapKeys_iff, mapGet?_mapSet]
  by_cases h : k = k'
  · simp [h]
  · simp [h, Ne.symm h]

theorem mapKeys_mapSet_nodup {β : Type} (m : List (Int × β)) (k : Int) (v : β)
    (h : (mapKeys m).Nodup) : (mapKeys (mapSet m k v)).Nodup := by
  induction m with
  | nil => simp [mapSet, mapKeys]
  | cons e m ih =>
    obtain ⟨a, b⟩ := e
    have h' : a ∉ mapKeys m ∧ (mapKeys m).Nodup := by simpa [mapKeys] using h
    by_cases hk : a = k
    · subst hk
      simpa [mapSet, mapKeys] using h
    · have hmem : a ∉ mapKeys (mapSet m k v) := by
        rw [mem_mapKeys_mapSet]
        rintro (e | e)
        · exact hk e
        · exact h'.1 e
      have := ih h'.2
      simp only [mapSet, hk, if_false, mapKeys, List.map_cons, List.nodup_cons]
      exact ⟨hmem, this⟩

theorem mapDelete_cons {β : Type} (a : Int) (b : β) (m : List (Int × β)) (k : Int) :
    mapDelete ((a, b) :: m) k = if a = k then mapDelete m k else (a, b) :: mapDelete m k := by
  unfold mapDelete
  by_cases h : a = k <;> simp [List.filter_cons, h]

theorem mapGet?_mapDelete {β : Type} (m : List (Int × β)) (k k' : Int) :
    mapGet? (mapDelete m k) k' = if k' = k then none else mapGet? m k' := by
  induction m with
  | nil => simp [mapDelete, mapGet?]
  | cons e m ih =>
    obtain ⟨a, b⟩ := e
    rw [mapDelete_cons]
    by_cases h : a = k
    · subst h
      by_cases h' : k' = a
      · subst h'
        simp [mapGet?, ih]
      · simp [mapGet?, ih, h', Ne.symm h']
    · by_cases h' : a = k'
      · subst h'
        simp [mapGet?, h]
      · simp [mapGet?, h, h', ih]

theorem mem_mapKeys_mapDelete {β : Type} (m : List (Int × β)) (k k' : Int) :
    k' ∈ mapKeys (mapDelete m k) ↔ k' ≠ k ∧ k' ∈ mapKeys m := by
  rw [mem_mapKeys_iff, mem_mapKeys_iff, mapGet?_mapDelete]
  by_cases h : k' = k <;> simp [h]

theorem mapKeys_mapDelete_nodup {β : Type} (m : List (Int × β)) (k : Int)
    (h : (mapKeys m).Nodup) : (mapKeys (mapDelete m k)).Nodup := by
  unfold mapKeys mapDelete
  exact (List.Nodup.sublist (List.Sublist.map _ (List.filter_sublist _)) h)

theorem mapDelete_of_not_mem {β : Type} (m : List (Int × β)) (k : Int)
    (h : k ∉ mapKeys m) : mapDelete m k = m := by
  unfold mapDelete
  rw [List.filter_eq_self]
  intro e he
  have : e.1 ∈ mapKeys m := List.mem_map_of_mem Prod.fst he
  simp only [ne_eq, decide_eq_true_eq]
  intro hk
  exact h (hk ▸ this)

theorem mapGet?_of_mem {β : Type} (m : List (Int × β)) (h : (mapKeys m).Nodup)
    (k : Int) (v : β) (hm : (k, v) ∈ m) : mapGet? m k = some v := by
  induction m with
  | nil => simp at hm
  | cons e m ih =>
    obtain ⟨a, b⟩ := e
    have h' : a ∉ mapKeys m ∧ (mapKeys m).Nodup := by simpa [mapKeys] using h
    rcases List.mem_cons.1 hm with e | e
    · cases e
      simp [mapGet?]
    · have hk : k ∈ mapKeys m := List.mem_map_of_mem Prod.fst e
      have hne : a ≠ k := fun e' => h'.1 (e' ▸ hk)
      simp [mapGet?, hne, ih h'.2 e]

theorem mem_of_mapGet? {β : Type} (m : List (Int × β)) (k : Int) (v : β)
    (h : mapGet? m k = some v) : (k, v) ∈ m := by
  induction m with
  | nil => simp [mapGet?] at h
  | cons e m ih =>
    obtain ⟨a, b⟩ := e
    by_cases hk : a = k
    · subst hk
      simp [mapGet?] at h
      simp [h]
    · simp [mapGet?, hk] at h
      exact List.mem_cons_of_mem _ (ih h)

/-- Copying a map whose keys are distinct enumerates the same entries. -/
theorem foldl_mapSet_eq (m acc : List (Int × List String))
    (h : (mapKeys (acc ++ m)).Nodup) :
    m.foldl (fun newGroup e => mapSet newGroup e.1 e.2) acc = acc ++ m := by
  induction m generalizing acc with
  | nil => simp
  | cons e m ih =>
    have hset : mapSet acc e.1 e.2 = acc ++ [e] := by
      have hk : e.1 ∉ mapKeys acc := by
        intro hmem
        have : (mapKeys acc ++ e.1 :: mapKeys m).Nodup := by simpa [mapKeys] using h
        have hd := List.disjoint_of_nodup_append this
        exact hd hmem (List.mem_cons_self _ _)
      clear ih h
      induction acc with
      | nil => simp [mapSet]
      | cons a acc iha =>
        have h1 : a.1 ≠ e.1 := by
          intro e'
          exact hk (by simp [mapKeys, e'])
        have h2 : e.1 ∉ mapKeys acc := by
          intro hm
          exact hk (by simp only [mapKeys, List.map_cons]; exact List.mem_cons_of_mem _ hm)
        simp [mapSet, h1, iha h2]
    rw [List.foldl_cons, hset, ih (acc ++ [e]) (by simpa using h)]
    simp

theorem copyGroups_eq (groups : List (Int × List String)) (h : (mapKeys groups).Nodup) :
    copyGroups groups = groups := by
  unfold copyGroups
  rw [foldl_mapSet_eq groups [] (by simpa using h)]
  simp

/-! ## The `gid -> shards` view -/

theorem shardsOf_mapSet (v : List (Int × List Nat)) (k : Int) (x : List Nat) (g : Int) :
    shardsOf (mapSet v k x) g = if k = g then x else shardsOf v g := by
  unfold shardsOf
  rw [mapGet?_mapSet]
  by_cases h : k = g <;> simp [h]

theorem shardsOf_mapDelete (v : List (Int × List Nat)) (k g : Int) :
    shardsOf (mapDelete v k) g = if g = k then [] else shardsOf v g := by
  unfold shardsOf
  rw [mapGet?_mapDelete]
  by_cases h : g = k <;> simp [h]

theorem shardsOf_of_not_mem (v : List (Int × List Nat)) (g : Int) (h : g ∉ mapKeys v) :
    shardsOf v g = [] := by
  unfold shardsOf
  rw [(not_mem_mapKeys_iff v g).1 h]
  rfl

theorem mem_mapKeys_of_shardsOf (v : List (Int × List Nat)) (g : Int) (s : Nat)
    (h : s ∈ shardsOf v g) : g ∈ mapKeys v := by
  by_contra hc
  rw [shardsOf_of_not_mem v g hc] at h
  simp at h

theorem Rep.lt_length {v : List (Int × List Nat)} {B : List (Option Int)} (h : Rep v B)
    {g : Int} {s : Nat} (hs : s ∈ shardsOf v g) : s < B.length := by
  have := (h.mem g s).1 hs
  by_contra hc
  rw [List.getElem?_eq_none (by omega)] at this
  cases this

theorem Rep.len_le {v : List (Int × List Nat)} {B : List (Option Int)} (h : Rep v B)
    (g : Int) : (shardsOf v g).length ≤ B.length := by
  rw [h.len g]
  exact List.count_le_length _ _

theorem initGidToShards_aux (groups : List (Int × List String)) (acc : List (Int × List Nat))
    (hk : (mapKeys acc).Nodup) (he : ∀ g, shardsOf acc g = []) :
    (mapKeys (groups.foldl (fun gidToShards e => mapSet gidToShards e.1 []) acc)).Nodup ∧
    (∀ g, shardsOf (groups.foldl (fun gidToShards e => mapSet gidToShards e.1 []) acc) g = []) ∧
    (∀ g, g ∈ mapKeys (groups.foldl (fun gidToShards e => mapSet gidToShards e.1 []) acc) ↔
      g ∈ mapKeys acc ∨ g ∈ mapKeys groups) := by
  induction groups generalizing acc with
  | nil => exact ⟨hk, he, fun g => by simp [mapKeys]⟩
  | cons e groups ih =>
    have h1 := ih (mapSet acc e.1 []) (mapKeys_mapSet_nodup acc e.1 [] hk) (by
      intro g
      rw [shardsOf_mapSet]
      by_cases h : e.1 = g <;> simp [h, he])
    refine ⟨h1.1, h1.2.1, ?_⟩
    intro g
    rw [List.foldl_cons, h1.2.2 g, mem_mapKeys_mapSet]
    simp only [mapKeys, List.map_cons, List.mem_cons]
    tauto

theorem Rep_init (groups : List (Int × List String)) : Rep (initGidToShards groups) [] := by
  have h := initGidToShards_aux groups [] (by simp [mapKeys]) (by intro g; rfl)
  refine ⟨h.1, ?_, ?_, ?_⟩
  · intro g s
    rw [show shardsOf (initGidToShards groups) g = [] from h.2.1 g]
    simp
  · intro g
    rw [show shardsOf (initGidToShards groups) g = [] from h.2.1 g]
    exact List.nodup_nil
  · intro g
    rw [show shardsOf (initGidToShards groups) g = [] from h.2.1 g]
    simp

theorem mem_mapKeys_initGidToShards (groups : List (Int × List String)) (g : Int) :
    g ∈ mapKeys (initGidToShards groups) ↔ g ∈ mapKeys groups := by
  have h := (initGidToShards_aux groups [] (by simp [mapKeys]) (by intro g; rfl)).2.2 g
  simpa [mapKeys] using h

theorem Rep_push {v : List (Int × List Nat)} {B : List (Option Int)} (h : Rep v B) (g : Int) :
    Rep (mapSet v g (shardsOf v g ++ [B.length])) (B ++ [some g]) := by
  have hnot : B.length ∉ shardsOf v g := fun hm => Nat.lt_irrefl _ (h.lt_length hm)
  refine ⟨mapKeys_mapSet_nodup _ _ _ h.keys, ?_, ?_, ?_⟩
  · intro g' s
    rw [shardsOf_mapSet]
    by_cases hg : g = g'
    · subst hg
      simp only [if_true, List.mem_append, List.mem_singleton]
      constructor
      · rintro (hs | hs)
        · rw [List.getElem?_append_left (h.lt_length hs)]
          exact (h.mem g s).1 hs
        · subst hs
          simp
      · intro hs
        by_cases hlt : s < B.length
        · rw [List.getElem?_append_left hlt] at hs
          exact Or.inl ((h.mem g s).2 hs)
        · by_cases heq : s = B.length
          · exact Or.inr heq
          · rw [List.getElem?_eq_none (by simp; omega)] at hs
            cases hs
    · simp only [hg, if_false]
      rw [h.mem g' s]
      by_cases hlt : s < B.length
      · rw [List.getElem?_append_left hlt]
      · rw [List.getElem?_eq_none (by omega)]
        by_cases heq : s = B.length
        · subst heq
          simp [hg]
        · rw [List.getElem?_eq_none (by simp; omega)]
  · intro g'
    rw [shardsOf_mapSet]
    by_cases hg : g = g'
    · simp only [hg, if_true]
      rw [List.nodup_append]
      refine ⟨h.nodup g', List.nodup_singleton _, ?_⟩
      intro a ha hb
      rw [List.mem_singleton] at hb
      subst hb
      exact hnot (hg ▸ ha)
    · simp only [hg, if_false]
      exact h.nodup g'
  · intro g'
    rw [shardsOf_mapSet, List.count_append]
    by_cases hg : g = g'
    · subst hg
      simp [h.len g]
    · have : ¬ (some g = some g') := by simpa using hg
      simp [hg, h.len g', List.count_cons, this]

theorem Rep_fill (shards : List Int) {v : List (Int × List Nat)} {B : List (Option Int)}
    (h : Rep v B) : Rep (fillGidToShards v B.length shards) (B ++ shards.map some) := by
  induction shards generalizing v B with
  | nil => simpa [fillGidToShards] using h
  | cons gid shards ih =>
    have h1 := ih (Rep_push h gid)
    simpa [fillGidToShards] using h1

theorem mem_mapKeys_fill (shards : List Int) (v : List (Int × List Nat)) (i : Nat) (g : Int) :
    g ∈ mapKeys (fillGidToShards v i shards) ↔ g ∈ mapKeys v ∨ g ∈ shards := by
  induction shards generalizing v i with
  | nil => simp [fillGidToShards]
  | cons gid shards ih =>
    rw [fillGidToShards, ih, mem_mapKeys_mapSet]
    simp only [List.mem_cons]
    tauto

theorem Rep_build (groups : List (Int × List String)) (shards : List Int) :
    Rep (buildGidToShards groups shards) (shards.map some) := by
  have := Rep_fill shards (Rep_init groups)
  simpa [buildGidToShards] using this

theorem mem_mapKeys_build (groups : List (Int × List String)) (shards : List Int) (g : Int) :
    g ∈ mapKeys (buildGidToShards groups shards) ↔ g ∈ mapKeys groups ∨ g ∈ shards := by
  unfold buildGidToShards
  rw [mem_mapKeys_fill, mem_mapKeys_initGidToShards]

theorem shardsOf_eq_of_mem {v : List (Int × List Nat)} (hk : (mapKeys v).Nodup)
    {g : Int} {l : List Nat} (h : (g, l) ∈ v) : shardsOf v g = l := by
  unfold shardsOf
  rw [mapGet?_of_mem v hk g l h]
  rfl

theorem mem_of_mem_shardsOf {v : List (Int × List Nat)} {g : Int} {s : Nat}
    (h : s ∈ shardsOf v g) : (g, shardsOf v g) ∈ v := by
  obtain ⟨l, hl⟩ := (mem_mapKeys_iff v g).1 (mem_mapKeys_of_shardsOf v g s h)
  have : shardsOf v g = l := by unfold shardsOf; rw [hl]; rfl
  rw [this]
  exact mem_of_mapGet? v g l hl

/-- Giving shard `s` to `r` in the view (appending it to the slice of `r`
and dropping it from every other slice) is the array write `B[s] = r`. -/
theorem Rep_give {v v1 : List (Int × List Nat)} {B : List (Option Int)} (h : Rep v B)
    (s : Nat) (r : Int) (hs : s < B.length) (hr : s ∉ shardsOf v r)
    (hk : (mapKeys v1).Nodup)
    (hv : ∀ g, shardsOf v1 g = if g = r then shardsOf v r ++ [s] else (shardsOf v g).erase s) :
    Rep v1 (B.set s (some r)) := by
  refine ⟨hk, ?_, ?_, ?_⟩
  · intro g s'
    rw [hv g, List.getElem?_set]
    by_cases hg : g = r
    · subst hg
      simp only [if_true, List.mem_append, List.mem_singleton]
      by_cases hss : s = s'
      · subst hss
        simp [hs]
      · simp only [hss, if_false, ← h.mem g s']
        constructor
        · rintro (h1 | h1)
          · exact h1
          · exact absurd h1.symm hss
        · exact Or.inl
    · simp only [hg, if_false]
      rw [(h.nodup g).mem_erase_iff]
      by_cases hss : s = s'
      · subst hss
        simp [hs, hg, Ne.symm hg]
      · simp only [hss, if_false, ← h.mem g s']
        constructor
        · exact fun h1 => h1.2
        · exact fun h1 => ⟨fun e => hss e.symm, h1⟩
  · intro g
    rw [hv g]
    by_cases hg : g = r
    · subst hg
      simp only [if_true]
      rw [List.nodup_append]
      refine ⟨h.nodup g, List.nodup_singleton _, ?_⟩
      intro a ha hb
      rw [List.mem_singleton] at hb
      subst hb
      exact hr ha
    · simp only [hg, if_false]
      exact (h.nodup g).erase s
  · intro g
    rw [hv g, List.count_set _ _ _ _ hs]
    by_cases hg : g = r
    · subst hg
      have h1 : ¬ (B[s] = some g) := by
        intro e
        apply hr
        rw [h.mem g s, List.getElem?_eq_getElem hs, e]
      simp [h.len g, h1]
    · have h2 : ¬ (some r = some g) := by
        intro e
        exact hg (Option.some.inj e).symm
      simp only [hg, if_false, beq_iff_eq, h2, Nat.add_zero]
      rw [List.length_erase, ← h.len g]
      by_cases hm : s ∈ shardsOf v g
      · have : B[s] = some g := by
          have := (h.mem g s).1 hm
          rw [List.getElem?_eq_getElem hs] at this
          exact Option.some.inj this
        simp [hm, this]
      · have : ¬ (B[s] = some g) := by
          intro e
          apply hm
          rw [h.mem g s, List.getElem?_eq_getElem hs, e]
        simp [hm, this]

/-- The step of `Leave` that places an unassigned shard. -/
theorem Rep_assign {v : List (Int × List Nat)} {B : List (Option Int)} (h : Rep v B)
    (s : Nat) (r : Int) (hs : B[s]? = some none) :
    Rep (mapSet v r (shardsOf v r ++ [s])) (B.set s (some r)) := by
  have hlt : s < B.length := by
    by_contra hc
    rw [List.getElem?_eq_none (by omega)] at hs
    cases hs
  have hnot : ∀ g, s ∉ shardsOf v g := by
    intro g hm
    have := (h.mem g s).1 hm
    rw [hs] at this
    cases this
  refine Rep_give h s r hlt (hnot r) (mapKeys_mapSet_nodup _ _ _ h.keys) ?_
  intro g
  rw [shardsOf_mapSet]
  by_cases hg : g = r
  · simp [hg]
  · simp only [hg, Ne.symm hg, if_false]
    rw [List.erase_of_not_mem (hnot g)]

/-- The step of the rebalance loop of `Join` that moves the first shard of
`d` to `r`. -/
theorem Rep_move {v : List (Int × List Nat)} {B : List (Option Int)} (h : Rep v B)
    (d r : Int) (hdr : d ≠ r) (s : Nat) (rest : List Nat) (hd : shardsOf v d = s :: rest) :
    Rep (mapSet (mapSet v r (shardsOf v r ++ [s])) d
        (shardsOf (mapSet v r (shardsOf v r ++ [s])) d).tail)
      (B.set s (some r)) := by
  have hsd : s ∈ shardsOf v d := by rw [hd]; exact List.mem_cons_self _ _
  have hB : B[s]? = some (some d) := (h.mem d s).1 hsd
  have hr : s ∉ shardsOf v r := by
    intro hm
    have := (h.mem r s).1 hm
    rw [hB] at this
    exact hdr (Option.some.inj (Option.some.inj this))
  refine Rep_give h s r (h.lt_length hsd) hr
    (mapKeys_mapSet_nodup _ _ _ (mapKeys_mapSet_nodup _ _ _ h.keys)) ?_
  intro g
  rw [shardsOf_mapSet, shardsOf_mapSet, shardsOf_mapSet]
  by_cases hg : g = r
  · subst hg
    simp [hdr]
  · by_cases hgd : d = g
    · subst hgd
      simp [hg, Ne.symm hdr, hd]
    · have hm : s ∉ shardsOf v g := by
        intro hm
        have := (h.mem g s).1 hm
        rw [hB] at this
        exact hgd (Option.some.inj (Option.some.inj this))
      simp only [hgd, hg, Ne.symm hg, if_false]
      rw [List.erase_of_not_mem hm]

theorem count_blank (k g : Int) (B : List (Option Int)) :
    (blank k B).count (some g) = if g = k then 0 else B.count (some g) := by
  induction B with
  | nil => simp [blank]
  | cons x B ih =>
    have ih' : List.count (some g) (List.map (fun x => if x = some k then none else x) B)
        = if g = k then 0 else List.count (some g) B := ih
    by_cases hg : g = k
    · subst hg
      by_cases hx : x = some g
      · simp [blank, List.count_cons, hx, ih']
      · simp [blank, List.count_cons, hx, ih']
    · by_cases hx : x = some k
      · subst hx
        simp [blank, List.count_cons, ih', hg, Ne.symm hg]
      · simp [blank, List.count_cons, hx, ih', hg]

theorem getElem?_blank (k : Int) (B : List (Option Int)) (s : Nat) (g : Int) :
    (blank k B)[s]? = some (some g) ↔ g ≠ k ∧ B[s]? = some (some g) := by
  unfold blank
  rw [List.getElem?_map]
  cases hb : B[s]? with
  | none => simp
  | some x =>
    by_cases hx : x = some k
    · subst hx
      simp only [Option.map_some', if_true]
      constructor
      · intro e; cases e
      · rintro ⟨h1, h2⟩
        exact absurd (Option.some.inj (Option.some.inj h2)).symm h1
    · simp only [Option.map_some', hx, if_false]
      constructor
      · intro e
        refine ⟨?_, e⟩
        intro hg
        subst hg
        exact hx (Option.some.inj e)
      · exact fun e => e.2

/-- The statement `delete(gidToShards, gid)` takes the shards of `gid` out of
the assignment. -/
theorem Rep_delete {v : List (Int × List Nat)} {B : List (Option Int)} (h : Rep v B)
    (k : Int) : Rep (mapDelete v k) (blank k B) := by
  refine ⟨mapKeys_mapDelete_nodup v k h.keys, ?_, ?_, ?_⟩
  · intro g s
    rw [shardsOf_mapDelete, getElem?_blank]
    by_cases hg : g = k
    · simp [hg]
    · simp [hg, h.mem g s]
  · intro g
    rw [shardsOf_mapDelete]
    by_cases hg : g = k
    · simp [hg]
    · simp [hg, h.nodup g]
  · intro g
    rw [shardsOf_mapDelete, count_blank]
    by_cases hg : g = k
    · simp [hg]
    · simp [hg, h.len g]

/-! ## Writing the view back into the array -/

theorem storeShards_spec (gid : Int) (l : List Nat) (C : List Int)
    (hl : ∀ s ∈ l, s < NShards) (hC : C.length = NShards) :
    ∃ C1, storeShards gid l C = .ok C1 ∧ C1.length = NShards ∧
      ∀ s, C1[s]? = if s ∈ l then some gid else C[s]? := by
  induction l generalizing C with
  | nil => exact ⟨C, rfl, hC, fun s => by simp⟩
  | cons s0 l ih =>
    have h0 : s0 < NShards := hl s0 (List.mem_cons_self _ _)
    obtain ⟨C1, h1, h2, h3⟩ := ih (C.set s0 gid)
      (fun s hs => hl s (List.mem_cons_of_mem _ hs)) (by simpa using hC)
    refine ⟨C1, by simp [storeShards, h0, h1], h2, ?_⟩
    intro s
    rw [h3 s, List.getElem?_set]
    by_cases hs : s ∈ l
    · simp [hs]
    · by_cases h0s : s0 = s
      · subst h0s
        simp [hC, h0]
      · simp [hs, h0s, Ne.symm h0s]

theorem storeGidToShards_spec (v : List (Int × List Nat)) (C : List Int)
    (hv : ∀ e ∈ v, ∀ s ∈ e.2, s < NShards) (hC : C.length = NShards) :
    ∃ C1, storeGidToShards v C = .ok C1 ∧ C1.length = NShards ∧
      (∀ s, (∀ e ∈ v, s ∉ e.2) → C1[s]? = C[s]?) ∧
      (∀ s g, (∀ e ∈ v, s ∈ e.2 → e.1 = g) → (∃ e ∈ v, s ∈ e.2) → C1[s]? = some g) := by
  induction v generalizing C with
  | nil => exact ⟨C, rfl, hC, fun s _ => rfl, fun s g _ h => by simp at h⟩
  | cons e v ih =>
    obtain ⟨g0, l0⟩ := e
    obtain ⟨C0, h01, h02, h03⟩ := storeShards_spec g0 l0 C
      (fun s hs => hv (g0, l0) (List.mem_cons_self _ _) s hs) hC
    obtain ⟨C1, h1, h2, h3, h4⟩ := ih C0
      (fun e he s hs => hv e (List.mem_cons_of_mem _ he) s hs) h02
    refine ⟨C1, by simp [storeGidToShards, h01, h1], h2, ?_, ?_⟩
    · intro s hs
      rw [h3 s (fun e he => hs e (List.mem_cons_of_mem _ he)), h03 s]
      have : s ∉ l0 := hs (g0, l0) (List.mem_cons_self _ _)
      simp [this]
    · intro s g huniq hex
      by_cases hin : ∃ e ∈ v, s ∈ e.2
      · exact h4 s g (fun e he hs => huniq e (List.mem_cons_of_mem _ he) hs) hin
      · have hnot : ∀ e ∈ v, s ∉ e.2 := fun e he hs => hin ⟨e, he, hs⟩
        rw [h3 s hnot, h03 s]
        obtain ⟨e, he, hs⟩ := hex
        rcases List.mem_cons.1 he with e1 | e1
        · subst e1
          have : g0 = g := huniq (g0, l0) (List.mem_cons_self _ _) hs
          simp only [] at hs
          simp [hs, this]
        · exact absurd hs (hnot e e1)

/-- Writing back a view that holds the assignment `B` yields the array of
`B`, without a panic. -/
theorem Rep_store {v : List (Int × List Nat)} {B : List (Option Int)} (h : Rep v B)
    (hB : B.length = NShards) :
    storeGidToShards v (List.replicate NShards 0) = .ok (toShards B) := by
  have hent : ∀ e ∈ v, ∀ s ∈ e.2, B[s]? = some (some e.1) := by
    intro e he s hs
    have h1 : shardsOf v e.1 = e.2 := shardsOf_eq_of_mem h.keys (show (e.1, e.2) ∈ v from he)
    exact (h.mem e.1 s).1 (h1 ▸ hs)
  obtain ⟨C1, h1, h2, h3, h4⟩ := storeGidToShards_spec v (List.replicate NShards 0)
    (fun e he s hs => by
      have := hent e he s hs
      by_contra hc
      rw [List.getElem?_eq_none (by omega)] at this
      cases this) (by simp)
  rw [h1]
  congr 1
  apply List.ext_getElem?
  intro s
  unfold toShards
  rw [List.getElem?_map]
  cases hb : B[s]? with
  | none =>
    have hge : B.length ≤ s := by
      by_contra hc
      rw [List.getElem?_eq_getElem (by omega)] at hb
      cases hb
    rw [h3 s (fun e he hs => by
      have := hent e he s hs
      rw [hb] at this
      cases this)]
    rw [List.getElem?_eq_none (by simp; omega)]
    rfl
  | some x =>
    have hlt : s < B.length := by
      by_contra hc
      rw [List.getElem?_eq_none (by omega)] at hb
      cases hb
    cases x with
    | none =>
      rw [h3 s (fun e he hs => by
        have := hent e he s hs
        rw [hb] at this
        cases this)]
      rw [List.getElem?_replicate_of_lt (by omega)]
      rfl
    | some g =>
      have hs : s ∈ shardsOf v g := (h.mem g s).2 hb
      rw [h4 s g (fun e he hs' => by
        have := hent e he s hs'
        rw [hb] at this
        exact (Option.some.inj (Option.some.inj this)).symm)
        ⟨(g, shardsOf v g), mem_of_mem_shardsOf hs, hs⟩]
      simp

/-! ## The selection of `maxGid` and `minGid` -/

theorem scanMax_spec (v : List (Int × List Nat)) (l : List Int) (g0 m0 : Int) :
    (scanMax v l g0 m0 = g0 ∧ ∀ g ∈ l, ((shardsOf v g).length : Int) ≤ m0) ∨
    (scanMax v l g0 m0 ∈ l ∧ m0 < ((shardsOf v (scanMax v l g0 m0)).length : Int) ∧
      ∀ g ∈ l, (shardsOf v g).length ≤ (shardsOf v (scanMax v l g0 m0)).length) := by
  induction l generalizing g0 m0 with
  | nil => left; simp [scanMax]
  | cons a l ih =>
    by_cases h : ((shardsOf v a).length : Int) > m0
    · simp only [scanMax, h, if_true]
      rcases ih a ((shardsOf v a).length : Int) with ⟨h1, h2⟩ | ⟨h1, h2, h3⟩
      · right
        rw [h1]
        refine ⟨List.mem_cons_self _ _, h, ?_⟩
        intro g hg
        rcases List.mem_cons.1 hg with e | e
        · rw [e]
        · exact_mod_cast h2 g e
      · right
        refine ⟨List.mem_cons_of_mem _ h1, by omega, ?_⟩
        intro g hg
        rcases List.mem_cons.1 hg with e | e
        · rw [e]; omega
        · exact h3 g e
    · simp only [scanMax, h, if_false]
      rcases ih g0 m0 with ⟨h1, h2⟩ | ⟨h1, h2, h3⟩
      · left
        refine ⟨h1, ?_⟩
        intro g hg
        rcases List.mem_cons.1 hg with e | e
        · rw [e]; omega
        · exact h2 g e
      · right
        refine ⟨List.mem_cons_of_mem _ h1, h2, ?_⟩
        intro g hg
        rcases List.mem_cons.1 hg with e | e
        · rw [e]; omega
        · exact h3 g e

theorem scanMin_spec (v : List (Int × List Nat)) (l : List Int) (g0 m0 : Int) :
    (scanMin v l g0 m0 = g0 ∧ ∀ g ∈ l, g ≠ 0 → m0 ≤ ((shardsOf v g).length : Int)) ∨
    (scanMin v l g0 m0 ∈ l ∧ scanMin v l g0 m0 ≠ 0 ∧
      ((shardsOf v (scanMin v l g0 m0)).length : Int) < m0 ∧
      ∀ g ∈ l, g ≠ 0 → (shardsOf v (scanMin v l g0 m0)).length ≤ (shardsOf v g).length) := by
  induction l generalizing g0 m0 with
  | nil => left; simp [scanMin]
  | cons a l ih =>
    by_cases h : a ≠ 0 ∧ ((shardsOf v a).length : Int) < m0
    · have hif : (if a ≠ 0 ∧ ((shardsOf v a).length : Int) < m0 then
          scanMin v l a ((shardsOf v a).length : Int) else scanMin v l g0 m0)
          = scanMin v l a ((shardsOf v a).length : Int) := if_pos h
      simp only [scanMin, hif]
      rcases ih a ((shardsOf v a).length : Int) with ⟨h1, h2⟩ | ⟨h1, h2, h3, h4⟩
      · right
        rw [h1]
        refine ⟨List.mem_cons_self _ _, h.1, h.2, ?_⟩
        intro g hg hg0
        rcases List.mem_cons.1 hg with e | e
        · rw [e]
        · exact_mod_cast h2 g e hg0
      · right
        refine ⟨List.mem_cons_of_mem _ h1, h2, by omega, ?_⟩
        intro g hg hg0
        rcases List.mem_cons.1 hg with e | e
        · rw [e]; omega
        · exact h4 g e hg0
    · have hif : (if a ≠ 0 ∧ ((shardsOf v a).length : Int) < m0 then
          scanMin v l a ((shardsOf v a).length : Int) else scanMin v l g0 m0)
          = scanMin v l g0 m0 := if_neg h
      simp only [scanMin, hif]
      rcases ih g0 m0 with ⟨h1, h2⟩ | ⟨h1, h2, h3, h4⟩
      · left
        refine ⟨h1, ?_⟩
        intro g hg hg0
        rcases List.mem_cons.1 hg with e | e
        · subst e
          by_contra hc
          exact h ⟨hg0, by omega⟩
        · exact h2 g e hg0
      · right
        refine ⟨List.mem_cons_of_mem _ h1, h2, h3, ?_⟩
        intro g hg hg0
        rcases List.mem_cons.1 hg with e | e
        · subst e
          by_contra hc
          exact h ⟨hg0, by omega⟩
        · exact h4 g e hg0

theorem mem_sortInts (l : List Int) (g : Int) : g ∈ sortInts l ↔ g ∈ l := by
  unfold sortInts
  exact (List.perm_insertionSort _ l).mem_iff

/-- What `gidWithMinShards` returns when no slice is longer than `NShards`:
a key different from 0 with a shortest slice, or -1 when 0 is the only
possible key. -/
theorem gidWithMinShards_spec (v : List (Int × List Nat))
    (hlen : ∀ g, (shardsOf v g).length ≤ NShards) :
    (gidWithMinShards v ∈ mapKeys v ∧ gidWithMinShards v ≠ 0 ∧
      ∀ g ∈ mapKeys v, g ≠ 0 →
        (shardsOf v (gidWithMinShards v)).length ≤ (shardsOf v g).length) ∨
    (gidWithMinShards v = -1 ∧ ∀ g ∈ mapKeys v, g = 0) := by
  unfold gidWithMinShards
  rcases scanMin_spec v (sortInts (mapKeys v)) (-1) ((NShards : Int) + 1)
    with ⟨h1, h2⟩ | ⟨h1, h2, _, h4⟩
  · right
    refine ⟨h1, ?_⟩
    intro g hg
    by_contra hg0
    have := h2 g ((mem_sortInts _ g).2 hg) hg0
    have := hlen g
    omega
  · left
    exact ⟨(mem_sortInts _ _).1 h1, h2, fun g hg hg0 => h4 g ((mem_sortInts _ g).2 hg) hg0⟩

/-- What `gidWithMaxShards` returns: gid 0 when it holds a shard, else a key
with a longest slice (or -1 for the empty view). -/
theorem gidWithMaxShards_spec (v : List (Int × List Nat)) :
    (gidWithMaxShards v = 0 ∧ shardsOf v 0 ≠ []) ∨
    (shardsOf v 0 = [] ∧
      ((gidWithMaxShards v ∈ mapKeys v ∧
          ∀ g, (shardsOf v g).length ≤ (shardsOf v (gidWithMaxShards v)).length) ∨
        (gidWithMaxShards v = -1 ∧ mapKeys v = []))) := by
  unfold gidWithMaxShards
  cases h0 : mapGet? v 0 with
  | some l =>
    cases l with
    | cons a l =>
      left
      simp [shardsOf, h0]
    | nil =>
      right
      refine ⟨by simp [shardsOf, h0], ?_⟩
      simp only []
      rcases scanMax_spec v (sortInts (mapKeys v)) (-1) (-1) with ⟨h1, h2⟩ | ⟨h1, _, h3⟩
      · right
        refine ⟨h1, ?_⟩
        cases hk : mapKeys v with
        | nil => rfl
        | cons a l =>
          have := h2 a ((mem_sortInts _ a).2 (by rw [hk]; exact List.mem_cons_self _ _))
          omega
      · left
        refine ⟨(mem_sortInts _ _).1 h1, ?_⟩
        intro g
        by_cases hg : g ∈ mapKeys v
        · exact h3 g ((mem_sortInts _ g).2 hg)
        · rw [shardsOf_of_not_mem v g hg]
          simp
  | none =>
    right
    refine ⟨by simp [shardsOf, h0], ?_⟩
    simp only []
    rcases scanMax_spec v (sortInts (mapKeys v)) (-1) (-1) with ⟨h1, h2⟩ | ⟨h1, _, h3⟩
    · right
      refine ⟨h1, ?_⟩
      cases hk : mapKeys v with
      | nil => rfl
      | cons a l =>
        have := h2 a ((mem_sortInts _ a).2 (by rw [hk]; exact List.mem_cons_self _ _))
        omega
    · left
      refine ⟨(mem_sortInts _ _).1 h1, ?_⟩
      intro g
      by_cases hg : g ∈ mapKeys v
      · exact h3 g ((mem_sortInts _ g).2 hg)
      · rw [shardsOf_of_not_mem v g hg]
        simp

/-! ## The rebalance loop of `Join` -/

theorem rebalance_exit (fuel : Nat) (v : List (Int × List Nat)) (h : LoopDone v) :
    rebalance fuel v = .ok v := by
  unfold LoopDone at h
  cases fuel <;> simp only [rebalance, h, and_self, if_true, ne_eq, not_false_eq_true]

theorem rebalance_step (fuel : Nat) (v : List (Int × List Nat)) (s : Nat) (rest : List Nat)
    (h : ¬ LoopDone v) (hd : shardsOf v (gidWithMaxShards v) = s :: rest) :
    rebalance (fuel + 1) v = rebalance fuel (moveFirst v s) := by
  unfold LoopDone at h
  unfold moveFirst
  rw [rebalance]
  simp only [if_neg h]
  rw [hd]

theorem rebalance_zero (v : List (Int × List Nat)) (h : ¬ LoopDone v) :
    rebalance 0 v = .error Fault.fuel := by
  unfold LoopDone at h
  rw [rebalance]
  simp only [if_neg h]

theorem rebalance_panic (fuel : Nat) (v : List (Int × List Nat)) (h : ¬ LoopDone v)
    (hd : shardsOf v (gidWithMaxShards v) = []) :
    rebalance (fuel + 1) v = .error Fault.panic := by
  unfold LoopDone at h
  rw [rebalance]
  simp only [if_neg h]
  rw [hd]

theorem shardsOf_move (v : List (Int × List Nat)) (d r : Int) (hdr : d ≠ r) (s : Nat)
    (rest : List Nat) (hd : shardsOf v d = s :: rest) (g : Int) :
    shardsOf (mapSet (mapSet v r (shardsOf v r ++ [s])) d
        (shardsOf (mapSet v r (shardsOf v r ++ [s])) d).tail) g
      = if g = d then rest else if g = r then shardsOf v r ++ [s] else shardsOf v g := by
  rw [shardsOf_mapSet, shardsOf_mapSet, shardsOf_mapSet]
  by_cases hgd : g = d
  · subst hgd
    simp [Ne.symm hdr, hd]
  · by_cases hgr : g = r
    · subst hgr
      simp [hdr, hgd]
    · simp [hgd, hgr, Ne.symm hgd, Ne.symm hgr]

theorem mem_mapKeys_move (v : List (Int × List Nat)) (d r : Int) (x y : List Nat) (g : Int) :
    g ∈ mapKeys (mapSet (mapSet v r x) d y) ↔ g = d ∨ g = r ∨ g ∈ mapKeys v := by
  rw [mem_mapKeys_mapSet, mem_mapKeys_mapSet]

theorem pending_move (R : List Int) (B : List (Option Int)) (s : Nat) (d r : Int)
    (hB : B[s]? = some (some d)) (hd : d ∉ R) (hdr : d ≠ r) :
    pending (r :: R) (B.set s (some r)) < pending R B := by
  have hlt : s < B.length := by
    by_contra hc
    rw [List.getElem?_eq_none (by omega)] at hB
    cases hB
  have hBs : B[s] = some d := by
    rw [List.getElem?_eq_getElem hlt] at hB
    exact Option.some.inj hB
  unfold pending
  rw [List.countP_set _ _ _ _ hlt, hBs]
  have hp : (decide (∀ r_1 ∈ r :: R, some d ≠ some r_1)) = true := by
    rw [decide_eq_true_eq]
    intro x hx e
    have hxd : d = x := Option.some.inj e
    rcases List.mem_cons.1 hx with e1 | e1
    · exact hdr (hxd.trans e1)
    · exact hd (hxd ▸ e1)
  have hq : (decide (∀ r_1 ∈ r :: R, some r ≠ some r_1)) = false := by
    rw [decide_eq_false_iff_not]
    intro hc
    exact hc r (List.mem_cons_self _ _) rfl
  rw [hp, hq]
  simp only [if_true, Bool.false_eq_true, if_false, Nat.add_zero]
  have hpos : 0 < List.countP (fun x => decide (∀ r_1 ∈ r :: R, x ≠ some r_1)) B := by
    rw [List.countP_pos_iff]
    exact ⟨some d, hBs ▸ List.getElem_mem hlt, hp⟩
  have hmono : List.countP (fun x => decide (∀ r_1 ∈ r :: R, x ≠ some r_1)) B
      ≤ List.countP (fun x => decide (∀ r_1 ∈ R, x ≠ some r_1)) B := by
    apply List.countP_mono_left
    intro x _ hx
    rw [decide_eq_true_eq] at hx ⊢
    exact fun y hy => hx y (List.mem_cons_of_mem _ hy)
  omega

/-- One turn of the loop that does not break: the first shard of `maxGid`
exists and goes to `minGid`, a gid that never gives a shard away later. -/
theorem rebalance_progress (v : List (Int × List Nat)) (B : List (Option Int)) (R : List Int)
    (h : Rep v B) (hB : B.length = NShards) (hall : ∀ x ∈ B, x ≠ none)
    (hR : Receivers v R) (hbr : ¬ LoopDone v) :
    ∃ s rest, shardsOf v (gidWithMaxShards v) = s :: rest ∧
      Rep (moveFirst v s) (B.set s (some (gidWithMinShards v))) ∧
      (∀ x ∈ B.set s (some (gidWithMinShards v)), x ≠ none) ∧
      Receivers (moveFirst v s) (gidWithMinShards v :: R) ∧
      pending (gidWithMinShards v :: R) (B.set s (some (gidWithMinShards v))) < pending R B ∧
      (∀ g, g ∈ mapKeys (moveFirst v s) ↔ g = gidWithMinShards v ∨ g ∈ mapKeys v) ∧
      (gidWithMinShards v ∈ mapKeys v ∨
        (gidWithMinShards v = -1 ∧ ∀ k ∈ mapKeys v, k = 0)) ∧
      B[s]? = some (some (gidWithMaxShards v)) ∧
      gidWithMaxShards v ∉ R ∧ gidWithMaxShards v ≠ gidWithMinShards v := by
  have hmin := gidWithMinShards_spec v (fun g => hB ▸ h.len_le g)
  have hmax := gidWithMaxShards_spec v
  unfold LoopDone at hbr
  generalize hd : gidWithMaxShards v = d at *
  generalize hr : gidWithMinShards v = r at *
  -- the facts about `minGid`
  have hr0 : r ≠ 0 := by
    rcases hmin with ⟨_, h2, _⟩ | ⟨h1, _⟩
    · exact h2
    · rw [h1]; decide
  have hrmin : ∀ k ∈ mapKeys v, k ≠ 0 →
      r ∈ mapKeys v ∧ (shardsOf v r).length ≤ (shardsOf v k).length := by
    intro k hk hk0
    rcases hmin with ⟨h1, _, h3⟩ | ⟨_, h2⟩
    · exact ⟨h1, h3 k hk hk0⟩
    · exact absurd (h2 k hk) hk0
  have hrkey : r ∈ mapKeys v ∨ (r = -1 ∧ ∀ k ∈ mapKeys v, k = 0) := by
    rcases hmin with ⟨h1, _, _⟩ | h1
    · exact Or.inl h1
    · exact Or.inr h1
  -- some gid holds shard 0
  have hpos : 0 < B.length := by rw [hB]; decide
  obtain ⟨g0, hg0⟩ : ∃ g0, B[0]? = some (some g0) := by
    rw [List.getElem?_eq_getElem hpos]
    cases hx : B[0] with
    | none => exact absurd hx (hall _ (List.getElem_mem hpos))
    | some g => exact ⟨g, rfl⟩
  have hg0mem : 0 ∈ shardsOf v g0 := (h.mem g0 0).2 hg0
  have hg0key : g0 ∈ mapKeys v := mem_mapKeys_of_shardsOf v g0 0 hg0mem
  have hg0len : 1 ≤ (shardsOf v g0).length := List.length_pos_of_mem hg0mem
  -- the slice of `maxGid` is not empty
  have hdlen : 1 ≤ (shardsOf v d).length := by
    rcases hmax with ⟨h1, h2⟩ | ⟨_, ⟨_, h2⟩ | ⟨_, h2⟩⟩
    · rw [h1]
      exact List.length_pos.2 h2
    · exact le_trans hg0len (h2 g0)
    · rw [h2] at hg0key
      simp at hg0key
  obtain ⟨s, rest, hsr⟩ : ∃ s rest, shardsOf v d = s :: rest := by
    cases hl : shardsOf v d with
    | nil => rw [hl] at hdlen; simp at hdlen
    | cons s rest => exact ⟨s, rest, rfl⟩
  have hsd : s ∈ shardsOf v d := by rw [hsr]; exact List.mem_cons_self _ _
  have hdkey : d ∈ mapKeys v := mem_mapKeys_of_shardsOf v d s hsd
  have hBs : B[s]? = some (some d) := (h.mem d s).1 hsd
  have hgap : d ≠ 0 → (shardsOf v r).length + 2 ≤ (shardsOf v d).length := by
    intro hd0
    by_contra hc
    exact hbr ⟨hd0, by omega⟩
  have hdr : d ≠ r := by
    intro e
    have := hgap (e ▸ hr0)
    rw [e] at this
    omega
  have hdR : d ∉ R := by
    intro hmem
    obtain ⟨hd0, _, hle⟩ := hR d hmem
    have h1 := hrmin d hdkey hd0
    have h2 := hle r h1.1 hr0
    have h3 := hgap hd0
    omega
  have hlen : ∀ g, (shardsOf (moveFirst v s) g).length =
      if g = d then (shardsOf v d).length - 1
      else if g = r then (shardsOf v r).length + 1 else (shardsOf v g).length := by
    intro g
    unfold moveFirst
    rw [hd, hr, shardsOf_move v d r hdr s rest hsr g]
    by_cases hgd : g = d
    · simp [hgd, hsr]
    · by_cases hgr : g = r
      · simp [hgr, Ne.symm hdr]
      · simp [hgd, hgr]
  have hkeys : ∀ g, g ∈ mapKeys (moveFirst v s) ↔ g = r ∨ g ∈ mapKeys v := by
    intro g
    unfold moveFirst
    rw [hd, hr, mem_mapKeys_move]
    constructor
    · rintro (e | e | e)
      · exact Or.inr (e ▸ hdkey)
      · exact Or.inl e
      · exact Or.inr e
    · rintro (e | e)
      · exact Or.inr (Or.inl e)
      · exact Or.inr (Or.inr e)
  refine ⟨s, rest, hsr, ?_, ?_, ?_, pending_move R B s d r hBs hdR hdr, hkeys, hrkey,
    hBs, hdR, hdr⟩
  · have := Rep_move h d r hdr s rest hsr
    unfold moveFirst
    rw [hd, hr]
    exact this
  · intro x hx
    rcases List.mem_or_eq_of_mem_set hx with e | e
    · exact hall x e
    · rw [e]; simp
  · intro x hx
    rcases List.mem_cons.1 hx with e | e
    · subst e
      refine ⟨hr0, (hkeys x).2 (Or.inl rfl), ?_⟩
      intro k hk hk0
      rw [hlen x, hlen k]
      rcases (hkeys k).1 hk with e1 | e1
      · subst e1
        simp [Ne.symm hdr]
      · by_cases hkd : k = d
        · have := hgap (hkd ▸ hk0)
          simp only [hkd, Ne.symm hdr, if_true, if_false]
          omega
        · by_cases hkr : k = x
          · simp [hkr, Ne.symm hdr]
          · have := (hrmin k e1 hk0).2
            simp only [hkd, hkr, Ne.symm hdr, if_true, if_false]
            omega
    · obtain ⟨hx0, hxkey, hle⟩ := hR x e
      have hxd : x ≠ d := fun e1 => hdR (e1 ▸ e)
      have hrk := hrmin x hxkey hx0
      have hxr := hle r hrk.1 hr0
      refine ⟨hx0, (hkeys x).2 (Or.inr hxkey), ?_⟩
      intro k hk hk0
      rw [hlen x, hlen k]
      by_cases hxr' : x = r
      · subst hxr'
        by_cases hkd : k = d
        · have := hgap (hkd ▸ hk0)
          simp only [hkd, hxd, if_true, if_false]
          omega
        · by_cases hkr : k = x
          · simp [hkr, hxd]
          · have hkk : k ∈ mapKeys v := by
              rcases (hkeys k).1 hk with e1 | e1
              · exact absurd e1 hkr
              · exact e1
            have := (hrmin k hkk hk0).2
            simp only [hkd, hkr, hxd, if_true, if_false]
            omega
      · by_cases hkd : k = d
        · have := hgap (hkd ▸ hk0)
          simp only [hkd, hxd, hxr', if_true, if_false]
          omega
        · by_cases hkr : k = r
          · simp only [hkr, hxd, hxr', Ne.symm hdr, if_true, if_false]
            omega
          · have hkk : k ∈ mapKeys v := by
              rcases (hkeys k).1 hk with e1 | e1
              · exact absurd e1 hkr
              · exact e1
            have := hle k hkk hk0
            simp only [hkd, hkr, hxd, hxr', if_true, if_false]
            omega

/-- The rebalance loop reaches its `break` within `fuel` moves as soon as
`fuel` bounds the number of shards not yet held by a receiver. -/
theorem rebalance_spec (fuel : Nat) :
    ∀ (v : List (Int × List Nat)) (B : List (Option Int)) (R : List Int),
      Rep v B → B.length = NShards → (∀ x ∈ B, x ≠ none) → Receivers v R →
      pending R B ≤ fuel →
      ∃ v1 B1, rebalance fuel v = .ok v1 ∧ Rep v1 B1 ∧ B1.length = NShards ∧
        (∀ x ∈ B1, x ≠ none) ∧
        (∀ g, g ∈ mapKeys v → g ∈ mapKeys v1) ∧
        (∀ g ∈ mapKeys v1, g ∈ mapKeys v ∨ (g = -1 ∧ ∀ k ∈ mapKeys v, k = 0)) ∧
        LoopDone v1 := by
  induction fuel with
  | zero =>
    intro v B R h hB hall hR hf
    by_cases hbr : LoopDone v
    · exact ⟨v, B, rebalance_exit 0 v hbr, h, hB, hall, fun g hg => hg,
        fun g hg => Or.inl hg, hbr⟩
    · obtain ⟨s, rest, _, _, _, _, hp, _⟩ := rebalance_progress v B R h hB hall hR hbr
      omega
  | succ fuel ih =>
    intro v B R h hB hall hR hf
    by_cases hbr : LoopDone v
    · exact ⟨v, B, rebalance_exit _ v hbr, h, hB, hall, fun g hg => hg,
        fun g hg => Or.inl hg, hbr⟩
    · obtain ⟨s, rest, hsr, hrep, hall2, hR2, hp, hkeys, hrkey, _⟩ :=
        rebalance_progress v B R h hB hall hR hbr
      obtain ⟨v1, B1, h1, h2, h3, h4, h5, h6, h7⟩ :=
        ih (moveFirst v s) (B.set s (some (gidWithMinShards v))) (gidWithMinShards v :: R)
          hrep (by simpa using hB) hall2 hR2 (by omega)
      refine ⟨v1, B1, by rw [rebalance_step fuel v s rest hbr hsr]; exact h1, h2, h3, h4,
        ?_, ?_, h7⟩
      · intro g hg
        exact h5 g ((hkeys g).2 (Or.inr hg))
      · intro g hg
        rcases h6 g hg with e | ⟨_, e⟩
        · rcases (hkeys g).1 e with e1 | e1
          · rcases hrkey with e2 | e2
            · left; rw [e1]; exact e2
            · right; rw [e1]; exact e2
          · exact Or.inl e1
        · have : gidWithMinShards v = 0 := e _ ((hkeys _).2 (Or.inl rfl))
          exact absurd this (hR2 _ (List.mem_cons_self _ _)).1

theorem pending_nil (B : List (Option Int)) : pending [] B = B.length := by
  unfold pending
  rw [List.countP_eq_length]
  intro x _
  simp

/-- When the loop has broken, gid 0 holds no shard and no slice is more
than one longer than the slice of a key different from 0. -/
theorem LoopDone.balanced {v : List (Int × List Nat)} {B : List (Option Int)}
    (hd : LoopDone v) (h : Rep v B) (hB : B.length = NShards) :
    shardsOf v 0 = [] ∧
      ∀ g, ∀ k ∈ mapKeys v, k ≠ 0 → (shardsOf v g).length ≤ (shardsOf v k).length + 1 := by
  have hmin := gidWithMinShards_spec v (fun g => hB ▸ h.len_le g)
  have hmax := gidWithMaxShards_spec v
  unfold LoopDone at hd
  rcases hmax with ⟨h1, _⟩ | ⟨h0, hmax⟩
  · exact absurd h1 hd.1
  · refine ⟨h0, ?_⟩
    intro g k hk hk0
    rcases hmin with ⟨_, _, h3⟩ | ⟨_, h2⟩
    · rcases hmax with ⟨_, h4⟩ | ⟨_, h4⟩
      · have := h4 g
        have := h3 k hk hk0
        have := hd.2
        omega
      · rw [h4] at hk
        simp at hk
    · exact absurd (h2 k hk) hk0

/-! ## Arrays and partial assignments -/

theorem toShards_map_some (A : List Int) : toShards (A.map some) = A := by
  unfold toShards
  induction A with
  | nil => rfl
  | cons a A ih => simp [ih]

theorem count_toShards (B : List (Option Int)) (g : Int)
    (h : g ≠ 0 ∨ ∀ x ∈ B, x ≠ none) : (toShards B).count g = B.count (some g) := by
  induction B with
  | nil => simp [toShards]
  | cons x B ih =>
    have ih' : List.count g (List.map (fun x => x.getD 0) B) = List.count (some g) B :=
      ih (h.imp id (fun h' y hy => h' y (List.mem_cons_of_mem _ hy)))
    cases x with
    | none =>
      rcases h with h | h
      · simp [toShards, List.count_cons, ih', Ne.symm h]
      · exact absurd rfl (h none (List.mem_cons_self _ _))
    | some a =>
      by_cases ha : a = g
      · simp [toShards, List.count_cons, ih', ha]
      · simp [toShards, List.count_cons, ih', ha]

theorem mem_toShards (B : List (Option Int)) (g : Int) (hg : g ∈ toShards B) :
    some g ∈ B ∨ (g = 0 ∧ none ∈ B) := by
  unfold toShards at hg
  obtain ⟨x, hx, e⟩ := List.mem_map.1 hg
  cases x with
  | none => right; exact ⟨e.symm, hx⟩
  | some a =>
    left
    have : a = g := e
    exact this ▸ hx

theorem Rep.mem_keys_of_mem {v : List (Int × List Nat)} {B : List (Option Int)} (h : Rep v B)
    {g : Int} (hg : some g ∈ B) : g ∈ mapKeys v ∧ shardsOf v g ≠ [] := by
  obtain ⟨s, hs⟩ := List.mem_iff_getElem?.1 hg
  have hm : s ∈ shardsOf v g := (h.mem g s).2 hs
  exact ⟨mem_mapKeys_of_shardsOf v g s hm, List.ne_nil_of_mem hm⟩

theorem length_toShards (B : List (Option Int)) : (toShards B).length = B.length := by
  simp [toShards]

/-! ## Balance of a configuration -/

theorem Balanced_of_BalancedAll (c : Config) (h : BalancedAll c) : Balanced c := by
  intro hi lo hhi hlo
  have h1 := List.max?_mem (fun a b => max_choice a b) hhi
  have h2 := List.min?_mem (fun a b => min_choice a b) hlo
  unfold groupCounts at h1 h2
  obtain ⟨g, hg, e1⟩ := List.mem_map.1 h1
  obtain ⟨k, hk, e2⟩ := List.mem_map.1 h2
  rw [List.mem_filter, decide_eq_true_eq] at hg hk
  have := h g k hg.2 hk.2 (Or.inl hg.1) (Or.inl hk.1)
  unfold shardCount at e1 e2
  omega

/-- A configuration whose shards are the array of a balanced view in which
gid 0 holds nothing and whose groups are keys of that view is balanced. -/
theorem BalancedAll_of_view (c : Config) (v : List (Int × List Nat)) (B : List (Option Int))
    (h : Rep v B) (hs : c.Shards = toShards B)
    (hk : ∀ g ∈ mapKeys c.Groups, g ∈ mapKeys v) (hb : ViewBalanced v) : BalancedAll c := by
  have key : ∀ g, g ≠ 0 → (g ∈ mapKeys c.Groups ∨ g ∈ c.Shards) → g ∈ mapKeys v := by
    intro g hg0 hg
    rcases hg with hg | hg
    · exact hk g hg
    · rw [hs] at hg
      rcases mem_toShards B g hg with h1 | h1
      · exact (h.mem_keys_of_mem h1).1
      · exact absurd h1.1 hg0
  intro g k hg0 hk0 hg hk'
  rw [hs, count_toShards B g (Or.inl hg0), count_toShards B k (Or.inl hk0), ← h.len g, ← h.len k]
  exact hb g (key g hg0 hg) k (key k hk0 hk') hg0 hk0

/-! ## The method `Join` -/

/-- The method `Join` returns on every state whose latest configuration has
`NShards` shard entries as soon as `fuel` allows `NShards` moves; the view
it writes back is one on which the loop has broken. -/
theorem Join_run (fuel : Nat) (csm : CtrlerStateMachine) (groups : List (Int × List String))
    (c : Config) (hc : csm.Configs.getLast? = some c) (hlen : c.Shards.length = NShards)
    (hf : NShards ≤ fuel) :
    ∃ v1 B1,
      rebalance fuel (buildGidToShards (joinGroups (copyGroups c.Groups) groups) c.Shards)
        = .ok v1 ∧
      Rep v1 B1 ∧ B1.length = NShards ∧ (∀ x ∈ B1, x ≠ none) ∧ LoopDone v1 ∧
      (∀ g, g ∈ mapKeys (joinGroups (copyGroups c.Groups) groups) ∨ g ∈ c.Shards →
        g ∈ mapKeys v1) ∧
      (∀ g ∈ mapKeys v1,
        (g ∈ mapKeys (joinGroups (copyGroups c.Groups) groups) ∨ g ∈ c.Shards) ∨
        (g = -1 ∧ ∀ k, k ∈ mapKeys (joinGroups (copyGroups c.Groups) groups) ∨ k ∈ c.Shards →
          k = 0)) ∧
      Join fuel csm groups =
        ({ Configs := csm.Configs ++
            [{ Num := (csm.Configs.length : Int), Shards := toShards B1,
               Groups := joinGroups (copyGroups c.Groups) groups }] }, .ok Err.OK) := by
  have hrep := Rep_build (joinGroups (copyGroups c.Groups) groups) c.Shards
  obtain ⟨v1, B1, h1, h2, h3, h4, h5, h6, h7⟩ :=
    rebalance_spec fuel _ _ [] hrep (by simpa using hlen) (by simp)
      (by intro x hx; simp at hx) (by rw [pending_nil]; simpa [hlen] using hf)
  refine ⟨v1, B1, h1, h2, h3, h4, h7, ?_, ?_, ?_⟩
  · intro g hg
    exact h5 g ((mem_mapKeys_build _ _ g).2 hg)
  · intro g hg
    rcases h6 g hg with e | ⟨e1, e2⟩
    · exact Or.inl ((mem_mapKeys_build _ _ g).1 e)
    · exact Or.inr ⟨e1, fun k hk => e2 k ((mem_mapKeys_build _ _ k).2 hk)⟩
  · unfold Join
    simp only [hc, h1, Rep_store h2 h3]

/-- After `Join` the shard counts of all gids different from 0 that are
groups or own a shard differ by at most 1. -/
theorem Join_balancedAll (fuel : Nat) (csm : CtrlerStateMachine)
    (groups : List (Int × List String)) (c : Config) (hc : csm.Configs.getLast? = some c)
    (hlen : c.Shards.length = NShards) (hf : NShards ≤ fuel) :
    ∃ c1, Join fuel csm groups = ({ Configs := csm.Configs ++ [c1] }, .ok Err.OK) ∧
      c1.Shards.length = NShards ∧ BalancedAll c1 := by
  obtain ⟨v1, B1, _, h2, h3, _, h5, h6, _, h8⟩ := Join_run fuel csm groups c hc hlen hf
  refine ⟨_, h8, by simp [length_toShards, h3], ?_⟩
  refine BalancedAll_of_view _ v1 B1 h2 rfl (fun g hg => h6 g (Or.inl hg)) ?_
  intro g _ k hk _ hk0
  exact (h5.balanced h2 h3).2 g k hk hk0

/-! ## The method `Leave` -/

theorem mapGet?_deleteAll {β : Type} (gids : List Int) (m : List (Int × β)) (k : Int) :
    mapGet? (deleteAll gids m) k = if k ∈ gids then none else mapGet? m k := by
  induction gids generalizing m with
  | nil => simp [deleteAll]
  | cons g gids ih =>
    have : deleteAll (g :: gids) m = deleteAll gids (mapDelete m g) := rfl
    rw [this, ih, mapGet?_mapDelete]
    by_cases h1 : k ∈ gids
    · simp [h1]
    · by_cases h2 : k = g <;> simp [h1, h2]

theorem mem_mapKeys_deleteAll {β : Type} (gids : List Int) (m : List (Int × β)) (k : Int) :
    k ∈ mapKeys (deleteAll gids m) ↔ k ∈ mapKeys m ∧ k ∉ gids := by
  rw [mem_mapKeys_iff, mem_mapKeys_iff, mapGet?_deleteAll]
  by_cases h : k ∈ gids <;> simp [h]

theorem mapKeys_deleteAll_nodup {β : Type} (gids : List Int) (m : List (Int × β))
    (h : (mapKeys m).Nodup) : (mapKeys (deleteAll gids m)).Nodup := by
  induction gids generalizing m with
  | nil => simpa [deleteAll] using h
  | cons g gids ih => exact ih (mapDelete m g) (mapKeys_mapDelete_nodup m g h)

theorem blankAll_cons (g : Int) (gids : List Int) (B : List (Option Int)) :
    blankAll (g :: gids) B = blankAll gids (blank g B) := rfl

theorem length_blankAll (gids : List Int) (B : List (Option Int)) :
    (blankAll gids B).length = B.length := by
  induction gids generalizing B with
  | nil => rfl
  | cons g gids ih => rw [blankAll_cons, ih]; simp [blank]

theorem getElem?_blankAll (gids : List Int) (B : List (Option Int)) (s : Nat) (g : Int) :
    (blankAll gids B)[s]? = some (some g) ↔ g ∉ gids ∧ B[s]? = some (some g) := by
  induction gids generalizing B with
  | nil => simp [blankAll]
  | cons a gids ih =>
    rw [blankAll_cons, ih, getElem?_blank]
    simp only [List.mem_cons, not_or]
    tauto

theorem count_blankAll (gids : List Int) (B : List (Option Int)) (g : Int) :
    (blankAll gids B).count (some g) = if g ∈ gids then 0 else B.count (some g) := by
  induction gids generalizing B with
  | nil => simp [blankAll]
  | cons a gids ih =>
    rw [blankAll_cons, ih, count_blank]
    by_cases h1 : g ∈ gids
    · simp [h1]
    · by_cases h2 : g = a <;> simp [h1, h2]

theorem getElem?_blank_none (k : Int) (B : List (Option Int)) (s : Nat)
    (h : B[s]? = some none ∨ B[s]? = some (some k)) : (blank k B)[s]? = some none := by
  unfold blank
  rw [List.getElem?_map]
  rcases h with h | h <;> simp [h]

theorem blank_of_not_mem (k : Int) (B : List (Option Int)) (h : some k ∉ B) :
    blank k B = B := by
  unfold blank
  induction B with
  | nil => rfl
  | cons x B ih =>
    have hx : x ≠ some k := fun e => h (e ▸ List.mem_cons_self _ _)
    have := ih (fun hm => h (List.mem_cons_of_mem _ hm))
    simp [hx, this]

theorem blankAll_of_not_mem (gids : List Int) (B : List (Option Int))
    (h : ∀ g ∈ gids, some g ∉ B) : blankAll gids B = B := by
  induction gids with
  | nil => rfl
  | cons a gids ih =>
    rw [blankAll_cons, blank_of_not_mem a B (h a (List.mem_cons_self _ _))]
    exact ih (fun g hg => h g (List.mem_cons_of_mem _ hg))

theorem Rep.not_mem_of_not_key {v : List (Int × List Nat)} {B : List (Option Int)}
    (h : Rep v B) {g : Int} (hg : g ∉ mapKeys v) : some g ∉ B := by
  intro hm
  exact hg (h.mem_keys_of_mem hm).1

theorem leaveGids_cons_some (gid : Int) (gids : List Int) (G : List (Int × List String))
    (v : List (Int × List Nat)) (U shards : List Nat) (h : mapGet? v gid = some shards) :
    leaveGids (gid :: gids) G v U
      = leaveGids gids (mapDelete G gid) (mapDelete v gid) (U ++ shardsOf v gid) := by
  have hs : shardsOf v gid = shards := by unfold shardsOf; rw [h]; rfl
  rw [leaveGids, h, hs]
  cases hG : mapGet? G gid with
  | some x => rfl
  | none =>
    simp only []
    rw [mapDelete_of_not_mem G gid ((not_mem_mapKeys_iff G gid).2 hG)]

theorem leaveGids_cons_none (gid : Int) (gids : List Int) (G : List (Int × List String))
    (v : List (Int × List Nat)) (U : List Nat) (h : mapGet? v gid = none) :
    leaveGids (gid :: gids) G v U = leaveGids gids (mapDelete G gid) v U := by
  rw [leaveGids, h]
  cases hG : mapGet? G gid with
  | some x => rfl
  | none =>
    simp only []
    rw [mapDelete_of_not_mem G gid ((not_mem_mapKeys_iff G gid).2 hG)]

/-- The loop over `gids` of `Leave`: it deletes the listed gids from the
groups and from the view and collects their shards, which the assignment
then no longer places. -/
theorem leaveGids_spec (gids : List Int) :
    ∀ (G : List (Int × List String)) (v : List (Int × List Nat)) (U : List Nat)
      (B : List (Option Int)),
      Rep v B → (∀ s ∈ U, B[s]? = some none) → U.Nodup →
      (leaveGids gids G v U).1 = deleteAll gids G ∧
      Rep (leaveGids gids G v U).2.1 (blankAll gids B) ∧
      (∀ s ∈ (leaveGids gids G v U).2.2, (blankAll gids B)[s]? = some none) ∧
      (leaveGids gids G v U).2.2.Nodup ∧
      (∀ g, g ∈ mapKeys (leaveGids gids G v U).2.1 ↔ g ∈ mapKeys v ∧ g ∉ gids) ∧
      ((∀ g ∈ gids, g ∉ mapKeys v) →
        (leaveGids gids G v U).2.1 = v ∧ (leaveGids gids G v U).2.2 = U) := by
  induction gids with
  | nil =>
    intro G v U B h hU hnd
    exact ⟨rfl, h, hU, hnd, fun g => by simp [leaveGids], fun _ => ⟨rfl, rfl⟩⟩
  | cons gid gids ih =>
    intro G v U B h hU hnd
    cases hv : mapGet? v gid with
    | some shards =>
      rw [leaveGids_cons_some gid gids G v U shards hv, blankAll_cons]
      have hkey : gid ∈ mapKeys v := (mem_mapKeys_iff v gid).2 ⟨shards, hv⟩
      have hU1 : ∀ s ∈ U ++ shardsOf v gid, (blank gid B)[s]? = some none := by
        intro s hs
        rcases List.mem_append.1 hs with h1 | h1
        · exact getElem?_blank_none gid B s (Or.inl (hU s h1))
        · exact getElem?_blank_none gid B s (Or.inr ((h.mem gid s).1 h1))
      have hnd1 : (U ++ shardsOf v gid).Nodup := by
        rw [List.nodup_append]
        refine ⟨hnd, h.nodup gid, ?_⟩
        intro s h1 h2
        have := (h.mem gid s).1 h2
        rw [hU s h1] at this
        cases this
      obtain ⟨i1, i2, i3, i4, i5, _⟩ :=
        ih (mapDelete G gid) (mapDelete v gid) (U ++ shardsOf v gid) (blank gid B)
          (Rep_delete h gid) hU1 hnd1
      refine ⟨i1, i2, i3, i4, ?_, ?_⟩
      · intro g
        rw [i5 g, mem_mapKeys_mapDelete]
        simp only [List.mem_cons, not_or]
        tauto
      · intro hno
        exact absurd hkey (hno gid (List.mem_cons_self _ _))
    | none =>
      rw [leaveGids_cons_none gid gids G v U hv, blankAll_cons]
      have hkey : gid ∉ mapKeys v := (not_mem_mapKeys_iff v gid).2 hv
      rw [blank_of_not_mem gid B (h.not_mem_of_not_key hkey)]
      obtain ⟨i1, i2, i3, i4, i5, i6⟩ := ih (mapDelete G gid) v U B h hU hnd
      refine ⟨i1, i2, i3, i4, ?_, ?_⟩
      · intro g
        rw [i5 g]
        simp only [List.mem_cons, not_or]
        constructor
        · rintro ⟨h1, h2⟩
          exact ⟨h1, fun e => hkey (e ▸ h1), h2⟩
        · rintro ⟨h1, _, h2⟩
          exact ⟨h1, h2⟩
      · intro hno
        exact i6 (fun g hg => hno g (List.mem_cons_of_mem _ hg))

/-- What `gidWithMinShards` returns on a view that holds an assignment of
`NShards` shards. -/
theorem Rep.minGid {v : List (Int × List Nat)} {B : List (Option Int)} (h : Rep v B)
    (hB : B.length = NShards) :
    gidWithMinShards v ≠ 0 ∧
    (∀ k ∈ mapKeys v, k ≠ 0 →
      gidWithMinShards v ∈ mapKeys v ∧
        (shardsOf v (gidWithMinShards v)).length ≤ (shardsOf v k).length) ∧
    (gidWithMinShards v ∈ mapKeys v ∨ (gidWithMinShards v = -1 ∧ ∀ k ∈ mapKeys v, k = 0)) := by
  have hmin := gidWithMinShards_spec v (fun g => hB ▸ h.len_le g)
  refine ⟨?_, ?_, ?_⟩
  · rcases hmin with ⟨_, h2, _⟩ | ⟨h1, _⟩
    · exact h2
    · rw [h1]; decide
  · intro k hk hk0
    rcases hmin with ⟨h1, _, h3⟩ | ⟨_, h2⟩
    · exact ⟨h1, h3 k hk hk0⟩
    · exact absurd (h2 k hk) hk0
  · rcases hmin with ⟨h1, _, _⟩ | h1
    · exact Or.inl h1
    · exact Or.inr h1

/-- The loop of `Leave` that places the collected shards one at a time on
the gid with the fewest shards. -/
theorem assignShards_spec (U : List Nat) :
    ∀ (v : List (Int × List Nat)) (B : List (Option Int)),
      Rep v B → B.length = NShards → (∀ s ∈ U, B[s]? = some none) → U.Nodup →
      ∃ B1, Rep (assignShards U v) B1 ∧ B1.length = NShards ∧
        (∀ s, s ∉ U → B1[s]? = B[s]?) ∧
        (∀ s ∈ U, ∃ g, B1[s]? = some (some g) ∧ g ≠ 0) ∧
        (∀ g ∈ mapKeys v, g ∈ mapKeys (assignShards U v)) ∧
        (∀ g ∈ mapKeys (assignShards U v),
          g ∈ mapKeys v ∨ (g = -1 ∧ ∀ k ∈ mapKeys v, k = 0)) ∧
        (ViewBalanced v → ViewBalanced (assignShards U v)) := by
  induction U with
  | nil =>
    intro v B h hB _ _
    exact ⟨B, h, hB, fun s _ => rfl, fun s hs => by simp at hs, fun g hg => hg,
      fun g hg => Or.inl hg, fun hb => hb⟩
  | cons s U ih =>
    intro v B h hB hU hnd
    obtain ⟨hr0, hrmin, hrkey⟩ := h.minGid hB
    generalize hr : gidWithMinShards v = r at *
    have hs : B[s]? = some none := hU s (List.mem_cons_self _ _)
    have hsU : s ∉ U := (List.nodup_cons.1 hnd).1
    have hrep := Rep_assign h s r hs
    have hU' : ∀ s' ∈ U, (B.set s (some r))[s']? = some none := by
      intro s' hs'
      have hne : s ≠ s' := fun e => hsU (e ▸ hs')
      rw [List.getElem?_set_ne hne]
      exact hU s' (List.mem_cons_of_mem _ hs')
    obtain ⟨B1, i1, i2, i3, i4, i5, i6, i7⟩ :=
      ih (mapSet v r (shardsOf v r ++ [s])) (B.set s (some r)) hrep (by simpa using hB) hU'
        (List.nodup_cons.1 hnd).2
    have hlt : s < B.length := by
      by_contra hc
      rw [List.getElem?_eq_none (by omega)] at hs
      cases hs
    have hdef : assignShards (s :: U) v = assignShards U (mapSet v r (shardsOf v r ++ [s])) := by
      rw [assignShards, hr]
    rw [hdef]
    refine ⟨B1, i1, i2, ?_, ?_, ?_, ?_, ?_⟩
    · intro s' hs'
      have h1 : s' ∉ U := fun e => hs' (List.mem_cons_of_mem _ e)
      have h2 : s ≠ s' := fun e => hs' (e ▸ List.mem_cons_self _ _)
      rw [i3 s' h1, List.getElem?_set_ne h2]
    · intro s' hs'
      rcases List.mem_cons.1 hs' with e | e
      · subst e
        refine ⟨r, ?_, hr0⟩
        rw [i3 s' hsU, List.getElem?_set_self hlt]
      · exact i4 s' e
    · intro g hg
      exact i5 g ((mem_mapKeys_mapSet _ _ _ g).2 (Or.inr hg))
    · intro g hg
      rcases i6 g hg with e | ⟨_, e⟩
      · rcases (mem_mapKeys_mapSet _ _ _ g).1 e with e1 | e1
        · rcases hrkey with e2 | e2
          · left; rw [e1]; exact e2
          · right; rw [e1]; exact e2
        · exact Or.inl e1
      · exact absurd (e r ((mem_mapKeys_mapSet _ _ _ r).2 (Or.inl rfl))) hr0
    · intro hb
      apply i7
      have hlen : ∀ x, (shardsOf (mapSet v r (shardsOf v r ++ [s])) x).length
          = if x = r then (shardsOf v r).length + 1 else (shardsOf v x).length := by
        intro x
        rw [shardsOf_mapSet]
        by_cases hx : x = r
        · simp [hx]
        · simp [hx, Ne.symm hx]
      intro g hg k hk hg0 hk0
      rw [hlen g, hlen k]
      rw [mem_mapKeys_mapSet] at hg hk
      by_cases hgr : g = r
      · by_cases hkr : k = r
        · simp [hgr, hkr]
        · have hkk : k ∈ mapKeys v := hk.resolve_left hkr
          have := (hrmin k hkk hk0).2
          simp only [hgr, hkr, if_true, if_false]
          omega
      · have hgk : g ∈ mapKeys v := hg.resolve_left hgr
        by_cases hkr : k = r
        · have := hb g hgk r (hrmin g hgk hg0).1 hg0 hr0
          simp only [hgr, hkr, if_true, if_false]
          omega
        · have hkk : k ∈ mapKeys v := hk.resolve_left hkr
          simp only [hgr, hkr, if_false]
          exact hb g hgk k hkk hg0 hk0

/-- The method `Leave` returns on every state whose latest configuration has
`NShards` shard entries.  The appended configuration has the groups with
the listed gids deleted; its shards are all 0 when no group is left, and
else the array of the view after the placement of the collected shards
`U`. -/
theorem Leave_run (csm : CtrlerStateMachine) (gids : List Int) (c : Config)
    (hc : csm.Configs.getLast? = some c) (hlen : c.Shards.length = NShards) :
    ∃ (v1 : List (Int × List Nat)) (B1 : List (Option Int)) (U : List Nat),
      Rep v1 B1 ∧ B1.length = NShards ∧
      (∀ s, s ∉ U → B1[s]? = (blankAll gids (c.Shards.map some))[s]?) ∧
      (∀ s ∈ U, (blankAll gids (c.Shards.map some))[s]? = some none ∧
        ∃ g, B1[s]? = some (some g) ∧ g ≠ 0) ∧
      (∀ g, g ∈ mapKeys (copyGroups c.Groups) ∨ g ∈ c.Shards → g ∉ gids → g ∈ mapKeys v1) ∧
      (∀ g ∈ mapKeys v1,
        ((g ∈ mapKeys (copyGroups c.Groups) ∨ g ∈ c.Shards) ∧ g ∉ gids) ∨
        (g = -1 ∧ ∀ k, k ∈ mapKeys (copyGroups c.Groups) ∨ k ∈ c.Shards → k ∉ gids → k = 0)) ∧
      (ViewBalanced (buildGidToShards (copyGroups c.Groups) c.Shards) → ViewBalanced v1) ∧
      ((∀ g ∈ gids, g ∉ mapKeys (copyGroups c.Groups) ∧ g ∉ c.Shards) →
        B1 = c.Shards.map some) ∧
      Leave csm gids =
        ({ Configs := csm.Configs ++
            [{ Num := (csm.Configs.length : Int),
               Shards := if (deleteAll gids (copyGroups c.Groups)).length ≠ 0 then toShards B1
                 else List.replicate NShards 0,
               Groups := deleteAll gids (copyGroups c.Groups) }] }, .ok Err.OK) := by
  have hrep := Rep_build (copyGroups c.Groups) c.Shards
  have hkeys0 := mem_mapKeys_build (copyGroups c.Groups) c.Shards
  obtain ⟨l1, l2, l3, l4, l5, l6⟩ :=
    leaveGids_spec gids (copyGroups c.Groups) (buildGidToShards (copyGroups c.Groups) c.Shards)
      [] (c.Shards.map some) hrep (by intro s hs; simp at hs) List.nodup_nil
  rcases hl : leaveGids gids (copyGroups c.Groups)
      (buildGidToShards (copyGroups c.Groups) c.Shards) [] with ⟨G1, v0, U⟩
  rw [hl] at l1 l2 l3 l4 l5 l6
  simp only at l1 l2 l3 l4 l5 l6
  have hB0 : (blankAll gids (c.Shards.map some)).length = NShards := by
    rw [length_blankAll]
    simpa using hlen
  obtain ⟨B1, a1, a2, a3, a4, a5, a6, a7⟩ := assignShards_spec U v0 _ l2 hB0 l3 l4
  refine ⟨assignShards U v0, B1, U, a1, a2, a3, ?_, ?_, ?_, ?_, ?_, ?_⟩
  · intro s hs
    exact ⟨l3 s hs, a4 s hs⟩
  · intro g hg hng
    exact a5 g ((l5 g).2 ⟨(hkeys0 g).2 hg, hng⟩)
  · intro g hg
    rcases a6 g hg with e | ⟨e1, e2⟩
    · left
      have := (l5 g).1 e
      exact ⟨(hkeys0 g).1 this.1, this.2⟩
    · right
      exact ⟨e1, fun k hk hnk => e2 k ((l5 k).2 ⟨(hkeys0 k).2 hk, hnk⟩)⟩
  · intro hb
    apply a7
    intro g hg k hk hg0 hk0
    have hg' := (l5 g).1 hg
    have hk' := (l5 k).1 hk
    have e1 : (shardsOf v0 g).length = (shardsOf (buildGidToShards (copyGroups c.Groups)
        c.Shards) g).length := by
      rw [l2.len g, count_blankAll, if_neg hg'.2, hrep.len g]
    have e2 : (shardsOf v0 k).length = (shardsOf (buildGidToShards (copyGroups c.Groups)
        c.Shards) k).length := by
      rw [l2.len k, count_blankAll, if_neg hk'.2, hrep.len k]
    rw [e1, e2]
    exact hb g hg'.1 k hk'.1 hg0 hk0
  · intro hno
    have hno' : ∀ g ∈ gids, g ∉ mapKeys (buildGidToShards (copyGroups c.Groups) c.Shards) := by
      intro g hg hm
      rcases (hkeys0 g).1 hm with e | e
      · exact (hno g hg).1 e
      · exact (hno g hg).2 e
    have hU : U = [] := (l6 hno').2
    have hBl : blankAll gids (c.Shards.map some) = c.Shards.map some :=
      blankAll_of_not_mem gids _ (fun g hg => hrep.not_mem_of_not_key (hno' g hg))
    apply List.ext_getElem?
    intro s
    rw [a3 s (by rw [hU]; simp), hBl]
  · unfold Leave
    simp only [hc, hl, l1]
    by_cases hG : (deleteAll gids (copyGroups c.Groups)).length ≠ 0
    · simp only [hG, if_true, Rep_store a1 a2, ne_eq, not_false_eq_true]
    · simp only [hG, if_false]

/-! ## Groups of the appended configuration -/

theorem foldl_mapSet_keys (groups acc : List (Int × List String)) (hk : (mapKeys acc).Nodup) :
    (mapKeys (groups.foldl (fun newGroup e => mapSet newGroup e.1 e.2) acc)).Nodup ∧
    ∀ g, g ∈ mapKeys (groups.foldl (fun newGroup e => mapSet newGroup e.1 e.2) acc) ↔
      g ∈ mapKeys acc ∨ g ∈ mapKeys groups := by
  induction groups generalizing acc with
  | nil => exact ⟨hk, fun g => by simp [mapKeys]⟩
  | cons e groups ih =>
    have h1 := ih (mapSet acc e.1 e.2) (mapKeys_mapSet_nodup acc e.1 e.2 hk)
    refine ⟨h1.1, ?_⟩
    intro g
    rw [List.foldl_cons, h1.2 g, mem_mapKeys_mapSet]
    simp only [mapKeys, List.map_cons, List.mem_cons]
    tauto

theorem mapKeys_copyGroups_nodup (groups : List (Int × List String)) :
    (mapKeys (copyGroups groups)).Nodup :=
  (foldl_mapSet_keys groups [] (by simp [mapKeys])).1

theorem mem_mapKeys_copyGroups (groups : List (Int × List String)) (g : Int) :
    g ∈ mapKeys (copyGroups groups) ↔ g ∈ mapKeys groups := by
  have := (foldl_mapSet_keys groups [] (by simp [mapKeys])).2 g
  simpa [mapKeys] using this

theorem mapGet?_joinGroups (groups G : List (Int × List String)) (gid : Int) :
    mapGet? (joinGroups G groups) gid =
      match mapGet? G gid with
      | some servers => some servers
      | none => mapGet? groups gid := by
  induction groups generalizing G with
  | nil =>
    cases h : mapGet? G gid <;> simp [joinGroups, mapGet?, h]
  | cons e groups ih =>
    obtain ⟨g, sv⟩ := e
    cases hg : mapGet? G g with
    | some x =>
      have hdef : joinGroups G ((g, sv) :: groups) = joinGroups G groups := by
        rw [joinGroups, hg]
      rw [hdef, ih]
      cases h : mapGet? G gid with
      | some y => rfl
      | none =>
        have hne : g ≠ gid := by
          intro e
          rw [e, h] at hg
          cases hg
        simp [mapGet?, hne]
    | none =>
      have hdef : joinGroups G ((g, sv) :: groups) = joinGroups (mapSet G g sv) groups := by
        rw [joinGroups, hg]
      rw [hdef, ih, mapGet?_mapSet]
      by_cases hne : g = gid
      · subst hne
        simp [mapGet?, hg]
      · cases h : mapGet? G gid <;> simp [mapGet?, hne]

theorem mem_mapKeys_joinGroups (groups G : List (Int × List String)) (g : Int) :
    g ∈ mapKeys (joinGroups G groups) ↔ g ∈ mapKeys G ∨ g ∈ mapKeys groups := by
  rw [mem_mapKeys_iff, mem_mapKeys_iff, mem_mapKeys_iff, mapGet?_joinGroups]
  cases h : mapGet? G g <;> simp

theorem mapKeys_joinGroups_nodup (groups G : List (Int × List String))
    (h : (mapKeys G).Nodup) : (mapKeys (joinGroups G groups)).Nodup := by
  induction groups generalizing G with
  | nil => simpa [joinGroups] using h
  | cons e groups ih =>
    obtain ⟨g, sv⟩ := e
    cases hg : mapGet? G g with
    | some x =>
      have hdef : joinGroups G ((g, sv) :: groups) = joinGroups G groups := by
        rw [joinGroups, hg]
      rw [hdef]
      exact ih G h
    | none =>
      have hdef : joinGroups G ((g, sv) :: groups) = joinGroups (mapSet G g sv) groups := by
        rw [joinGroups, hg]
      rw [hdef]
      exact ih _ (mapKeys_mapSet_nodup G g sv h)

theorem deleteAll_eq_filter {β : Type} (gids : List Int) (m : List (Int × β)) :
    deleteAll gids m = m.filter (fun e => decide (e.1 ∉ gids)) := by
  induction gids generalizing m with
  | nil => simp [deleteAll]
  | cons g gids ih =>
    have : deleteAll (g :: gids) m = deleteAll gids (mapDelete m g) := rfl
    rw [this, ih]
    unfold mapDelete
    rw [List.filter_filter]
    apply List.filter_congr
    intro e _
    simp only [List.mem_cons, not_or, ne_eq, Bool.decide_and, Bool.and_comm]

/-! ## Successful calls -/

theorem storeShards_length (gid : Int) (l : List Nat) (C C1 : List Int)
    (h : storeShards gid l C = .ok C1) : C1.length = C.length := by
  induction l generalizing C with
  | nil =>
    simp only [storeShards, Except.ok.injEq] at h
    rw [← h]
  | cons s l ih =>
    by_cases hs : s < NShards
    · simp only [storeShards, hs, if_true] at h
      rw [ih _ h]
      simp
    · simp [storeShards, hs] at h

theorem storeGidToShards_length (v : List (Int × List Nat)) (C C1 : List Int)
    (h : storeGidToShards v C = .ok C1) : C1.length = C.length := by
  induction v generalizing C with
  | nil =>
    simp only [storeGidToShards, Except.ok.injEq] at h
    rw [← h]
  | cons e v ih =>
    obtain ⟨g, l⟩ := e
    cases hs : storeShards g l C with
    | error f => simp [storeGidToShards, hs] at h
    | ok C0 =>
      simp only [storeGidToShards, hs] at h
      rw [ih _ h, storeShards_length g l C C0 hs]

/-- More fuel does not change what the rebalance loop returns. -/
theorem rebalance_mono (fuel : Nat) :
    ∀ (v v1 : List (Int × List Nat)), rebalance fuel v = .ok v1 →
      ∀ fuel', fuel ≤ fuel' → rebalance fuel' v = .ok v1 := by
  induction fuel with
  | zero =>
    intro v v1 h fuel' _
    by_cases hd : LoopDone v
    · rw [rebalance_exit 0 v hd] at h
      rw [rebalance_exit fuel' v hd]
      exact h
    · rw [rebalance_zero v hd] at h
      cases h
  | succ fuel ih =>
    intro v v1 h fuel' hf
    by_cases hd : LoopDone v
    · rw [rebalance_exit _ v hd] at h
      rw [rebalance_exit fuel' v hd]
      exact h
    · obtain ⟨k, rfl⟩ : ∃ k, fuel' = k + 1 := ⟨fuel' - 1, by omega⟩
      cases hl : shardsOf v (gidWithMaxShards v) with
      | nil =>
        rw [rebalance_panic fuel v hd hl] at h
        cases h
      | cons s rest =>
        rw [rebalance_step fuel v s rest hd hl] at h
        rw [rebalance_step k v s rest hd hl]
        exact ih _ _ h k (by omega)

/-- A call of `Join` that returns has the result of a call with enough
fuel. -/
theorem Join_ok_fuel (fuel : Nat) (csm csm1 : CtrlerStateMachine)
    (groups : List (Int × List String)) (e : Err)
    (h : Join fuel csm groups = (csm1, .ok e)) (fuel' : Nat) (hf : fuel ≤ fuel') :
    Join fuel' csm groups = (csm1, .ok e) := by
  unfold Join at h ⊢
  cases hc : csm.Configs.getLast? with
  | none => simp [hc] at h
  | some c =>
    simp only [hc] at h ⊢
    cases hr : rebalance fuel (buildGidToShards (joinGroups (copyGroups c.Groups) groups)
        c.Shards) with
    | error f => simp [hr] at h
    | ok v1 =>
      rw [rebalance_mono fuel _ v1 hr fuel' hf]
      simpa [hr] using h

/-- A call of `Join` that returns, with whatever fuel, appends the
configuration described by `Join_run`. -/
theorem Join_step (fuel : Nat) (csm csm1 : CtrlerStateMachine)
    (groups : List (Int × List String)) (e : Err) (c : Config)
    (hc : csm.Configs.getLast? = some c) (hlen : c.Shards.length = NShards)
    (h : Join fuel csm groups = (csm1, .ok e)) :
    ∃ v1 B1,
      Rep v1 B1 ∧ B1.length = NShards ∧ (∀ x ∈ B1, x ≠ none) ∧ LoopDone v1 ∧
      (∀ g, g ∈ mapKeys (joinGroups (copyGroups c.Groups) groups) ∨ g ∈ c.Shards →
        g ∈ mapKeys v1) ∧
      (∀ g ∈ mapKeys v1,
        (g ∈ mapKeys (joinGroups (copyGroups c.Groups) groups) ∨ g ∈ c.Shards) ∨
        (g = -1 ∧ ∀ k, k ∈ mapKeys (joinGroups (copyGroups c.Groups) groups) ∨ k ∈ c.Shards →
          k = 0)) ∧
      csm1 = { Configs := csm.Configs ++
            [{ Num := (csm.Configs.length : Int), Shards := toShards B1,
               Groups := joinGroups (copyGroups c.Groups) groups }] } := by
  obtain ⟨v1, B1, _, h2, h3, h4, h5, h6, h7, h8⟩ :=
    Join_run (max fuel NShards) csm groups c hc hlen (le_max_right _ _)
  have h9 := Join_ok_fuel fuel csm csm1 groups e h (max fuel NShards) (le_max_left _ _)
  rw [h8] at h9
  exact ⟨v1, B1, h2, h3, h4, h5, h6, h7, (Prod.mk.inj h9).1.symm⟩

theorem Move_run (csm : CtrlerStateMachine) (shardid gid : Int) (c : Config)
    (hc : csm.Configs.getLast? = some c) (h0 : 0 ≤ shardid) (h1 : shardid < (NShards : Int)) :
    Move csm shardid gid =
      ({ Configs := csm.Configs ++
          [{ Num := (csm.Configs.length : Int), Shards := c.Shards.set shardid.toNat gid,
             Groups := copyGroups c.Groups }] }, .ok Err.OK) := by
  unfold Move
  simp only [hc, h0, h1, and_self, if_true]

theorem Move_step (csm csm1 : CtrlerStateMachine) (shardid gid : Int) (e : Err) (c : Config)
    (hc : csm.Configs.getLast? = some c) (h : Move csm shardid gid = (csm1, .ok e)) :
    (0 ≤ shardid ∧ shardid < (NShards : Int)) ∧
    csm1 = { Configs := csm.Configs ++
          [{ Num := (csm.Configs.length : Int), Shards := c.Shards.set shardid.toNat gid,
             Groups := copyGroups c.Groups }] } := by
  unfold Move at h
  simp only [hc] at h
  by_cases hr : 0 ≤ shardid ∧ shardid < (NShards : Int)
  · simp only [hr, and_self, if_true] at h
    exact ⟨hr, (Prod.mk.inj h).1.symm⟩
  · simp only [hr, if_false] at h
    cases (Prod.mk.inj h).2

/-! ## Reachable states -/

theorem wellFormed_default : WellFormed DefaultConfig := by
  constructor
  · simp [DefaultConfig]
  · simp [DefaultConfig, mapKeys]

/-- The latest configuration of a reachable state is well formed. -/
theorem Reachable.wellFormed {csm : CtrlerStateMachine} (h : Reachable csm) :
    ∃ c, csm.Configs.getLast? = some c ∧ WellFormed c := by
  induction h with
  | init => exact ⟨DefaultConfig, rfl, wellFormed_default⟩
  | @join csm csm1 fuel groups _ hj ih =>
    obtain ⟨c, hc, hw⟩ := ih
    obtain ⟨v1, B1, _, h3, _, _, _, _, h9⟩ := Join_step fuel csm csm1 groups _ c hc hw.1 hj
    refine ⟨_, by rw [h9]; exact List.getLast?_concat _, ?_, ?_⟩
    · simp [length_toShards, h3]
    · exact mapKeys_joinGroups_nodup _ _ (mapKeys_copyGroups_nodup _)
  | @leave csm csm1 gids _ hl ih =>
    obtain ⟨c, hc, hw⟩ := ih
    obtain ⟨v1, B1, U, _, h2, _, _, _, _, _, _, h9⟩ := Leave_run csm gids c hc hw.1
    rw [h9] at hl
    rw [← (Prod.mk.inj hl).1]
    refine ⟨_, List.getLast?_concat _, ?_, ?_⟩
    · by_cases hG : (deleteAll gids (copyGroups c.Groups)).length ≠ 0
      · simp only [hG, if_true, ne_eq, not_false_eq_true, length_toShards, h2]
      · simp only [hG, if_false, List.length_replicate]
    · exact mapKeys_deleteAll_nodup _ _ (mapKeys_copyGroups_nodup _)
  | @move csm csm1 shardid gid _ hm ih =>
    obtain ⟨c, hc, hw⟩ := ih
    obtain ⟨_, h9⟩ := Move_step csm csm1 shardid gid _ c hc hm
    refine ⟨_, by rw [h9]; exact List.getLast?_concat _, ?_, ?_⟩
    · simpa using hw.1
    · exact mapKeys_copyGroups_nodup _

theorem ReachableJL.reachable_of_joinLeave {csm : CtrlerStateMachine} (h : ReachableJL csm) :
    Reachable csm := by
  induction h with
  | init => exact Reachable.init
  | join fuel groups _ hj ih => exact Reachable.join fuel groups ih hj
  | leave gids _ hl ih => exact Reachable.leave gids ih hl

theorem ReachableValid.reachable_of_valid {csm : CtrlerStateMachine} (h : ReachableValid csm) :
    Reachable csm := by
  induction h with
  | init => exact Reachable.init
  | join fuel groups _ _ _ hj ih => exact Reachable.join fuel groups ih hj
  | leave gids _ hl ih => exact Reachable.leave gids ih hl
  | move shardid gid _ _ hm ih => exact Reachable.move shardid gid ih hm

/-! ## Validity of the shard array -/

theorem Join_valid (c : Config) (groups : List (Int × List String))
    (v1 : List (Int × List Nat)) (B1 : List (Option Int))
    (h0 : 0 ∉ mapKeys c.Groups) (hv : ShardsValid c)
    (hg0 : ∀ g ∈ mapKeys groups, g ≠ 0) (hne : groups ≠ [] ∨ c.Groups ≠ [])
    (hrep : Rep v1 B1) (hall : ∀ x ∈ B1, x ≠ none)
    (horig : ∀ g ∈ mapKeys v1,
        (g ∈ mapKeys (joinGroups (copyGroups c.Groups) groups) ∨ g ∈ c.Shards) ∨
        (g = -1 ∧ ∀ k, k ∈ mapKeys (joinGroups (copyGroups c.Groups) groups) ∨ k ∈ c.Shards →
          k = 0)) :
    0 ∉ mapKeys (joinGroups (copyGroups c.Groups) groups) ∧
    ∀ gid ∈ toShards B1, gid = 0 ∨ gid ∈ mapKeys (joinGroups (copyGroups c.Groups) groups) := by
  have hkeys : ∀ g, g ∈ mapKeys (joinGroups (copyGroups c.Groups) groups) ↔
      g ∈ mapKeys c.Groups ∨ g ∈ mapKeys groups := by
    intro g
    rw [mem_mapKeys_joinGroups, mem_mapKeys_copyGroups]
  obtain ⟨k0, hk0, hk00⟩ : ∃ k0, k0 ∈ mapKeys (joinGroups (copyGroups c.Groups) groups) ∧
      k0 ≠ 0 := by
    rcases hne with h | h
    · obtain ⟨e, rest, hgs⟩ := List.exists_cons_of_ne_nil h
      have hm : e.1 ∈ mapKeys groups := by rw [hgs]; simp [mapKeys]
      exact ⟨e.1, (hkeys _).2 (Or.inr hm), hg0 _ hm⟩
    · obtain ⟨e, rest, hgs⟩ := List.exists_cons_of_ne_nil h
      have hm : e.1 ∈ mapKeys c.Groups := by rw [hgs]; simp [mapKeys]
      exact ⟨e.1, (hkeys _).2 (Or.inl hm), fun e0 => h0 (e0 ▸ hm)⟩
  refine ⟨?_, ?_⟩
  · intro h
    rcases (hkeys 0).1 h with e | e
    · exact h0 e
    · exact hg0 0 e rfl
  · intro gid hgid
    rcases mem_toShards B1 gid hgid with h1 | h1
    · have h2 := hrep.mem_keys_of_mem h1
      rcases horig gid h2.1 with (e | e) | ⟨_, e⟩
      · exact Or.inr e
      · rcases hv gid e with e1 | e1
        · exact Or.inl e1
        · exact Or.inr ((hkeys gid).2 (Or.inl e1))
      · exact absurd (e k0 (Or.inl hk0)) hk00
    · exact absurd h1.2 (fun hm => hall none hm rfl)

theorem Leave_valid (c : Config) (gids : List Int)
    (v1 : List (Int × List Nat)) (B1 : List (Option Int))
    (h0 : 0 ∉ mapKeys c.Groups) (hv : ShardsValid c) (hrep : Rep v1 B1)
    (horig : ∀ g ∈ mapKeys v1,
        ((g ∈ mapKeys (copyGroups c.Groups) ∨ g ∈ c.Shards) ∧ g ∉ gids) ∨
        (g = -1 ∧ ∀ k, k ∈ mapKeys (copyGroups c.Groups) ∨ k ∈ c.Shards → k ∉ gids → k = 0)) :
    0 ∉ mapKeys (deleteAll gids (copyGroups c.Groups)) ∧
    ∀ gid ∈ (if (deleteAll gids (copyGroups c.Groups)).length ≠ 0 then toShards B1
        else List.replicate NShards 0),
      gid = 0 ∨ gid ∈ mapKeys (deleteAll gids (copyGroups c.Groups)) := by
  have hkeys : ∀ g, g ∈ mapKeys (deleteAll gids (copyGroups c.Groups)) ↔
      g ∈ mapKeys c.Groups ∧ g ∉ gids := by
    intro g
    rw [mem_mapKeys_deleteAll, mem_mapKeys_copyGroups]
  refine ⟨fun h => h0 ((hkeys 0).1 h).1, ?_⟩
  intro gid hgid
  by_cases hG : (deleteAll gids (copyGroups c.Groups)).length ≠ 0
  · rw [if_pos hG] at hgid
    obtain ⟨k0, hk0⟩ : ∃ k0, k0 ∈ mapKeys (deleteAll gids (copyGroups c.Groups)) := by
      cases hgs : deleteAll gids (copyGroups c.Groups) with
      | nil => rw [hgs] at hG; simp at hG
      | cons e rest => exact ⟨e.1, by simp [mapKeys]⟩
    have hk1 := (hkeys k0).1 hk0
    have hk00 : k0 ≠ 0 := fun e => h0 (e ▸ hk1.1)
    rcases mem_toShards B1 gid hgid with h1 | h1
    · rcases horig gid (hrep.mem_keys_of_mem h1).1 with ⟨e | e, e2⟩ | ⟨_, e⟩
      · exact Or.inr ((hkeys gid).2 ⟨(mem_mapKeys_copyGroups _ _).1 e, e2⟩)
      · rcases hv gid e with e1 | e1
        · exact Or.inl e1
        · exact Or.inr ((hkeys gid).2 ⟨e1, e2⟩)
      · exact absurd (e k0 (Or.inl ((mem_mapKeys_copyGroups _ _).2 hk1.1)) hk1.2) hk00
    · exact Or.inl h1.1
  · rw [if_neg hG] at hgid
    exact Or.inl (List.eq_of_mem_replicate hgid)

/-- The invariant of the calls that respect the data model: every
configuration of the log is well formed, has no group 0 and maps every
shard to 0 or to one of its groups. -/
theorem ReachableValid.inv {csm : CtrlerStateMachine} (h : ReachableValid csm) :
    ∀ c ∈ csm.Configs, WellFormed c ∧ 0 ∉ mapKeys c.Groups ∧ ShardsValid c := by
  induction h with
  | init =>
    intro c hc
    have : c = DefaultConfig := by simpa [NewCtrlerStateMachine] using hc
    subst this
    refine ⟨wellFormed_default, by simp [DefaultConfig, mapKeys], ?_⟩
    intro gid hgid
    exact Or.inl (List.eq_of_mem_replicate hgid)
  | @join csm csm1 fuel groups hr hg0 hne hj ih =>
    obtain ⟨c, hc, hw⟩ := hr.reachable_of_valid.wellFormed
    obtain ⟨_, hc0, hcv⟩ := ih c (List.mem_of_getLast?_eq_some hc)
    obtain ⟨v1, B1, h2, h3, h4, _, _, h7, h9⟩ := Join_step fuel csm csm1 groups _ c hc hw.1 hj
    have hval := Join_valid c groups v1 B1 hc0 hcv hg0 (hne c hc) h2 h4 h7
    intro c1 hc1
    rw [h9] at hc1
    rcases List.mem_append.1 hc1 with e | e
    · exact ih c1 e
    · rw [List.mem_singleton] at e
      subst e
      refine ⟨⟨by simp [length_toShards, h3],
        mapKeys_joinGroups_nodup _ _ (mapKeys_copyGroups_nodup _)⟩, hval.1, hval.2⟩
  | @leave csm csm1 gids hr hl ih =>
    obtain ⟨c, hc, hw⟩ := hr.reachable_of_valid.wellFormed
    obtain ⟨_, hc0, hcv⟩ := ih c (List.mem_of_getLast?_eq_some hc)
    obtain ⟨v1, B1, U, a1, a2, _, _, _, a6, _, _, a9⟩ := Leave_run csm gids c hc hw.1
    have hval := Leave_valid c gids v1 B1 hc0 hcv a1 a6
    rw [a9] at hl
    intro c1 hc1
    rw [← (Prod.mk.inj hl).1] at hc1
    rcases List.mem_append.1 hc1 with e | e
    · exact ih c1 e
    · rw [List.mem_singleton] at e
      subst e
      refine ⟨⟨?_, mapKeys_deleteAll_nodup _ _ (mapKeys_copyGroups_nodup _)⟩, hval.1, hval.2⟩
      by_cases hG : (deleteAll gids (copyGroups c.Groups)).length ≠ 0
      · simp only [hG, if_true, ne_eq, not_false_eq_true, length_toShards, a2]
      · simp only [hG, if_false, List.length_replicate]
  | @move csm csm1 shardid gid hr hgid hm ih =>
    obtain ⟨c, hc, hw⟩ := hr.reachable_of_valid.wellFormed
    obtain ⟨_, hc0, hcv⟩ := ih c (List.mem_of_getLast?_eq_some hc)
    obtain ⟨_, h9⟩ := Move_step csm csm1 shardid gid _ c hc hm
    intro c1 hc1
    rw [h9] at hc1
    rcases List.mem_append.1 hc1 with e | e
    · exact ih c1 e
    · rw [List.mem_singleton] at e
      subst e
      refine ⟨⟨by simpa using hw.1, mapKeys_copyGroups_nodup _⟩, ?_, ?_⟩
      · exact fun hm0 => hc0 ((mem_mapKeys_copyGroups _ _).1 hm0)
      · intro g hg
        rcases List.mem_or_eq_of_mem_set hg with e1 | e1
        · exact (hcv g e1).imp id (fun e2 => (mem_mapKeys_copyGroups _ _).2 e2)
        · rw [e1]
          exact (hgid c hc).imp id (fun e2 => (mem_mapKeys_copyGroups _ _).2 e2)

/-! ## Balance across `Join` and `Leave` -/

theorem count_map_some (A : List Int) (g : Int) : (A.map some).count (some g) = A.count g := by
  induction A with
  | nil => rfl
  | cons a A ih =>
    by_cases h : a = g
    · simp [List.count_cons, ih, h]
    · simp [List.count_cons, ih, h]

/-- The greedy placement of `Leave` keeps a balanced configuration
balanced. -/
theorem Leave_balancedAll (csm : CtrlerStateMachine) (gids : List Int) (c : Config)
    (hc : csm.Configs.getLast? = some c) (hlen : c.Shards.length = NShards)
    (hb : BalancedAll c) :
    ∃ c1, Leave csm gids = ({ Configs := csm.Configs ++ [c1] }, .ok Err.OK) ∧
      c1.Shards.length = NShards ∧ BalancedAll c1 := by
  obtain ⟨v1, B1, U, a1, a2, _, _, a5, _, a7, _, a9⟩ := Leave_run csm gids c hc hlen
  refine ⟨_, a9, ?_, ?_⟩
  · by_cases hG : (deleteAll gids (copyGroups c.Groups)).length ≠ 0
    · simp only [hG, if_true, ne_eq, not_false_eq_true, length_toShards, a2]
    · simp only [hG, if_false, List.length_replicate]
  · by_cases hG : (deleteAll gids (copyGroups c.Groups)).length ≠ 0
    · have hvb : ViewBalanced (buildGidToShards (copyGroups c.Groups) c.Shards) := by
        have hrep := Rep_build (copyGroups c.Groups) c.Shards
        intro g hg k hk hg0 hk0
        rw [hrep.len g, hrep.len k, count_map_some, count_map_some]
        rw [mem_mapKeys_build, mem_mapKeys_copyGroups] at hg hk
        exact hb g k hg0 hk0 hg hk
      refine BalancedAll_of_view _ v1 B1 a1 (by simp only [hG, if_true, ne_eq, not_false_eq_true])
        ?_ (a7 hvb)
      intro g hg
      have := (mem_mapKeys_deleteAll _ _ g).1 hg
      exact a5 g (Or.inl this.1) this.2
    · have hnil : deleteAll gids (copyGroups c.Groups) = [] := by
        apply List.eq_nil_of_length_eq_zero
        by_contra hc'
        exact hG hc'
      intro g k hg0 _ hg _
      simp only [hG, if_false, hnil, mapKeys, List.map_nil, List.not_mem_nil, false_or] at hg
      exact absurd (List.eq_of_mem_replicate hg) hg0

/-- Without `Move`, the latest configuration is balanced over every gid
different from 0 that is a group or owns a shard. -/
theorem ReachableJL.balancedAll {csm : CtrlerStateMachine} (h : ReachableJL csm) :
    ∃ c, csm.Configs.getLast? = some c ∧ c.Shards.length = NShards ∧ BalancedAll c := by
  induction h with
  | init =>
    refine ⟨DefaultConfig, rfl, wellFormed_default.1, ?_⟩
    intro g k hg0 _ hg _
    simp only [DefaultConfig, mapKeys, List.map_nil, List.not_mem_nil, false_or] at hg
    exact absurd (List.eq_of_mem_replicate hg) hg0
  | @join csm csm1 fuel groups _ hj ih =>
    obtain ⟨c, hc, hlen, _⟩ := ih
    obtain ⟨c1, h1, h2, h3⟩ :=
      Join_balancedAll (max fuel NShards) csm groups c hc hlen (le_max_right _ _)
    have h9 := Join_ok_fuel fuel csm csm1 groups _ hj (max fuel NShards) (le_max_left _ _)
    rw [h1] at h9
    rw [← (Prod.mk.inj h9).1]
    exact ⟨c1, List.getLast?_concat _, h2, h3⟩
  | @leave csm csm1 gids _ hl ih =>
    obtain ⟨c, hc, hlen, hb⟩ := ih
    obtain ⟨c1, h1, h2, h3⟩ := Leave_balancedAll csm gids c hc hlen hb
    rw [h1] at hl
    rw [← (Prod.mk.inj hl).1]
    exact ⟨c1, List.getLast?_concat _, h2, h3⟩

/-! ## Evaluation of the example states -/

theorem movedOnFresh_eq :
    Move NewCtrlerStateMachine 0 7 =
      ({ Configs := [DefaultConfig,
          { Num := 1, Shards := [7, 0, 0, 0, 0, 0, 0, 0, 0, 0], Groups := [] }] },
        .ok Err.OK) := by
  decide!

theorem oneGroup_eq :
    Join NShards NewCtrlerStateMachine [(1, ["a"])] =
      ({ Configs := [DefaultConfig,
          { Num := 1, Shards := [1, 1, 1, 1, 1, 1, 1, 1, 1, 1], Groups := [(1, ["a"])] }] },
        .ok Err.OK) := by
  decide!

theorem movedOnOneGroup_eq :
    Move oneGroup 0 7 =
      ({ Configs := [DefaultConfig,
          { Num := 1, Shards := [1, 1, 1, 1, 1, 1, 1, 1, 1, 1], Groups := [(1, ["a"])] },
          { Num := 2, Shards := [7, 1, 1, 1, 1, 1, 1, 1, 1, 1], Groups := [(1, ["a"])] }] },
        .ok Err.OK) := by
  decide!

theorem twoGroups_eq :
    Join NShards NewCtrlerStateMachine [(1, ["a"]), (2, ["b"])] =
      ({ Configs := [DefaultConfig,
          { Num := 1, Shards := [1, 2, 1, 2, 1, 2, 1, 2, 1, 2],
            Groups := [(1, ["a"]), (2, ["b"])] }] },
        .ok Err.OK) := by
  decide!

theorem skewed_eq :
    Move (Join NShards NewCtrlerStateMachine [(1, ["a"]), (2, ["b"])]).1 1 1 =
      ({ Configs := [DefaultConfig,
          { Num := 1, Shards := [1, 2, 1, 2, 1, 2, 1, 2, 1, 2],
            Groups := [(1, ["a"]), (2, ["b"])] },
          { Num := 2, Shards := [1, 1, 1, 2, 1, 2, 1, 2, 1, 2],
            Groups := [(1, ["a"]), (2, ["b"])] }] },
        .ok Err.OK) := by
  decide!

theorem pair_fst {α β : Type} {p : α × β} {a : α} {b : β} (h : p = (a, b)) : p = (p.1, b) := by
  rw [h]

theorem reachable_movedOnFresh : Reachable movedOnFresh :=
  Reachable.move 0 7 Reachable.init (pair_fst movedOnFresh_eq)

theorem reachable_oneGroup : Reachable oneGroup :=
  Reachable.join NShards [(1, ["a"])] Reachable.init (pair_fst oneGroup_eq)

theorem reachable_movedOnOneGroup : Reachable movedOnOneGroup :=
  Reachable.move 0 7 reachable_oneGroup (pair_fst movedOnOneGroup_eq)

theorem reachable_skewed : Reachable skewed :=
  Reachable.move 1 1
    (Reachable.join NShards [(1, ["a"]), (2, ["b"])] Reachable.init (pair_fst twoGroups_eq))
    (pair_fst skewed_eq)

theorem reachableJL_twoGroups :
    ReachableJL (Join NShards NewCtrlerStateMachine [(1, ["a"]), (2, ["b"])]).1 :=
  ReachableJL.join NShards [(1, ["a"]), (2, ["b"])] ReachableJL.init (pair_fst twoGroups_eq)

theorem reachableValid_oneGroup : ReachableValid oneGroup :=
  ReachableValid.join NShards [(1, ["a"])] ReachableValid.init
    (by intro g hg; simp [mapKeys] at hg; omega) (fun _ _ => Or.inl (by simp))
    (pair_fst oneGroup_eq)

/-! ## The method `Query` -/

theorem Query_fst (csm : CtrlerStateMachine) (num : Int) : (Query csm num).1 = csm := by
  unfold Query
  split
  · split <;> rfl
  · split <;> rfl

theorem Query_inside (csm : CtrlerStateMachine) (num : Int) (h0 : 0 ≤ num)
    (h1 : num < (csm.Configs.length : Int)) :
    ∃ c, csm.Configs[num.toNat]? = some c ∧ Query csm num = (csm, .ok (c, Err.OK)) := by
  have hlt : num.toNat < csm.Configs.length := by omega
  refine ⟨csm.Configs[num.toNat], List.getElem?_eq_getElem hlt, ?_⟩
  unfold Query
  have hc : ¬ (num < 0 ∨ num ≥ (csm.Configs.length : Int)) := by omega
  simp only [if_neg hc, List.getElem?_eq_getElem hlt]

theorem Query_outside (csm : CtrlerStateMachine) (hne : csm.Configs ≠ []) (num : Int)
    (h : num < 0 ∨ (csm.Configs.length : Int) ≤ num) :
    ∃ c, csm.Configs[csm.Configs.length - 1]? = some c ∧
      Query csm num = (csm, .ok (c, Err.OK)) := by
  have hpos : 0 < csm.Configs.length := List.length_pos.2 hne
  have hlt : csm.Configs.length - 1 < csm.Configs.length := by omega
  refine ⟨csm.Configs[csm.Configs.length - 1], List.getElem?_eq_getElem hlt, ?_⟩
  unfold Query
  have hc : num < 0 ∨ num ≥ (csm.Configs.length : Int) := h
  simp only [if_pos hc, List.getLast?_eq_getElem?, List.getElem?_eq_getElem hlt]

/-! ## The log -/

/-- Every successful mutating call on a reachable state appends exactly one
configuration, numbered with the length of the log. -/
theorem Reachable.appends {csm : CtrlerStateMachine} (h : Reachable csm) :
    (∀ fuel groups csm1, Join fuel csm groups = (csm1, .ok Err.OK) →
      ∃ c, csm1.Configs = csm.Configs ++ [c] ∧ c.Num = (csm.Configs.length : Int)) ∧
    (∀ gids csm1, Leave csm gids = (csm1, .ok Err.OK) →
      ∃ c, csm1.Configs = csm.Configs ++ [c] ∧ c.Num = (csm.Configs.length : Int)) ∧
    (∀ shardid gid csm1, Move csm shardid gid = (csm1, .ok Err.OK) →
      ∃ c, csm1.Configs = csm.Configs ++ [c] ∧ c.Num = (csm.Configs.length : Int)) := by
  obtain ⟨c, hc, hw⟩ := h.wellFormed
  refine ⟨?_, ?_, ?_⟩
  · intro fuel groups csm1 hj
    obtain ⟨v1, B1, _, _, _, _, _, _, h9⟩ := Join_step fuel csm csm1 groups _ c hc hw.1 hj
    exact ⟨_, by rw [h9], rfl⟩
  · intro gids csm1 hl
    obtain ⟨v1, B1, U, _, _, _, _, _, _, _, _, h9⟩ := Leave_run csm gids c hc hw.1
    rw [h9] at hl
    exact ⟨_, by rw [← (Prod.mk.inj hl).1], rfl⟩
  · intro shardid gid csm1 hm
    obtain ⟨_, h9⟩ := Move_step csm csm1 shardid gid _ c hc hm
    exact ⟨_, by rw [h9], rfl⟩

theorem num_eq_index_append (L : List Config) (c : Config)
    (hL : ∀ (i : Nat) (c' : Config), L[i]? = some c' → c'.Num = (i : Int)) (hc : c.Num = (L.length : Int)) :
    ∀ (i : Nat) (c' : Config), (L ++ [c])[i]? = some c' → c'.Num = (i : Int) := by
  intro i c' hi
  by_cases hlt : i < L.length
  · rw [List.getElem?_append_left hlt] at hi
    exact hL i c' hi
  · by_cases heq : i = L.length
    · subst heq
      simp at hi
      rw [← hi]
      exact hc
    · rw [List.getElem?_eq_none (by simp; omega)] at hi
      cases hi

theorem Reachable.num_eq_index {csm : CtrlerStateMachine} (h : Reachable csm) :
    ∀ (i : Nat) (c : Config), csm.Configs[i]? = some c → c.Num = (i : Int) := by
  induction h with
  | init =>
    intro i c hi
    cases i with
    | zero =>
      simp [NewCtrlerStateMachine] at hi
      rw [← hi]
      rfl
    | succ i => simp [NewCtrlerStateMachine] at hi
  | @join csm csm1 fuel groups hr hj ih =>
    obtain ⟨c, h1, h2⟩ := hr.appends.1 fuel groups csm1 hj
    rw [h1]
    exact num_eq_index_append _ c ih h2
  | @leave csm csm1 gids hr hl ih =>
    obtain ⟨c, h1, h2⟩ := hr.appends.2.1 gids csm1 hl
    rw [h1]
    exact num_eq_index_append _ c ih h2
  | @move csm csm1 shardid gid hr hm ih =>
    obtain ⟨c, h1, h2⟩ := hr.appends.2.2 shardid gid csm1 hm
    rw [h1]
    exact num_eq_index_append _ c ih h2

theorem eq_nil_of_mapKeys {β : Type} (m : List (Int × β)) (h : ∀ g, g ∉ mapKeys m) : m = [] := by
  cases m with
  | nil => rfl
  | cons e m => exact absurd (by simp [mapKeys]) (h e.1)

/-! ## Group 0 -/

theorem ReachableNoZero.reachable_of_noZero {csm : CtrlerStateMachine}
    (h : ReachableNoZero csm) : Reachable csm := by
  induction h with
  | init => exact Reachable.init
  | join fuel groups _ _ hj ih => exact Reachable.join fuel groups ih hj
  | leave gids _ hl ih => exact Reachable.leave gids ih hl
  | move shardid gid _ hm ih => exact Reachable.move shardid gid ih hm

/-- Without a key 0 in the arguments of `Join`, no configuration of the log
has the group 0. -/
theorem ReachableNoZero.no_zero {csm : CtrlerStateMachine} (h : ReachableNoZero csm) :
    ∀ c ∈ csm.Configs, 0 ∉ mapKeys c.Groups := by
  induction h with
  | init =>
    intro c hc
    have : c = DefaultConfig := by simpa [NewCtrlerStateMachine] using hc
    subst this
    simp [DefaultConfig, mapKeys]
  | @join csm csm1 fuel groups hr hg0 hj ih =>
    obtain ⟨c, hc, hw⟩ := hr.reachable_of_noZero.wellFormed
    have hc0 := ih c (List.mem_of_getLast?_eq_some hc)
    obtain ⟨v1, B1, _, _, _, _, _, _, h9⟩ := Join_step fuel csm csm1 groups _ c hc hw.1 hj
    intro c1 hc1
    rw [h9] at hc1
    rcases List.mem_append.1 hc1 with e | e
    · exact ih c1 e
    · rw [List.mem_singleton] at e
      subst e
      intro hm
      rcases (mem_mapKeys_joinGroups _ _ 0).1 hm with e1 | e1
      · exact hc0 ((mem_mapKeys_copyGroups _ _).1 e1)
      · exact hg0 0 e1 rfl
  | @leave csm csm1 gids hr hl ih =>
    obtain ⟨c, hc, hw⟩ := hr.reachable_of_noZero.wellFormed
    have hc0 := ih c (List.mem_of_getLast?_eq_some hc)
    obtain ⟨v1, B1, U, _, _, _, _, _, _, _, _, a9⟩ := Leave_run csm gids c hc hw.1
    rw [a9] at hl
    intro c1 hc1
    rw [← (Prod.mk.inj hl).1] at hc1
    rcases List.mem_append.1 hc1 with e | e
    · exact ih c1 e
    · rw [List.mem_singleton] at e
      subst e
      intro hm
      exact hc0 ((mem_mapKeys_copyGroups _ _).1 ((mem_mapKeys_deleteAll _ _ 0).1 hm).1)
  | @move csm csm1 shardid gid hr hm ih =>
    obtain ⟨c, hc, _⟩ := hr.reachable_of_noZero.wellFormed
    have hc0 := ih c (List.mem_of_getLast?_eq_some hc)
    obtain ⟨_, h9⟩ := Move_step csm csm1 shardid gid _ c hc hm
    intro c1 hc1
    rw [h9] at hc1
    rcases List.mem_append.1 hc1 with e | e
    · exact ih c1 e
    · rw [List.mem_singleton] at e
      subst e
      exact fun hm0 => hc0 ((mem_mapKeys_copyGroups _ _).1 hm0)

theorem zeroGroup_eq :
    Join NShards NewCtrlerStateMachine [(0, ["x"])] =
      ({ Configs := [DefaultConfig,
          { Num := 1, Shards := [-1, -1, -1, -1, -1, -1, -1, -1, -1, -1],
            Groups := [(0, ["x"])] }] },
        .ok Err.OK) := by
  decide!

theorem reachable_zeroGroup : Reachable zeroGroup :=
  Reachable.join NShards [(0, ["x"])] Reachable.init (pair_fst zeroGroup_eq)

theorem reachableNoZero_skewed : ReachableNoZero skewed :=
  ReachableNoZero.move 1 1
    (ReachableNoZero.join NShards [(1, ["a"]), (2, ["b"])] ReachableNoZero.init
      (by intro g hg; simp [mapKeys] at hg; omega) (pair_fst twoGroups_eq))
    (pair_fst skewed_eq)

/-! ## The spec's example of `Join` -/

theorem rebalance_example :
    rebalance NShards [(1, [0, 1, 2, 3, 4, 5, 6, 7, 8, 9]), (2, [])] =
      .ok [(1, [5, 6, 7, 8, 9]), (2, [0, 1, 2, 3, 4])] := by
  decide!

theorem build_example (servers servers' : List String) :
    buildGidToShards [(1, servers), (2, servers')] (List.replicate NShards 1) =
      [(1, [0, 1, 2, 3, 4, 5, 6, 7, 8, 9]), (2, [])] := by
  have h : initGidToShards [(1, servers), (2, servers')] = [(1, []), (2, [])] := by
    simp [initGidToShards, mapSet]
  unfold buildGidToShards
  rw [h]
  decide!

theorem joinGroups_example (servers servers' : List String) :
    joinGroups (copyGroups [(1, servers)]) [(2, servers')] = [(1, servers), (2, servers')] := by
  simp [copyGroups, joinGroups, mapSet, mapGet?]

theorem store_example :
    storeGidToShards [(1, [5, 6, 7, 8, 9]), (2, [0, 1, 2, 3, 4])] (List.replicate NShards 0) =
      .ok [2, 2, 2, 2, 2, 1, 1, 1, 1, 1] := by
  decide!

/-! ## The moves of the rebalance loop -/

theorem rebalanceMoves_exit (fuel : Nat) (v : List (Int × List Nat)) (h : LoopDone v) :
    rebalanceMoves fuel v = [] := by
  unfold LoopDone at h
  cases fuel with
  | zero => rfl
  | succ fuel => simp only [rebalanceMoves, if_pos h]

theorem rebalanceMoves_step (fuel : Nat) (v : List (Int × List Nat)) (s : Nat)
    (rest : List Nat) (h : ¬ LoopDone v) (hd : shardsOf v (gidWithMaxShards v) = s :: rest) :
    rebalanceMoves (fuel + 1) v =
      (s, gidWithMaxShards v, gidWithMinShards v) :: rebalanceMoves fuel (moveFirst v s) := by
  unfold LoopDone at h
  rw [rebalanceMoves]
  simp only [if_neg h]
  rw [hd]

theorem moveFirst_shardsOf (v : List (Int × List Nat)) (s : Nat) (rest : List Nat)
    (hdr : gidWithMaxShards v ≠ gidWithMinShards v)
    (hd : shardsOf v (gidWithMaxShards v) = s :: rest) (g : Int) :
    shardsOf (moveFirst v s) g =
      if g = gidWithMaxShards v then rest
      else if g = gidWithMinShards v then shardsOf v (gidWithMinShards v) ++ [s]
      else shardsOf v g := by
  unfold moveFirst
  exact shardsOf_move v _ _ hdr s rest hd g

/-- One turn of the loop that does not break: `minGid` has never given a
shard away, and `maxGid` will never be given one. -/
theorem rebalance_donors (v : List (Int × List Nat)) (B : List (Option Int)) (D : List Int)
    (h : Rep v B) (hB : B.length = NShards) (hD : Donors v D) (hbr : ¬ LoopDone v)
    (s : Nat) (rest : List Nat) (hsr : shardsOf v (gidWithMaxShards v) = s :: rest) :
    gidWithMinShards v ∉ D ∧ Donors (moveFirst v s) (gidWithMaxShards v :: D) := by
  obtain ⟨hr0, _, _⟩ := h.minGid hB
  have hmax := gidWithMaxShards_spec v
  have hgap : gidWithMaxShards v ≠ 0 →
      (shardsOf v (gidWithMinShards v)).length + 2 ≤ (shardsOf v (gidWithMaxShards v)).length := by
    intro hd0
    by_contra hc
    unfold LoopDone at hbr
    exact hbr ⟨hd0, by omega⟩
  have hdr : gidWithMaxShards v ≠ gidWithMinShards v := by
    intro e
    have := hgap (e ▸ hr0)
    rw [e] at this
    omega
  have hsh := moveFirst_shardsOf v s rest hdr hsr
  generalize hd : gidWithMaxShards v = d at *
  generalize hr : gidWithMinShards v = r at *
  rcases hmax with ⟨h1, h2⟩ | ⟨h0, hm⟩
  · -- gid 0 gives the shard
    have hall0 : ∀ x ∈ D, x = 0 := by
      intro x hx
      rcases hD x hx with e | ⟨e, _⟩
      · exact e
      · exact absurd e h2
    refine ⟨fun hm => hr0 (hall0 r hm), ?_⟩
    intro x hx
    rcases List.mem_cons.1 hx with e | e
    · exact Or.inl (e.trans h1)
    · exact Or.inl (hall0 x e)
  · -- a gid with a longest slice gives the shard
    have hd0 : d ≠ 0 := by
      intro e
      rw [e, h0] at hsr
      cases hsr
    have hmaxd : ∀ g, (shardsOf v g).length ≤ (shardsOf v d).length := by
      rcases hm with ⟨_, h2⟩ | ⟨_, h2⟩
      · exact h2
      · have : d ∈ mapKeys v :=
          mem_mapKeys_of_shardsOf v d s (by rw [hsr]; exact List.mem_cons_self _ _)
        rw [h2] at this
        simp at this
    have hg := hgap hd0
    have hlen : ∀ g, (shardsOf (moveFirst v s) g).length =
        if g = d then (shardsOf v d).length - 1
        else if g = r then (shardsOf v r).length + 1 else (shardsOf v g).length := by
      intro g
      rw [hsh g]
      by_cases hgd : g = d
      · simp [hgd, hsr]
      · by_cases hgr : g = r
        · simp [hgr, Ne.symm hdr]
        · simp [hgd, hgr]
    have hrD : r ∉ D := by
      intro hm'
      rcases hD r hm' with e | ⟨_, e⟩
      · exact hr0 e
      · have := e d
        omega
    have h0' : shardsOf (moveFirst v s) 0 = [] := by
      rw [hsh 0]
      simp [Ne.symm hd0, Ne.symm hr0, h0]
    have hdnew : ∀ k, (shardsOf (moveFirst v s) k).length
        ≤ (shardsOf (moveFirst v s) d).length + 1 := by
      intro k
      rw [hlen k, hlen d]
      have := hmaxd k
      by_cases hkd : k = d
      · simp only [hkd, if_true]
        omega
      · by_cases hkr : k = r
        · simp only [hkr, Ne.symm hdr, if_true, if_false]
          omega
        · simp only [hkd, hkr, if_true, if_false]
          omega
    refine ⟨hrD, ?_⟩
    intro x hx
    rcases List.mem_cons.1 hx with e | e
    · right
      rw [e]
      exact ⟨h0', hdnew⟩
    · by_cases hxd : x = d
      · right
        rw [hxd]
        exact ⟨h0', hdnew⟩
      · rcases hD x e with e0 | ⟨_, e1⟩
        · exact Or.inl e0
        · right
          refine ⟨h0', ?_⟩
          have hxr : x ≠ r := fun e2 => hrD (e2 ▸ e)
          have hdx := e1 d
          intro k
          rw [hlen k, hlen x]
          have := e1 k
          by_cases hkd : k = d
          · simp only [hkd, hxd, hxr, if_true, if_false]
            omega
          · by_cases hkr : k = r
            · simp only [hkr, hxd, hxr, Ne.symm hdr, if_true, if_false]
              omega
            · simp only [hkd, hkr, hxd, hxr, if_false]
              omega

/-- The moves of the rebalance loop: no gid gives a shard after it was given
one nor is given a shard after it gave one, gid 0 is never given a shard, no
shard moves twice, and the final assignment is the initial one with every
moved shard at its receiver. -/
theorem rebalance_trace (fuel : Nat) :
    ∀ (v : List (Int × List Nat)) (B : List (Option Int)) (R D : List Int),
      Rep v B → B.length = NShards → (∀ x ∈ B, x ≠ none) → Receivers v R → Donors v D →
      pending R B ≤ fuel →
      ∃ v1 B1, rebalance fuel v = .ok v1 ∧ Rep v1 B1 ∧ B1.length = NShards ∧
        (∀ x ∈ B1, x ≠ none) ∧
        (∀ m ∈ rebalanceMoves fuel v, m.2.1 ∉ R ∧ m.2.2 ∉ D ∧ m.2.2 ≠ 0) ∧
        (∀ m ∈ rebalanceMoves fuel v, ∀ m' ∈ rebalanceMoves fuel v, m.2.1 ≠ m'.2.2) ∧
        ((rebalanceMoves fuel v).map (fun m => m.1)).Nodup ∧
        (∀ m ∈ rebalanceMoves fuel v,
          B[m.1]? = some (some m.2.1) ∧ B1[m.1]? = some (some m.2.2)) ∧
        (∀ s, s ∉ (rebalanceMoves fuel v).map (fun m => m.1) → B1[s]? = B[s]?) := by
  induction fuel with
  | zero =>
    intro v B R D h hB hall hR _ hf
    by_cases hbr : LoopDone v
    · refine ⟨v, B, rebalance_exit 0 v hbr, h, hB, hall, ?_, ?_, ?_, ?_, ?_⟩ <;>
        simp [rebalanceMoves]
    · obtain ⟨s, rest, _, _, _, _, hp, _⟩ := rebalance_progress v B R h hB hall hR hbr
      omega
  | succ fuel ih =>
    intro v B R D h hB hall hR hD hf
    by_cases hbr : LoopDone v
    · refine ⟨v, B, rebalance_exit _ v hbr, h, hB, hall, ?_, ?_, ?_, ?_, ?_⟩ <;>
        simp [rebalanceMoves_exit _ v hbr]
    · obtain ⟨s, rest, hsr, hrep, hall2, hR2, hp, _, _, hBs, hdR, hdr⟩ :=
        rebalance_progress v B R h hB hall hR hbr
      obtain ⟨hrD, hD2⟩ := rebalance_donors v B D h hB hD hbr s rest hsr
      obtain ⟨v1, B1, h1, h2, h3, h4, t1, t2, t3, t4, t5⟩ :=
        ih (moveFirst v s) (B.set s (some (gidWithMinShards v))) (gidWithMinShards v :: R)
          (gidWithMaxShards v :: D) hrep (by simpa using hB) hall2 hR2 hD2 (by omega)
      have hr0 : gidWithMinShards v ≠ 0 := (hR2 _ (List.mem_cons_self _ _)).1
      have hlt : s < B.length := by
        by_contra hc
        rw [List.getElem?_eq_none (by omega)] at hBs
        cases hBs
      have hnot : s ∉ (rebalanceMoves fuel (moveFirst v s)).map (fun m => m.1) := by
        intro hm
        obtain ⟨m, hm1, hm2⟩ := List.mem_map.1 hm
        have e1 := (t4 m hm1).1
        rw [hm2, List.getElem?_set_self hlt] at e1
        have e2 : gidWithMinShards v = m.2.1 := Option.some.inj (Option.some.inj e1)
        exact (t1 m hm1).1 (e2 ▸ List.mem_cons_self _ _)
      rw [rebalanceMoves_step fuel v s rest hbr hsr]
      refine ⟨v1, B1, by rw [rebalance_step fuel v s rest hbr hsr]; exact h1, h2, h3, h4,
        ?_, ?_, ?_, ?_, ?_⟩
      · intro m hm
        rcases List.mem_cons.1 hm with e | e
        · subst e
          exact ⟨hdR, hrD, hr0⟩
        · obtain ⟨a, b, c⟩ := t1 m e
          exact ⟨fun x => a (List.mem_cons_of_mem _ x), fun x => b (List.mem_cons_of_mem _ x), c⟩
      · intro m hm m' hm'
        rcases List.mem_cons.1 hm with e | e
        · subst e
          rcases List.mem_cons.1 hm' with e' | e'
          · subst e'
            exact hdr
          · intro x
            exact (t1 m' e').2.1 (x ▸ List.mem_cons_self _ _)
        · rcases List.mem_cons.1 hm' with e' | e'
          · subst e'
            intro x
            exact (t1 m e).1 (x ▸ List.mem_cons_self _ _)
          · exact t2 m e m' e'
      · rw [List.map_cons, List.nodup_cons]
        exact ⟨hnot, t3⟩
      · intro m hm
        rcases List.mem_cons.1 hm with e | e
        · subst e
          refine ⟨hBs, ?_⟩
          rw [t5 s hnot, List.getElem?_set_self hlt]
        · have hne : s ≠ m.1 := by
            intro x
            exact hnot (List.mem_map.2 ⟨m, e, x.symm⟩)
          have := t4 m e
          rw [List.getElem?_set_ne hne] at this
          exact this
      · intro s' hs'
        rw [List.map_cons, List.mem_cons, not_or] at hs'
        rw [t5 s' hs'.2, List.getElem?_set_ne (Ne.symm hs'.1)]

theorem Donors_nil (v : List (Int × List Nat)) : Donors v [] := by
  intro d hd
  simp at hd

theorem Receivers_nil (v : List (Int × List Nat)) : Receivers v [] := by
  intro d hd
  simp at hd

theorem getElem?_toShards (B : List (Option Int)) (hall : ∀ x ∈ B, x ≠ none) (s : Nat)
    (g : Int) : (toShards B)[s]? = some g ↔ B[s]? = some (some g) := by
  unfold toShards
  rw [List.getElem?_map]
  cases hb : B[s]? with
  | none => simp
  | some x =>
    cases x with
    | none => exact absurd rfl (hall none (List.getElem?_mem hb))
    | some a => simp

/-! ## Enumeration order of the maps -/

theorem nodup_mapKeys_of_perm {β : Type} {m m' : List (Int × β)} (hp : m'.Perm m)
    (hn : (mapKeys m).Nodup) : (mapKeys m').Nodup :=
  ((hp.map Prod.fst).nodup_iff).2 hn

theorem mem_mapKeys_of_perm {β : Type} {m m' : List (Int × β)} (hp : m'.Perm m) (k : Int) :
    k ∈ mapKeys m' ↔ k ∈ mapKeys m :=
  (hp.map Prod.fst).mem_iff

/-- The lookup does not depend on the enumeration order. -/
theorem mapGet?_perm {β : Type} {m m' : List (Int × β)} (hp : m'.Perm m)
    (hn : (mapKeys m).Nodup) (k : Int) : mapGet? m' k = mapGet? m k := by
  cases h : mapGet? m k with
  | none =>
    have hk : k ∉ mapKeys m := (not_mem_mapKeys_iff m k).2 h
    exact (not_mem_mapKeys_iff m' k).1 (fun hm => hk ((mem_mapKeys_of_perm hp k).1 hm))
  | some x =>
    have hm : (k, x) ∈ m' := hp.mem_iff.2 (mem_of_mapGet? m k x h)
    exact mapGet?_of_mem m' (nodup_mapKeys_of_perm hp hn) k x hm

theorem shardsOf_perm {v v' : List (Int × List Nat)} (hp : v'.Perm v)
    (hn : (mapKeys v).Nodup) (g : Int) : shardsOf v' g = shardsOf v g := by
  unfold shardsOf
  rw [mapGet?_perm hp hn g]

theorem mapSet_of_not_mem {β : Type} (m : List (Int × β)) (k : Int) (x : β)
    (h : k ∉ mapKeys m) : mapSet m k x = m ++ [(k, x)] := by
  induction m with
  | nil => rfl
  | cons e m ih =>
    have h1 : e.1 ≠ k := by
      intro e'
      exact h (by simp [mapKeys, e'])
    have h2 : k ∉ mapKeys m := by
      intro hm
      exact h (by simp only [mapKeys, List.map_cons]; exact List.mem_cons_of_mem _ hm)
    simp [mapSet, h1, ih h2]

theorem mapSet_perm_cons {β : Type} (m : List (Int × β)) (hn : (mapKeys m).Nodup)
    (k : Int) (x : β) : (mapSet m k x).Perm ((k, x) :: mapDelete m k) := by
  induction m with
  | nil => simp [mapSet, mapDelete]
  | cons e m ih =>
    obtain ⟨a, b⟩ := e
    have h' : a ∉ mapKeys m ∧ (mapKeys m).Nodup := by simpa [mapKeys] using hn
    rw [mapDelete_cons]
    by_cases hk : a = k
    · subst hk
      simp only [mapSet, if_true]
      rw [mapDelete_of_not_mem m a h'.1]
    · simp only [mapSet, hk, if_false]
      exact ((ih h'.2).cons (a, b)).trans (List.Perm.swap _ _ _)

/-- The assignment `m[k] = x` commutes with a change of the enumeration
order. -/
theorem mapSet_perm {β : Type} {m m' : List (Int × β)} (hp : m'.Perm m)
    (hn : (mapKeys m).Nodup) (k : Int) (x : β) : (mapSet m' k x).Perm (mapSet m k x) := by
  have h1 := mapSet_perm_cons m' (nodup_mapKeys_of_perm hp hn) k x
  have h2 := mapSet_perm_cons m hn k x
  have h3 : (mapDelete m' k).Perm (mapDelete m k) := hp.filter _
  exact h1.trans ((h3.cons (k, x)).trans h2.symm)

theorem mapDelete_perm {β : Type} {m m' : List (Int × β)} (hp : m'.Perm m) (k : Int) :
    (mapDelete m' k).Perm (mapDelete m k) :=
  hp.filter _

theorem sortInts_perm {l l' : List Int} (hp : l'.Perm l) : sortInts l' = sortInts l := by
  unfold sortInts
  apply List.eq_of_perm_of_sorted (r := fun a b : Int => a ≤ b)
  · exact (List.perm_insertionSort _ l').trans (hp.trans (List.perm_insertionSort _ l).symm)
  · exact List.sorted_insertionSort _ l'
  · exact List.sorted_insertionSort _ l

theorem scanMax_congr (v v' : List (Int × List Nat)) (h : ∀ g, shardsOf v' g = shardsOf v g)
    (l : List Int) (a b : Int) : scanMax v' l a b = scanMax v l a b := by
  induction l generalizing a b with
  | nil => rfl
  | cons g l ih => simp only [scanMax, h g, ih]

theorem scanMin_congr (v v' : List (Int × List Nat)) (h : ∀ g, shardsOf v' g = shardsOf v g)
    (l : List Int) (a b : Int) : scanMin v' l a b = scanMin v l a b := by
  induction l generalizing a b with
  | nil => rfl
  | cons g l ih => simp only [scanMin, h g, ih]

/-- The choice of `maxGid` does not depend on the enumeration order of the
view. -/
theorem gidWithMaxShards_perm {v v' : List (Int × List Nat)} (hp : v'.Perm v)
    (hn : (mapKeys v).Nodup) : gidWithMaxShards v' = gidWithMaxShards v := by
  have hk : sortInts (mapKeys v') = sortInts (mapKeys v) := sortInts_perm (hp.map Prod.fst)
  unfold gidWithMaxShards
  rw [mapGet?_perm hp hn 0, hk, scanMax_congr v v' (shardsOf_perm hp hn)]

/-- The choice of `minGid` does not depend on the enumeration order of the
view. -/
theorem gidWithMinShards_perm {v v' : List (Int × List Nat)} (hp : v'.Perm v)
    (hn : (mapKeys v).Nodup) : gidWithMinShards v' = gidWithMinShards v := by
  have hk : sortInts (mapKeys v') = sortInts (mapKeys v) := sortInts_perm (hp.map Prod.fst)
  unfold gidWithMinShards
  rw [hk, scanMin_congr v v' (shardsOf_perm hp hn)]

theorem LoopDone_perm {v v' : List (Int × List Nat)} (hp : v'.Perm v)
    (hn : (mapKeys v).Nodup) : LoopDone v' ↔ LoopDone v := by
  unfold LoopDone
  rw [gidWithMaxShards_perm hp hn, gidWithMinShards_perm hp hn, shardsOf_perm hp hn,
    shardsOf_perm hp hn]

theorem moveFirst_perm {v v' : List (Int × List Nat)} (hp : v'.Perm v)
    (hn : (mapKeys v).Nodup) (s : Nat) : (moveFirst v' s).Perm (moveFirst v s) := by
  unfold moveFirst
  rw [gidWithMaxShards_perm hp hn, gidWithMinShards_perm hp hn, shardsOf_perm hp hn]
  have h1 : (mapSet v' (gidWithMinShards v) (shardsOf v (gidWithMinShards v) ++ [s])).Perm
      (mapSet v (gidWithMinShards v) (shardsOf v (gidWithMinShards v) ++ [s])) :=
    mapSet_perm hp hn _ _
  have hn1 := mapKeys_mapSet_nodup v (gidWithMinShards v)
    (shardsOf v (gidWithMinShards v) ++ [s]) hn
  rw [shardsOf_perm h1 hn1]
  exact mapSet_perm h1 hn1 _ _

theorem mapKeys_moveFirst_nodup (v : List (Int × List Nat)) (hn : (mapKeys v).Nodup)
    (s : Nat) : (mapKeys (moveFirst v s)).Nodup := by
  unfold moveFirst
  exact mapKeys_mapSet_nodup _ _ _ (mapKeys_mapSet_nodup _ _ _ hn)

/-- The rebalance loop commutes with a change of the enumeration order of
the view. -/
theorem rebalance_perm (fuel : Nat) :
    ∀ (v v' v1 : List (Int × List Nat)), v'.Perm v → (mapKeys v).Nodup →
      rebalance fuel v = .ok v1 → ∃ v1', rebalance fuel v' = .ok v1' ∧ v1'.Perm v1 := by
  induction fuel with
  | zero =>
    intro v v' v1 hp hn h
    by_cases hd : LoopDone v
    · rw [rebalance_exit 0 v hd] at h
      cases h
      exact ⟨v', rebalance_exit 0 v' ((LoopDone_perm hp hn).2 hd), hp⟩
    · rw [rebalance_zero v hd] at h
      cases h
  | succ fuel ih =>
    intro v v' v1 hp hn h
    by_cases hd : LoopDone v
    · rw [rebalance_exit _ v hd] at h
      cases h
      exact ⟨v', rebalance_exit _ v' ((LoopDone_perm hp hn).2 hd), hp⟩
    · have hd' : ¬ LoopDone v' := fun x => hd ((LoopDone_perm hp hn).1 x)
      cases hl : shardsOf v (gidWithMaxShards v) with
      | nil =>
        rw [rebalance_panic fuel v hd hl] at h
        cases h
      | cons s rest =>
        have hl' : shardsOf v' (gidWithMaxShards v') = s :: rest := by
          rw [gidWithMaxShards_perm hp hn, shardsOf_perm hp hn, hl]
        rw [rebalance_step fuel v s rest hd hl] at h
        rw [rebalance_step fuel v' s rest hd' hl']
        exact ih _ _ v1 (moveFirst_perm hp hn s) (mapKeys_moveFirst_nodup v hn s) h

/-- A view holds the same assignment in every enumeration order. -/
theorem Rep_perm {v v' : List (Int × List Nat)} {B : List (Option Int)} (h : Rep v B)
    (hp : v'.Perm v) : Rep v' B := by
  have hs := shardsOf_perm hp h.keys
  refine ⟨nodup_mapKeys_of_perm hp h.keys, ?_, ?_, ?_⟩
  · intro g s
    rw [hs g]
    exact h.mem g s
  · intro g
    rw [hs g]
    exact h.nodup g
  · intro g
    rw [hs g]
    exact h.len g

/-- The write-back does not depend on the enumeration order of the view. -/
theorem storeGidToShards_perm {v v' : List (Int × List Nat)} {B : List (Option Int)}
    (h : Rep v B) (hB : B.length = NShards) (hp : v'.Perm v) :
    storeGidToShards v' (List.replicate NShards 0)
      = storeGidToShards v (List.replicate NShards 0) := by
  rw [Rep_store h hB, Rep_store (Rep_perm h hp) hB]

theorem joinGroups_eq (groups G : List (Int × List String)) (hn : (mapKeys groups).Nodup) :
    joinGroups G groups = G ++ groups.filter (fun e => decide (e.1 ∉ mapKeys G)) := by
  induction groups generalizing G with
  | nil => simp [joinGroups]
  | cons e groups ih =>
    obtain ⟨g, sv⟩ := e
    have hn' : g ∉ mapKeys groups ∧ (mapKeys groups).Nodup := by simpa [mapKeys] using hn
    cases hg : mapGet? G g with
    | some x =>
      have hdef : joinGroups G ((g, sv) :: groups) = joinGroups G groups := by
        rw [joinGroups, hg]
      have hk : g ∈ mapKeys G := (mem_mapKeys_iff G g).2 ⟨x, hg⟩
      rw [hdef, ih G hn'.2, List.filter_cons]
      simp [hk]
    | none =>
      have hdef : joinGroups G ((g, sv) :: groups) = joinGroups (mapSet G g sv) groups := by
        rw [joinGroups, hg]
      have hk : g ∉ mapKeys G := (not_mem_mapKeys_iff G g).2 hg
      have hf : groups.filter (fun e => decide (e.1 ∉ mapKeys (G ++ [(g, sv)])))
          = groups.filter (fun e => decide (e.1 ∉ mapKeys G)) := by
        apply List.filter_congr
        intro e he
        have hne : e.1 ≠ g := by
          intro e'
          exact hn'.1 (e' ▸ List.mem_map_of_mem Prod.fst he)
        simp [mapKeys, hne]
      rw [hdef, mapSet_of_not_mem G g sv hk, ih _ hn'.2, hf, List.filter_cons]
      simp [hk]

/-- The groups after the insertion loop of `Join` do not depend, as a map,
on the enumeration order of the previous groups and of the argument. -/
theorem joinGroups_perm {G G' groups groups' : List (Int × List String)} (hG : G'.Perm G)
    (hg : groups'.Perm groups) (hn : (mapKeys groups).Nodup) :
    (joinGroups G' groups').Perm (joinGroups G groups) := by
  rw [joinGroups_eq groups G hn, joinGroups_eq groups' G' (nodup_mapKeys_of_perm hg hn)]
  have hf : (fun e : Int × List String => decide (e.1 ∉ mapKeys G'))
      = (fun e : Int × List String => decide (e.1 ∉ mapKeys G)) := by
    funext e
    exact decide_eq_decide.2 (not_congr (mem_mapKeys_of_perm hG e.1))
  rw [hf]
  exact hG.append (hg.filter _)

theorem foldl_init_eq (groups : List (Int × List String)) (acc : List (Int × List Nat))
    (h : (mapKeys acc ++ mapKeys groups).Nodup) :
    groups.foldl (fun gidToShards e => mapSet gidToShards e.1 []) acc
      = acc ++ groups.map (fun e => (e.1, ([] : List Nat))) := by
  induction groups generalizing acc with
  | nil => simp
  | cons e groups ih =>
    have hk : e.1 ∉ mapKeys acc := by
      intro hm
      have hd := List.disjoint_of_nodup_append h
      exact hd hm (by simp [mapKeys])
    rw [List.foldl_cons, mapSet_of_not_mem acc e.1 [] hk, ih (acc ++ [(e.1, [])]) (by
      simpa [mapKeys] using h)]
    simp

theorem initGidToShards_perm {G G' : List (Int × List String)} (hG : G'.Perm G)
    (hn : (mapKeys G).Nodup) : (initGidToShards G').Perm (initGidToShards G) := by
  unfold initGidToShards
  rw [foldl_init_eq G [] (by simpa [mapKeys] using hn),
    foldl_init_eq G' [] (by simpa [mapKeys] using nodup_mapKeys_of_perm hG hn)]
  simpa using hG.map _

theorem fillGidToShards_perm (shards : List Int) :
    ∀ (v v' : List (Int × List Nat)) (i : Nat), v'.Perm v → (mapKeys v).Nodup →
      (fillGidToShards v' i shards).Perm (fillGidToShards v i shards) := by
  induction shards with
  | nil =>
    intro v v' i hp _
    exact hp
  | cons gid shards ih =>
    intro v v' i hp hn
    simp only [fillGidToShards]
    rw [shardsOf_perm hp hn gid]
    exact ih _ _ (i + 1) (mapSet_perm hp hn _ _) (mapKeys_mapSet_nodup _ _ _ hn)

/-- The view that `Join` and `Leave` build depends on the enumeration order
of the groups only in its own enumeration order. -/
theorem buildGidToShards_perm {G G' : List (Int × List String)} (hG : G'.Perm G)
    (hn : (mapKeys G).Nodup) (shards : List Int) :
    (buildGidToShards G' shards).Perm (buildGidToShards G shards) := by
  unfold buildGidToShards
  exact fillGidToShards_perm shards _ _ 0 (initGidToShards_perm hG hn) (Rep_init G).keys

theorem leaveGids_perm (gids : List Int) :
    ∀ (G G' : List (Int × List String)) (v v' : List (Int × List Nat)) (U : List Nat),
      v'.Perm v → (mapKeys v).Nodup →
      (leaveGids gids G' v' U).2.1.Perm (leaveGids gids G v U).2.1 ∧
      (leaveGids gids G' v' U).2.2 = (leaveGids gids G v U).2.2 := by
  induction gids with
  | nil =>
    intro G G' v v' U hp _
    exact ⟨hp, rfl⟩
  | cons gid gids ih =>
    intro G G' v v' U hp hn
    cases hv : mapGet? v gid with
    | some shards =>
      have hv' : mapGet? v' gid = some shards := by rw [mapGet?_perm hp hn gid, hv]
      rw [leaveGids_cons_some gid gids G v U shards hv,
        leaveGids_cons_some gid gids G' v' U shards hv', shardsOf_perm hp hn gid]
      exact ih _ _ _ _ _ (mapDelete_perm hp gid) (mapKeys_mapDelete_nodup v gid hn)
    | none =>
      have hv' : mapGet? v' gid = none := by rw [mapGet?_perm hp hn gid, hv]
      rw [leaveGids_cons_none gid gids G v U hv, leaveGids_cons_none gid gids G' v' U hv']
      exact ih _ _ _ _ _ hp hn

theorem assignShards_perm (U : List Nat) :
    ∀ (v v' : List (Int × List Nat)), v'.Perm v → (mapKeys v).Nodup →
      (assignShards U v').Perm (assignShards U v) := by
  induction U with
  | nil =>
    intro v v' hp _
    exact hp
  | cons s U ih =>
    intro v v' hp hn
    simp only [assignShards]
    rw [gidWithMinShards_perm hp hn, shardsOf_perm hp hn]
    exact ih _ _ (mapSet_perm hp hn _ _) (mapKeys_mapSet_nodup _ _ _ hn)

/-! ## Calls on logs that differ in the enumeration order of the groups -/

/-- The result of `Leave` in terms of the view after the placement of the
collected shards. -/
theorem Leave_eq (csm : CtrlerStateMachine) (gids : List Int) (c : Config)
    (hc : csm.Configs.getLast? = some c) (hlen : c.Shards.length = NShards) :
    ∃ B1,
      Rep (assignShards
          (leaveGids gids (copyGroups c.Groups)
            (buildGidToShards (copyGroups c.Groups) c.Shards) []).2.2
          (leaveGids gids (copyGroups c.Groups)
            (buildGidToShards (copyGroups c.Groups) c.Shards) []).2.1) B1 ∧
      B1.length = NShards ∧
      Leave csm gids =
        ({ Configs := csm.Configs ++
            [{ Num := (csm.Configs.length : Int),
               Shards := if (deleteAll gids (copyGroups c.Groups)).length ≠ 0 then toShards B1
                 else List.replicate NShards 0,
               Groups := deleteAll gids (copyGroups c.Groups) }] }, .ok Err.OK) := by
  have hrep := Rep_build (copyGroups c.Groups) c.Shards
  obtain ⟨l1, l2, l3, l4, _, _⟩ :=
    leaveGids_spec gids (copyGroups c.Groups) (buildGidToShards (copyGroups c.Groups) c.Shards)
      [] (c.Shards.map some) hrep (by intro s hs; simp at hs) List.nodup_nil
  have hB0 : (blankAll gids (c.Shards.map some)).length = NShards := by
    rw [length_blankAll]
    simpa using hlen
  obtain ⟨B1, a1, a2, _⟩ := assignShards_spec _ _ _ l2 hB0 l3 l4
  refine ⟨B1, a1, a2, ?_⟩
  unfold Leave
  rcases hl : leaveGids gids (copyGroups c.Groups)
      (buildGidToShards (copyGroups c.Groups) c.Shards) [] with ⟨G1, v0, U⟩
  rw [hl] at l1 a1
  simp only at l1 a1
  simp only [hc, hl, l1]
  by_cases hG : (deleteAll gids (copyGroups c.Groups)).length ≠ 0
  · simp only [hG, if_true, Rep_store a1 a2, ne_eq, not_false_eq_true]
  · simp only [hG, if_false]

theorem forall₂_getLast? {α β : Type} {R : α → β → Prop} {l : List α} {l' : List β}
    (h : List.Forall₂ R l l') {a : α} (ha : l.getLast? = some a) :
    ∃ b, l'.getLast? = some b ∧ R a b := by
  induction h with
  | nil => cases ha
  | @cons x y l l' hxy hl ih =>
    cases l with
    | nil =>
      cases hl
      simp only [List.getLast?_singleton, Option.some.injEq] at ha
      exact ⟨y, by simp, ha ▸ hxy⟩
    | cons z l =>
      cases hl with
      | @cons _ w _ l'' hzw hl'' =>
        rw [List.getLast?_cons_cons] at ha
        obtain ⟨b, hb, hr⟩ := ih ha
        exact ⟨b, by rw [List.getLast?_cons_cons]; exact hb, hr⟩

theorem forall₂_concat {α β : Type} {R : α → β → Prop} {l : List α} {l' : List β}
    (h : List.Forall₂ R l l') {a : α} {b : β} (hab : R a b) :
    List.Forall₂ R (l ++ [a]) (l' ++ [b]) := by
  induction h with
  | nil => exact List.Forall₂.cons hab List.Forall₂.nil
  | cons hxy _ ih => exact List.Forall₂.cons hxy ih

/-- The configuration appended by `Join` depends on the latest configuration
and on the argument only, and on their enumeration order only in the
enumeration order of its groups. -/
theorem Join_perm (fuel : Nat) (hf : NShards ≤ fuel) (csm csm' : CtrlerStateMachine)
    (c c' : Config) (hc : csm.Configs.getLast? = some c)
    (hc' : csm'.Configs.getLast? = some c') (hw : WellFormed c)
    (hS : c'.Shards = c.Shards) (hG : c'.Groups.Perm c.Groups)
    (groups groups' : List (Int × List String)) (hg : groups'.Perm groups)
    (hn : (mapKeys groups).Nodup) :
    ∃ c1 c1', Join fuel csm groups = ({ Configs := csm.Configs ++ [c1] }, .ok Err.OK) ∧
      Join fuel csm' groups' = ({ Configs := csm'.Configs ++ [c1'] }, .ok Err.OK) ∧
      c1.Num = (csm.Configs.length : Int) ∧ c1'.Num = (csm'.Configs.length : Int) ∧
      c1'.Shards = c1.Shards ∧ c1'.Groups.Perm c1.Groups ∧ WellFormed c1 := by
  obtain ⟨v1, B1, h1, h2, h3, _, _, _, _, h8⟩ := Join_run fuel csm groups c hc hw.1 hf
  have hnG' : (mapKeys c'.Groups).Nodup := nodup_mapKeys_of_perm hG hw.2
  have hjoin : (joinGroups (copyGroups c'.Groups) groups').Perm
      (joinGroups (copyGroups c.Groups) groups) := by
    rw [copyGroups_eq c.Groups hw.2, copyGroups_eq c'.Groups hnG']
    exact joinGroups_perm hG hg hn
  have hnj : (mapKeys (joinGroups (copyGroups c.Groups) groups)).Nodup :=
    mapKeys_joinGroups_nodup _ _ (mapKeys_copyGroups_nodup _)
  have hbuild := buildGidToShards_perm hjoin hnj c.Shards
  obtain ⟨v1', hr', hp'⟩ := rebalance_perm fuel _ _ v1 hbuild
    (Rep_build (joinGroups (copyGroups c.Groups) groups) c.Shards).keys h1
  refine ⟨_, { Num := (csm'.Configs.length : Int), Shards := toShards B1,
               Groups := joinGroups (copyGroups c'.Groups) groups' }, h8, ?_, rfl, rfl, rfl,
    hjoin, ?_, hnj⟩
  · unfold Join
    simp only [hc', hS, hr', Rep_store (Rep_perm h2 hp') h3]
  · simp [length_toShards, h3]

theorem deleteAll_perm {β : Type} {m m' : List (Int × β)} (hp : m'.Perm m) (gids : List Int) :
    (deleteAll gids m').Perm (deleteAll gids m) := by
  rw [deleteAll_eq_filter, deleteAll_eq_filter]
  exact hp.filter _

/-- The configuration appended by `Leave` depends on the latest
configuration and on the argument only, and on the enumeration order of the
groups only in the enumeration order of its own groups. -/
theorem Leave_perm (csm csm' : CtrlerStateMachine) (c c' : Config)
    (hc : csm.Configs.getLast? = some c) (hc' : csm'.Configs.getLast? = some c')
    (hw : WellFormed c) (hS : c'.Shards = c.Shards) (hG : c'.Groups.Perm c.Groups)
    (gids : List Int) :
    ∃ c1 c1', Leave csm gids = ({ Configs := csm.Configs ++ [c1] }, .ok Err.OK) ∧
      Leave csm' gids = ({ Configs := csm'.Configs ++ [c1'] }, .ok Err.OK) ∧
      c1.Num = (csm.Configs.length : Int) ∧ c1'.Num = (csm'.Configs.length : Int) ∧
      c1'.Shards = c1.Shards ∧ c1'.Groups.Perm c1.Groups ∧ WellFormed c1 := by
  have hnG' : (mapKeys c'.Groups).Nodup := nodup_mapKeys_of_perm hG hw.2
  obtain ⟨B1, a1, a2, a3⟩ := Leave_eq csm gids c hc hw.1
  obtain ⟨B1', b1, b2, b3⟩ := Leave_eq csm' gids c' hc' (hS ▸ hw.1)
  have hcopy : (copyGroups c'.Groups).Perm (copyGroups c.Groups) := by
    rw [copyGroups_eq c.Groups hw.2, copyGroups_eq c'.Groups hnG']
    exact hG
  have hbuild : (buildGidToShards (copyGroups c'.Groups) c'.Shards).Perm
      (buildGidToShards (copyGroups c.Groups) c.Shards) := by
    rw [hS]
    exact buildGidToShards_perm hcopy (mapKeys_copyGroups_nodup _) c.Shards
  have hkeys := (Rep_build (copyGroups c.Groups) c.Shards).keys
  obtain ⟨p1, p2⟩ := leaveGids_perm gids (copyGroups c.Groups) (copyGroups c'.Groups) _ _ []
    hbuild hkeys
  have hnd : (mapKeys (leaveGids gids (copyGroups c.Groups)
      (buildGidToShards (copyGroups c.Groups) c.Shards) []).2.1).Nodup :=
    (leaveGids_spec gids (copyGroups c.Groups) _ [] (c.Shards.map some)
      (Rep_build (copyGroups c.Groups) c.Shards) (by intro s hs; simp at hs)
      List.nodup_nil).2.1.keys
  have hassign := assignShards_perm (leaveGids gids (copyGroups c.Groups)
      (buildGidToShards (copyGroups c.Groups) c.Shards) []).2.2 _ _ p1 hnd
  have hassign' : (assignShards (leaveGids gids (copyGroups c'.Groups)
      (buildGidToShards (copyGroups c'.Groups) c'.Shards) []).2.2
      (leaveGids gids (copyGroups c'.Groups)
        (buildGidToShards (copyGroups c'.Groups) c'.Shards) []).2.1).Perm
      (assignShards (leaveGids gids (copyGroups c.Groups)
        (buildGidToShards (copyGroups c.Groups) c.Shards) []).2.2
        (leaveGids gids (copyGroups c.Groups)
          (buildGidToShards (copyGroups c.Groups) c.Shards) []).2.1) := by
    rw [p2]
    exact hassign
  have hsame : toShards B1' = toShards B1 := by
    have e1 := Rep_store b1 b2
    have e2 := Rep_store (Rep_perm a1 hassign') a2
    rw [e1] at e2
    exact Except.ok.inj e2
  have hdel := deleteAll_perm hcopy gids
  refine ⟨_, _, a3, b3, rfl, rfl, ?_, hdel, ?_, ?_⟩
  · simp only [hdel.length_eq, hsame]
  · by_cases hl : (deleteAll gids (copyGroups c.Groups)).length ≠ 0
    · simp only [hl, if_true, ne_eq, not_false_eq_true, length_toShards, a2]
    · simp only [hl, if_false, List.length_replicate]
  · exact mapKeys_deleteAll_nodup _ _ (mapKeys_copyGroups_nodup _)

/-- Equivalent calls on equivalent logs have the same outcome and leave
equivalent logs. -/
theorem applyOp_equiv (fuel : Nat) (hf : NShards ≤ fuel) (csm csm' : CtrlerStateMachine)
    (hL : LogEquiv csm csm') (c : Config) (hc : csm.Configs.getLast? = some c)
    (hw : WellFormed c) (op op' : Op) (ho : OpEquiv op op') :
    (applyOp fuel csm' op').2 = (applyOp fuel csm op).2 ∧
    LogEquiv (applyOp fuel csm op).1 (applyOp fuel csm' op').1 ∧
    ∃ c1, (applyOp fuel csm op).1.Configs.getLast? = some c1 ∧ WellFormed c1 := by
  obtain ⟨c', hc', _, hS, hG⟩ := forall₂_getLast? hL hc
  have hlen : csm'.Configs.length = csm.Configs.length := hL.length_eq.symm
  have hnG' : (mapKeys c'.Groups).Nodup := nodup_mapKeys_of_perm hG hw.2
  cases op with
  | join groups =>
    cases op' with
    | join groups' =>
      obtain ⟨hg, hn⟩ := ho
      obtain ⟨c1, c1', j1, j2, n1, n2, s, g, w⟩ :=
        Join_perm fuel hf csm csm' c c' hc hc' hw hS hG groups groups' hg hn
      simp only [applyOp, j1, j2]
      exact ⟨trivial, forall₂_concat hL ⟨by rw [n1, n2, hlen], s, g⟩, c1, by simp, w⟩
    | leave _ => exact False.elim ho
    | move _ _ => exact False.elim ho
  | leave gids =>
    cases op' with
    | join _ => exact False.elim ho
    | leave gids' =>
      have hg : gids' = gids := ho
      subst hg
      obtain ⟨c1, c1', j1, j2, n1, n2, s, g, w⟩ :=
        Leave_perm csm csm' c c' hc hc' hw hS hG gids'
      simp only [applyOp, j1, j2]
      exact ⟨trivial, forall₂_concat hL ⟨by rw [n1, n2, hlen], s, g⟩, c1, by simp, w⟩
    | move _ _ => exact False.elim ho
  | move shardid gid =>
    cases op' with
    | join _ => exact False.elim ho
    | leave _ => exact False.elim ho
    | move shardid' gid' =>
      obtain ⟨hs, hg⟩ : shardid' = shardid ∧ gid' = gid := ho
      subst hs hg
      by_cases hr : 0 ≤ shardid' ∧ shardid' < (NShards : Int)
      · simp only [applyOp, Move_run csm shardid' gid' c hc hr.1 hr.2,
          Move_run csm' shardid' gid' c' hc' hr.1 hr.2]
        refine ⟨trivial, forall₂_concat hL ⟨by simp only [hlen], by simp only [hS], ?_⟩,
          { Num := (csm.Configs.length : Int), Shards := c.Shards.set shardid'.toNat gid',
            Groups := copyGroups c.Groups },
          by simp, ?_, mapKeys_copyGroups_nodup _⟩
        · rw [copyGroups_eq c.Groups hw.2, copyGroups_eq c'.Groups hnG']
          exact hG
        · simp only [List.length_set]
          exact hw.1
      · have e1 : Move csm shardid' gid' = (csm, .error Fault.panic) := by
          unfold Move
          simp only [hc, hr, if_false]
        have e2 : Move csm' shardid' gid' = (csm', .error Fault.panic) := by
          unfold Move
          simp only [hc', hr, if_false]
        simp only [applyOp, e1, e2]
        exact ⟨trivial, hL, c, hc, hw⟩

/-- Equivalent sequences of calls on equivalent logs have the same outcomes
and leave equivalent logs. -/
theorem runOps_equiv (fuel : Nat) (hf : NShards ≤ fuel) {ops ops' : List Op}
    (ho : List.Forall₂ OpEquiv ops ops') :
    ∀ csm csm' : CtrlerStateMachine, LogEquiv csm csm' →
      (∃ c, csm.Configs.getLast? = some c ∧ WellFormed c) →
      (runOps fuel csm' ops').2 = (runOps fuel csm ops).2 ∧
      LogEquiv (runOps fuel csm ops).1 (runOps fuel csm' ops').1 := by
  induction ho with
  | nil =>
    intro csm csm' hL _
    exact ⟨rfl, hL⟩
  | cons hop _ ih =>
    intro csm csm' hL hlast
    obtain ⟨c, hc, hw⟩ := hlast
    obtain ⟨e, l, w⟩ := applyOp_equiv fuel hf csm csm' hL c hc hw _ _ hop
    obtain ⟨r1, r2⟩ := ih _ _ l w
    simp only [runOps]
    exact ⟨by rw [e, r1], r2⟩

theorem joinedAB_last : joinedAB.Configs.getLast? = some joinedABConfig := by
  decide!

theorem joinedBA_last : joinedBA.Configs.getLast? = some joinedBAConfig := by
  decide!

theorem wellFormed_joinedAB : WellFormed joinedABConfig :=
  ⟨rfl, by decide⟩

theorem perm_joined : joinedBAConfig.Groups.Perm joinedABConfig.Groups :=
  List.Perm.swap (1, ["a"]) (2, ["b"]) []

theorem logEquiv_joined : LogEquiv joinedAB joinedBA := by
  have h1 : joinedAB.Configs = [DefaultConfig, joinedABConfig] := by decide!
  have h2 : joinedBA.Configs = [DefaultConfig, joinedBAConfig] := by decide!
  unfold LogEquiv
  rw [h1, h2]
  exact List.Forall₂.cons ⟨rfl, rfl, List.Perm.refl _⟩
    (List.Forall₂.cons ⟨rfl, rfl, perm_joined⟩ List.Forall₂.nil)

theorem opEquiv_example : List.Forall₂ OpEquiv opsCD opsDC :=
  List.Forall₂.cons ⟨List.Perm.swap (3, ["c"]) (4, ["d"]) [], by decide⟩
    (List.Forall₂.cons ⟨rfl, rfl⟩
      (List.Forall₂.cons rfl (List.Forall₂.cons ⟨rfl, rfl⟩ List.Forall₂.nil)))

/-! ## The claims -/

/-- C1 as stated fails.  `Move` writes whatever gid it is given: after
`Move(0, 7)` on the fresh state machine, a reachable state, shard 0 of the
latest configuration is mapped to 7, which is neither 0 nor a key of the
(empty) groups. -/
theorem shard_validity_counterexample :
    Reachable movedOnFresh ∧
      ¬ (∀ c ∈ movedOnFresh.Configs, c.Shards.length = NShards ∧ ShardsValid c) := by
  refine ⟨reachable_movedOnFresh, ?_⟩
  intro h
  have hmem : ({ Num := 1, Shards := [7, 0, 0, 0, 0, 0, 0, 0, 0, 0], Groups := [] } : Config)
      ∈ movedOnFresh.Configs := by
    rw [movedOnFresh, movedOnFresh_eq]
    simp
  have := (h _ hmem).2 7 (by simp)
  simp [mapKeys] at this

/-- C1, amended.  In every state reached from `NewCtrlerStateMachine()` by
calls of `Join` whose argument has no key 0 and which leave at least one
group, calls of `Leave`, and calls of `Move` whose gid is 0 or a key of the
latest groups, every configuration of `Configs` has a shard array of exactly
`NShards` entries, each of which is 0 or a key of that configuration's
groups. -/
theorem shard_validity (csm : CtrlerStateMachine) (h : ReachableValid csm) :
    ∀ c ∈ csm.Configs, c.Shards.length = NShards ∧ ShardsValid c :=
  fun c hc => ⟨(h.inv c hc).1.1, (h.inv c hc).2.2⟩

/-- Witness of `shard_validity` on the state after `Join({1: [a]})`. -/
theorem shard_validity_witness :
    ReachableValid oneGroup ∧
      ∀ c ∈ oneGroup.Configs, c.Shards.length = NShards ∧ ShardsValid c :=
  ⟨reachableValid_oneGroup, shard_validity oneGroup reachableValid_oneGroup⟩

/-- C2.  For every reachable state and every argument, `Join` (given fuel
for `NShards` moves) returns `OK` and appends a configuration in which the
largest shard count of a group with gid ≠ 0 exceeds the smallest one by at
most 1. -/
theorem join_balanced (csm : CtrlerStateMachine) (h : Reachable csm) (fuel : Nat)
    (hf : NShards ≤ fuel) (groups : List (Int × List String)) :
    ∃ c1, Join fuel csm groups = ({ Configs := csm.Configs ++ [c1] }, .ok Err.OK) ∧
      Balanced c1 := by
  obtain ⟨c, hc, hw⟩ := h.wellFormed
  obtain ⟨c1, h1, _, h3⟩ := Join_balancedAll fuel csm groups c hc hw.1 hf
  exact ⟨c1, h1, Balanced_of_BalancedAll c1 h3⟩

/-- Witness of `join_balanced`: `Join({3: [c]})` on the unbalanced state
`skewed`. -/
theorem join_balanced_witness :
    Reachable skewed ∧ NShards ≤ NShards ∧
      ∃ c1, Join NShards skewed [(3, ["c"])]
          = ({ Configs := skewed.Configs ++ [c1] }, .ok Err.OK) ∧
        Balanced c1 :=
  ⟨reachable_skewed, le_refl _,
    join_balanced skewed reachable_skewed NShards (le_refl _) [(3, ["c"])]⟩

/-- C3 as stated fails.  `Leave` only places the shards of the removed gids:
in the reachable state `skewed` gid 1 owns six shards and gid 2 owns four,
`Leave([3])` removes nothing and appends the same assignment, whose counts
differ by 2. -/
theorem leave_balanced_counterexample :
    Reachable skewed ∧
    Leave skewed [3] =
      ({ Configs := skewed.Configs ++
          [{ Num := 3, Shards := [1, 1, 1, 2, 1, 2, 1, 2, 1, 2],
             Groups := [(1, ["a"]), (2, ["b"])] }] }, .ok Err.OK) ∧
    ¬ Balanced { Num := 3, Shards := [1, 1, 1, 2, 1, 2, 1, 2, 1, 2],
                 Groups := [(1, ["a"]), (2, ["b"])] } := by
  refine ⟨reachable_skewed, by decide!, ?_⟩
  intro h
  have := h 6 4 (by decide!) (by decide!)
  omega

/-- C3, amended.  For every state reached by calls of `Join` and `Leave`
only (no `Move`) and every gid list, `Leave` returns `OK` and appends a
configuration in which the largest shard count of a group with gid ≠ 0
exceeds the smallest one by at most 1. -/
theorem leave_balanced (csm : CtrlerStateMachine) (h : ReachableJL csm) (gids : List Int) :
    ∃ c1, Leave csm gids = ({ Configs := csm.Configs ++ [c1] }, .ok Err.OK) ∧
      Balanced c1 := by
  obtain ⟨c, hc, hlen, hb⟩ := h.balancedAll
  obtain ⟨c1, h1, _, h3⟩ := Leave_balancedAll csm gids c hc hlen hb
  exact ⟨c1, h1, Balanced_of_BalancedAll c1 h3⟩

/-- Witness of `leave_balanced`: `Leave([2])` after `Join({1: [a], 2: [b]})`. -/
theorem leave_balanced_witness :
    ReachableJL (Join NShards NewCtrlerStateMachine [(1, ["a"]), (2, ["b"])]).1 ∧
      ∃ c1, Leave (Join NShards NewCtrlerStateMachine [(1, ["a"]), (2, ["b"])]).1 [2]
          = ({ Configs := (Join NShards NewCtrlerStateMachine
                [(1, ["a"]), (2, ["b"])]).1.Configs ++ [c1] }, .ok Err.OK) ∧
        Balanced c1 :=
  ⟨reachableJL_twoGroups, leave_balanced _ reachableJL_twoGroups [2]⟩

/-- C4 fails on the code.  `Join` with an empty argument on the fresh state
machine appends a configuration without groups in which every shard is
mapped to -1, the value `gidWithMinShards` returns when it finds no gid. -/
theorem join_without_groups :
    Join NShards NewCtrlerStateMachine [] =
      ({ Configs := [DefaultConfig,
          { Num := 1, Shards := List.replicate NShards (-1), Groups := [] }] },
        .ok Err.OK) := by
  decide!

/-- C5.  On a non-empty log `Query(num)` returns `OK` and leaves the state
machine unchanged; it returns `Configs[num]` for `0 ≤ num < len(Configs)`
and the last configuration `Configs[len(Configs)-1]` for every other `num`,
so `Query(-1)` and `Query(len(Configs))` equal `Query(len(Configs)-1)`. -/
theorem query_spec (csm : CtrlerStateMachine) (hne : csm.Configs ≠ []) (num : Int) :
    (Query csm num).1 = csm ∧
    (0 ≤ num → num < (csm.Configs.length : Int) →
      ∃ c, csm.Configs[num.toNat]? = some c ∧ (Query csm num).2 = .ok (c, Err.OK)) ∧
    (num < 0 ∨ (csm.Configs.length : Int) ≤ num →
      ∃ c, csm.Configs[csm.Configs.length - 1]? = some c ∧
        (Query csm num).2 = .ok (c, Err.OK)) ∧
    Query csm (-1) = Query csm ((csm.Configs.length : Int) - 1) ∧
    Query csm (csm.Configs.length : Int) = Query csm ((csm.Configs.length : Int) - 1) := by
  have hpos : 0 < csm.Configs.length := List.length_pos.2 hne
  refine ⟨Query_fst csm num, ?_, ?_, ?_, ?_⟩
  · intro h0 h1
    obtain ⟨c, hc, hq⟩ := Query_inside csm num h0 h1
    exact ⟨c, hc, by rw [hq]⟩
  · intro h
    obtain ⟨c, hc, hq⟩ := Query_outside csm hne num h
    exact ⟨c, hc, by rw [hq]⟩
  · obtain ⟨c, hc, hq⟩ := Query_outside csm hne (-1) (Or.inl (by omega))
    obtain ⟨c', hc', hq'⟩ := Query_inside csm ((csm.Configs.length : Int) - 1) (by omega)
      (by omega)
    have : ((csm.Configs.length : Int) - 1).toNat = csm.Configs.length - 1 := by omega
    rw [this, hc] at hc'
    rw [hq, hq', Option.some.inj hc']
  · obtain ⟨c, hc, hq⟩ := Query_outside csm hne (csm.Configs.length : Int) (Or.inr (le_refl _))
    obtain ⟨c', hc', hq'⟩ := Query_inside csm ((csm.Configs.length : Int) - 1) (by omega)
      (by omega)
    have : ((csm.Configs.length : Int) - 1).toNat = csm.Configs.length - 1 := by omega
    rw [this, hc] at hc'
    rw [hq, hq', Option.some.inj hc']

/-- Witness of `query_spec` on the three-entry log of `skewed` with
`num = 1`. -/
theorem query_spec_witness :
    skewed.Configs ≠ [] ∧
    ((Query skewed 1).1 = skewed ∧
    ((0 : Int) ≤ 1 → (1 : Int) < (skewed.Configs.length : Int) →
      ∃ c, skewed.Configs[(1 : Int).toNat]? = some c ∧ (Query skewed 1).2 = .ok (c, Err.OK)) ∧
    ((1 : Int) < 0 ∨ (skewed.Configs.length : Int) ≤ 1 →
      ∃ c, skewed.Configs[skewed.Configs.length - 1]? = some c ∧
        (Query skewed 1).2 = .ok (c, Err.OK)) ∧
    Query skewed (-1) = Query skewed ((skewed.Configs.length : Int) - 1) ∧
    Query skewed (skewed.Configs.length : Int)
      = Query skewed ((skewed.Configs.length : Int) - 1)) :=
  ⟨by decide!, query_spec skewed (by decide!) 1⟩

/-- C6.  On a reachable state each successful call of `Join`, `Leave` or
`Move` turns the log `L` into `L ++ [c]` for one new configuration `c` with
`c.Num = len(L)`, so the earlier entries are unchanged; and every entry of
the log of a reachable state carries its index as `Num`. -/
theorem log_append_only (csm : CtrlerStateMachine) (h : Reachable csm) :
    (∀ fuel groups csm1, Join fuel csm groups = (csm1, .ok Err.OK) →
      ∃ c, csm1.Configs = csm.Configs ++ [c] ∧ c.Num = (csm.Configs.length : Int)) ∧
    (∀ gids csm1, Leave csm gids = (csm1, .ok Err.OK) →
      ∃ c, csm1.Configs = csm.Configs ++ [c] ∧ c.Num = (csm.Configs.length : Int)) ∧
    (∀ shardid gid csm1, Move csm shardid gid = (csm1, .ok Err.OK) →
      ∃ c, csm1.Configs = csm.Configs ++ [c] ∧ c.Num = (csm.Configs.length : Int)) ∧
    (∀ (i : Nat) (c : Config), csm.Configs[i]? = some c → c.Num = (i : Int)) :=
  ⟨h.appends.1, h.appends.2.1, h.appends.2.2, h.num_eq_index⟩

/-- Witness of `log_append_only` on the state `skewed`, reached by a `Join`
and a `Move`. -/
theorem log_append_only_witness :
    Reachable skewed ∧
    ((∀ fuel groups csm1, Join fuel skewed groups = (csm1, .ok Err.OK) →
      ∃ c, csm1.Configs = skewed.Configs ++ [c] ∧ c.Num = (skewed.Configs.length : Int)) ∧
    (∀ gids csm1, Leave skewed gids = (csm1, .ok Err.OK) →
      ∃ c, csm1.Configs = skewed.Configs ++ [c] ∧ c.Num = (skewed.Configs.length : Int)) ∧
    (∀ shardid gid csm1, Move skewed shardid gid = (csm1, .ok Err.OK) →
      ∃ c, csm1.Configs = skewed.Configs ++ [c] ∧ c.Num = (skewed.Configs.length : Int)) ∧
    (∀ (i : Nat) (c : Config), skewed.Configs[i]? = some c → c.Num = (i : Int))) :=
  ⟨reachable_skewed, log_append_only skewed reachable_skewed⟩

/-- C7.  For every state with a well-formed latest configuration and every
argument, `Join` returns `OK` and the groups of the appended configuration
hold, for every gid: the previous server list when gid was a key of the
previous groups (the argument is ignored for it), else the server list of
the argument when gid is one of its keys, else nothing. -/
theorem join_groups_merge (csm : CtrlerStateMachine) (c : Config)
    (hc : csm.Configs.getLast? = some c) (hw : WellFormed c) (fuel : Nat)
    (hf : NShards ≤ fuel) (groups : List (Int × List String)) :
    ∃ c1, Join fuel csm groups = ({ Configs := csm.Configs ++ [c1] }, .ok Err.OK) ∧
      ∀ gid, mapGet? c1.Groups gid =
        match mapGet? c.Groups gid with
        | some servers => some servers
        | none => mapGet? groups gid := by
  obtain ⟨v1, B1, _, _, _, _, _, _, _, h9⟩ := Join_run fuel csm groups c hc hw.1 hf
  refine ⟨_, h9, ?_⟩
  intro gid
  simp only [copyGroups_eq c.Groups hw.2]
  exact mapGet?_joinGroups groups c.Groups gid

/-- Witness of `join_groups_merge`: gid 1 joins again with other servers and
gid 5 joins for the first time. -/
theorem join_groups_merge_witness :
    oneGroup.Configs.getLast? = some oneGroupConfig ∧ WellFormed oneGroupConfig ∧
    NShards ≤ NShards ∧
    ∃ c1, Join NShards oneGroup [(1, ["x"]), (5, ["y"])]
        = ({ Configs := oneGroup.Configs ++ [c1] }, .ok Err.OK) ∧
      ∀ gid, mapGet? c1.Groups gid =
        match mapGet? oneGroupConfig.Groups gid with
        | some servers => some servers
        | none => mapGet? [(1, ["x"]), (5, ["y"])] gid :=
  ⟨by decide!, ⟨by decide!, by decide!⟩, le_refl _,
    join_groups_merge oneGroup oneGroupConfig (by decide!) ⟨by decide!, by decide!⟩ NShards
      (le_refl _) [(1, ["x"]), (5, ["y"])]⟩

/-- C8.  For every state with a well-formed latest configuration and every
gid list (absent and repeated gids included), `Leave` returns `OK` and the
groups of the appended configuration are the previous groups restricted to
the gids not in the list, with their server lists unchanged. -/
theorem leave_groups_removed (csm : CtrlerStateMachine) (c : Config)
    (hc : csm.Configs.getLast? = some c) (hw : WellFormed c) (gids : List Int) :
    ∃ c1, Leave csm gids = ({ Configs := csm.Configs ++ [c1] }, .ok Err.OK) ∧
      c1.Groups = c.Groups.filter (fun e => decide (e.1 ∉ gids)) ∧
      ∀ gid, mapGet? c1.Groups gid = if gid ∈ gids then none else mapGet? c.Groups gid := by
  obtain ⟨v1, B1, U, _, _, _, _, _, _, _, _, h9⟩ := Leave_run csm gids c hc hw.1
  refine ⟨_, h9, ?_, ?_⟩
  · simp only [copyGroups_eq c.Groups hw.2]
    exact deleteAll_eq_filter gids c.Groups
  · intro gid
    simp only [copyGroups_eq c.Groups hw.2]
    exact mapGet?_deleteAll gids c.Groups gid

/-- Witness of `leave_groups_removed`: the list names gid 2 twice and the
absent gid 9. -/
theorem leave_groups_removed_witness :
    skewed.Configs.getLast? = some skewedConfig ∧ WellFormed skewedConfig ∧
    ∃ c1, Leave skewed [2, 9, 2] = ({ Configs := skewed.Configs ++ [c1] }, .ok Err.OK) ∧
      c1.Groups = skewedConfig.Groups.filter (fun e => decide (e.1 ∉ [(2 : Int), 9, 2])) ∧
      ∀ gid, mapGet? c1.Groups gid =
        if gid ∈ [(2 : Int), 9, 2] then none else mapGet? skewedConfig.Groups gid :=
  ⟨by decide!, ⟨by decide!, by decide!⟩,
    leave_groups_removed skewed skewedConfig (by decide!) ⟨by decide!, by decide!⟩ [2, 9, 2]⟩

/-- C9 as stated fails, in two ways.  In the reachable state `movedOnFresh`
there is no group, so `Leave([3])` resets every shard to 0 although shard 0
was mapped to 7.  In the reachable state `movedOnOneGroup` gid 7 is not a
group but owns shard 0, so `Leave([7])` collects that shard and gives it to
gid 1. -/
theorem leave_absent_counterexample :
    (Reachable movedOnFresh ∧
      movedOnFresh.Configs.getLast? = some movedOnFreshConfig ∧
      (3 : Int) ∉ mapKeys movedOnFreshConfig.Groups ∧
      Leave movedOnFresh [3] =
        ({ Configs := movedOnFresh.Configs ++
            [{ Num := 2, Shards := [0, 0, 0, 0, 0, 0, 0, 0, 0, 0], Groups := [] }] },
          .ok Err.OK) ∧
      ([0, 0, 0, 0, 0, 0, 0, 0, 0, 0] : List Int) ≠ movedOnFreshConfig.Shards) ∧
    (Reachable movedOnOneGroup ∧
      movedOnOneGroup.Configs.getLast? = some movedOnOneGroupConfig ∧
      (7 : Int) ∉ mapKeys movedOnOneGroupConfig.Groups ∧
      Leave movedOnOneGroup [7] =
        ({ Configs := movedOnOneGroup.Configs ++
            [{ Num := 3, Shards := [1, 1, 1, 1, 1, 1, 1, 1, 1, 1], Groups := [(1, ["a"])] }] },
          .ok Err.OK) ∧
      ([1, 1, 1, 1, 1, 1, 1, 1, 1, 1] : List Int) ≠ movedOnOneGroupConfig.Shards) :=
  ⟨⟨reachable_movedOnFresh, by decide!, by decide!, by decide!, by decide!⟩,
    ⟨reachable_movedOnOneGroup, by decide!, by decide!, by decide!, by decide!⟩⟩

/-- C9, amended.  For every reachable state and every gid that is not a key
of the latest groups and to which no shard of the latest configuration is
mapped, provided the latest groups are not empty or every shard is
unassigned, `Leave([gid])` returns `OK` and appends a configuration whose
groups and shard array equal those of the latest configuration (only `Num`
differs). -/
theorem leave_absent_noop (csm : CtrlerStateMachine) (h : Reachable csm) (c : Config)
    (hc : csm.Configs.getLast? = some c) (gid : Int) (h1 : gid ∉ mapKeys c.Groups)
    (h2 : gid ∉ c.Shards) (h3 : c.Groups ≠ [] ∨ ∀ x ∈ c.Shards, x = 0) :
    Leave csm [gid] =
      ({ Configs := csm.Configs ++
          [{ Num := (csm.Configs.length : Int), Shards := c.Shards, Groups := c.Groups }] },
        .ok Err.OK) := by
  obtain ⟨c', hc', hw⟩ := h.wellFormed
  rw [hc] at hc'
  cases Option.some.inj hc'
  obtain ⟨v1, B1, U, _, _, _, _, _, _, _, a8, a9⟩ := Leave_run csm [gid] c hc hw.1
  have hB : B1 = c.Shards.map some := by
    apply a8
    intro g hg
    rw [List.mem_singleton] at hg
    subst hg
    exact ⟨fun hm => h1 ((mem_mapKeys_copyGroups _ _).1 hm), h2⟩
  have hG : deleteAll [gid] (copyGroups c.Groups) = c.Groups := by
    rw [copyGroups_eq c.Groups hw.2]
    exact mapDelete_of_not_mem c.Groups gid h1
  rw [a9, hG, hB, toShards_map_some]
  by_cases hne : c.Groups.length ≠ 0
  · simp only [hne, if_true, ne_eq, not_false_eq_true]
  · have hnil : c.Groups = [] := List.eq_nil_of_length_eq_zero (by omega)
    have hz : ∀ x ∈ c.Shards, x = 0 := h3.resolve_left (fun hn => hn hnil)
    have : List.replicate NShards (0 : Int) = c.Shards := by
      rw [← hw.1]
      exact (List.eq_replicate_of_mem hz).symm
    simp only [hne, if_false, this]

/-- Witness of `leave_absent_noop`: `Leave([3])` on `skewed`. -/
theorem leave_absent_noop_witness :
    Reachable skewed ∧ skewed.Configs.getLast? = some skewedConfig ∧
    (3 : Int) ∉ mapKeys skewedConfig.Groups ∧ (3 : Int) ∉ skewedConfig.Shards ∧
    (skewedConfig.Groups ≠ [] ∨ ∀ x ∈ skewedConfig.Shards, x = 0) ∧
    Leave skewed [3] =
      ({ Configs := skewed.Configs ++
          [{ Num := (skewed.Configs.length : Int), Shards := skewedConfig.Shards,
             Groups := skewedConfig.Groups }] },
        .ok Err.OK) :=
  ⟨reachable_skewed, by decide!, by decide!, by decide!, Or.inl (by decide!),
    leave_absent_noop skewed reachable_skewed skewedConfig (by decide!) 3 (by decide!)
      (by decide!) (Or.inl (by decide!))⟩

/-- C10.  For every reachable state and every gid list that contains every
key of the latest groups, `Leave` returns `OK` and appends a configuration
with no groups in which each of the `NShards` shard entries is 0. -/
theorem leave_drains (csm : CtrlerStateMachine) (h : Reachable csm) (c : Config)
    (hc : csm.Configs.getLast? = some c) (gids : List Int)
    (hall : ∀ g ∈ mapKeys c.Groups, g ∈ gids) :
    Leave csm gids =
      ({ Configs := csm.Configs ++
          [{ Num := (csm.Configs.length : Int), Shards := List.replicate NShards 0,
             Groups := [] }] },
        .ok Err.OK) := by
  obtain ⟨c', hc', hw⟩ := h.wellFormed
  rw [hc] at hc'
  cases Option.some.inj hc'
  obtain ⟨v1, B1, U, _, _, _, _, _, _, _, _, a9⟩ := Leave_run csm gids c hc hw.1
  have hG : deleteAll gids (copyGroups c.Groups) = [] := by
    apply eq_nil_of_mapKeys
    intro g hg
    rw [mem_mapKeys_deleteAll, mem_mapKeys_copyGroups] at hg
    exact hg.2 (hall g hg.1)
  rw [a9, hG]
  simp

/-- Witness of `leave_drains`: in `movedOnOneGroup` shard 0 is mapped to gid
7, which `Leave([1])` does not remove; it is reset to 0 all the same. -/
theorem leave_drains_witness :
    Reachable movedOnOneGroup ∧
    movedOnOneGroup.Configs.getLast? = some movedOnOneGroupConfig ∧
    (∀ g ∈ mapKeys movedOnOneGroupConfig.Groups, g ∈ [(1 : Int)]) ∧
    Leave movedOnOneGroup [1] =
      ({ Configs := movedOnOneGroup.Configs ++
          [{ Num := (movedOnOneGroup.Configs.length : Int),
             Shards := List.replicate NShards 0, Groups := [] }] },
        .ok Err.OK) :=
  ⟨reachable_movedOnOneGroup, by decide!, by decide!,
    leave_drains movedOnOneGroup reachable_movedOnOneGroup movedOnOneGroupConfig (by decide!)
      [1] (by decide!)⟩

/-- C11.  For every state with a well-formed latest configuration, every
shard index `s` with `0 ≤ s < NShards` and every integer gid (a group or
not), `Move(s, gid)` returns `OK` and appends a configuration whose groups
equal the previous groups and whose shard array equals the previous one at
every index other than `s`, with `Shards[s] = gid`. -/
theorem move_overrides (csm : CtrlerStateMachine) (c : Config)
    (hc : csm.Configs.getLast? = some c) (hw : WellFormed c) (s gid : Int)
    (h0 : 0 ≤ s) (h1 : s < (NShards : Int)) :
    ∃ c1, Move csm s gid = ({ Configs := csm.Configs ++ [c1] }, .ok Err.OK) ∧
      c1.Groups = c.Groups ∧ c1.Shards.length = NShards ∧
      c1.Shards[s.toNat]? = some gid ∧
      ∀ i : Nat, i ≠ s.toNat → c1.Shards[i]? = c.Shards[i]? := by
  refine ⟨_, Move_run csm s gid c hc h0 h1, copyGroups_eq c.Groups hw.2, ?_, ?_, ?_⟩
  · simpa using hw.1
  · have hlt : s.toNat < c.Shards.length := by
      rw [hw.1]
      omega
    simp only [List.getElem?_set_self hlt]
  · intro i hi
    simp only [List.getElem?_set_ne (Ne.symm hi)]

/-- Witness of `move_overrides`: `Move(3, 99)` on `skewed`, where 99 is not a
group. -/
theorem move_overrides_witness :
    skewed.Configs.getLast? = some skewedConfig ∧ WellFormed skewedConfig ∧
    (0 : Int) ≤ 3 ∧ (3 : Int) < (NShards : Int) ∧
    ∃ c1, Move skewed 3 99 = ({ Configs := skewed.Configs ++ [c1] }, .ok Err.OK) ∧
      c1.Groups = skewedConfig.Groups ∧ c1.Shards.length = NShards ∧
      c1.Shards[(3 : Int).toNat]? = some 99 ∧
      ∀ i : Nat, i ≠ (3 : Int).toNat → c1.Shards[i]? = skewedConfig.Shards[i]? :=
  ⟨by decide!, ⟨by decide!, by decide!⟩, by decide, by decide!,
    move_overrides skewed skewedConfig (by decide!) ⟨by decide!, by decide!⟩ 3 99 (by decide)
      (by decide!)⟩

/-- C12.  For every state and every `shardid` with `shardid < 0` or
`shardid ≥ NShards`, `Move(shardid, gid)` does not return: it panics (with a
non-empty log, at the array write) and the state machine is left as it was,
with no configuration appended. -/
theorem move_out_of_range (csm : CtrlerStateMachine) (shardid gid : Int)
    (h : shardid < 0 ∨ (NShards : Int) ≤ shardid) :
    Move csm shardid gid = (csm, .error Fault.panic) := by
  unfold Move
  have hn : ¬ (0 ≤ shardid ∧ shardid < (NShards : Int)) := by omega
  cases hc : csm.Configs.getLast? with
  | none => rfl
  | some c => simp only [if_neg hn]

/-- Witness of `move_out_of_range`: `Move(NShards, 1)` on `skewed`. -/
theorem move_out_of_range_witness :
    ((NShards : Int) < 0 ∨ (NShards : Int) ≤ (NShards : Int)) ∧
    Move skewed (NShards : Int) 1 = (skewed, .error Fault.panic) :=
  ⟨Or.inr (le_refl _), move_out_of_range skewed (NShards : Int) 1 (Or.inr (le_refl _))⟩

/-- C13.  From a latest configuration with groups `{1: servers}` in which gid
1 owns all ten shards, `Join({2: servers'})` returns `OK` and appends the
configuration in which shards 0..4 belong to gid 2 and shards 5..9 stay with
gid 1: each gid owns exactly five shards, every shard of gid 2 was one of
gid 1, and no shard that stays with gid 1 has moved. -/
theorem join_minimal_movement (csm : CtrlerStateMachine) (c : Config)
    (hc : csm.Configs.getLast? = some c) (servers servers' : List String)
    (hG : c.Groups = [(1, servers)]) (hS : c.Shards = List.replicate NShards 1)
    (fuel : Nat) (hf : NShards ≤ fuel) :
    Join fuel csm [(2, servers')] =
      ({ Configs := csm.Configs ++
          [{ Num := (csm.Configs.length : Int), Shards := [2, 2, 2, 2, 2, 1, 1, 1, 1, 1],
             Groups := [(1, servers), (2, servers')] }] }, .ok Err.OK) ∧
    List.count (1 : Int) [2, 2, 2, 2, 2, 1, 1, 1, 1, 1] = 5 ∧
    List.count (2 : Int) [2, 2, 2, 2, 2, 1, 1, 1, 1, 1] = 5 ∧
    (∀ s : Nat, ([2, 2, 2, 2, 2, 1, 1, 1, 1, 1] : List Int)[s]? = some 2 →
      c.Shards[s]? = some 1) ∧
    (∀ s : Nat, ([2, 2, 2, 2, 2, 1, 1, 1, 1, 1] : List Int)[s]? = some 1 →
      c.Shards[s]? = some 1) := by
  refine ⟨?_, by decide, by decide, ?_, ?_⟩
  · unfold Join
    simp only [hc, hG, hS, joinGroups_example, build_example,
      rebalance_mono NShards _ _ rebalance_example fuel hf, store_example]
  · intro s hs
    have hlt : s < 10 := by
      by_contra hn
      rw [List.getElem?_eq_none (by simp; omega)] at hs
      cases hs
    rw [hS, List.getElem?_replicate_of_lt (by simpa [NShards] using hlt)]
  · intro s hs
    have hlt : s < 10 := by
      by_contra hn
      rw [List.getElem?_eq_none (by simp; omega)] at hs
      cases hs
    rw [hS, List.getElem?_replicate_of_lt (by simpa [NShards] using hlt)]

/-- Witness of `join_minimal_movement`: `Join({2: [b]})` on `oneGroup`. -/
theorem join_minimal_movement_witness :
    oneGroup.Configs.getLast? = some oneGroupConfig ∧
    oneGroupConfig.Groups = [(1, ["a"])] ∧
    oneGroupConfig.Shards = List.replicate NShards 1 ∧ NShards ≤ NShards ∧
    (Join NShards oneGroup [(2, ["b"])] =
      ({ Configs := oneGroup.Configs ++
          [{ Num := (oneGroup.Configs.length : Int), Shards := [2, 2, 2, 2, 2, 1, 1, 1, 1, 1],
             Groups := [(1, ["a"]), (2, ["b"])] }] }, .ok Err.OK) ∧
    List.count (1 : Int) [2, 2, 2, 2, 2, 1, 1, 1, 1, 1] = 5 ∧
    List.count (2 : Int) [2, 2, 2, 2, 2, 1, 1, 1, 1, 1] = 5 ∧
    (∀ s : Nat, ([2, 2, 2, 2, 2, 1, 1, 1, 1, 1] : List Int)[s]? = some 2 →
      oneGroupConfig.Shards[s]? = some 1) ∧
    (∀ s : Nat, ([2, 2, 2, 2, 2, 1, 1, 1, 1, 1] : List Int)[s]? = some 1 →
      oneGroupConfig.Shards[s]? = some 1)) :=
  ⟨by decide!, by decide!, by decide!, le_refl _,
    join_minimal_movement oneGroup oneGroupConfig (by decide!) ["a"] ["b"] (by decide!)
      (by decide!) NShards (le_refl _)⟩

/-- C14 as stated fails.  `Join` inserts every key of its argument: after
`Join({0: [x]})` on the fresh state machine, a reachable state, the latest
configuration has the group 0. -/
theorem no_group_zero_counterexample :
    Reachable zeroGroup ∧
    zeroGroup.Configs.getLast? = some
      { Num := 1, Shards := [-1, -1, -1, -1, -1, -1, -1, -1, -1, -1],
        Groups := [(0, ["x"])] } ∧
    (0 : Int) ∈ mapKeys [((0 : Int), ["x"])] :=
  ⟨reachable_zeroGroup, by decide!, by decide!⟩

/-- C14, amended.  In every state reached from the fresh state machine by
calls of `Join` whose argument has no key 0, of `Leave` and of `Move`, no
configuration of `Configs` has 0 as a key of its groups. -/
theorem no_group_zero (csm : CtrlerStateMachine) (h : ReachableNoZero csm) :
    ∀ c ∈ csm.Configs, 0 ∉ mapKeys c.Groups :=
  h.no_zero

/-- Witness of `no_group_zero` on the state `skewed`. -/
theorem no_group_zero_witness :
    ReachableNoZero skewed ∧ ∀ c ∈ skewed.Configs, 0 ∉ mapKeys c.Groups :=
  ⟨reachableNoZero_skewed, no_group_zero skewed reachableNoZero_skewed⟩

/-- C16.  For every reachable state and every argument of `Join` (an empty
map and maps with non-positive gids included), the rebalance loop run on the
view that `Join` builds reaches its `break` after at most `NShards`
single-shard moves, without indexing an empty slice; more fuel gives the
same view. -/
theorem join_loop_terminates (csm : CtrlerStateMachine) (h : Reachable csm) (c : Config)
    (hc : csm.Configs.getLast? = some c) (groups : List (Int × List String)) :
    ∃ v1, ∀ fuel, NShards ≤ fuel →
      rebalance fuel (buildGidToShards (joinGroups (copyGroups c.Groups) groups) c.Shards)
        = .ok v1 := by
  obtain ⟨c', hc', hw⟩ := h.wellFormed
  rw [hc] at hc'
  cases Option.some.inj hc'
  obtain ⟨v1, B1, h1, _⟩ := Join_run NShards csm groups c hc hw.1 (le_refl _)
  exact ⟨v1, fun fuel hf => rebalance_mono NShards _ v1 h1 fuel hf⟩

/-- Witness of `join_loop_terminates`: `Join({-3: [], 0: []})` on the state
`zeroGroup`, whose shards are all mapped to -1. -/
theorem join_loop_terminates_witness :
    Reachable zeroGroup ∧
    zeroGroup.Configs.getLast? = some
      { Num := 1, Shards := [-1, -1, -1, -1, -1, -1, -1, -1, -1, -1],
        Groups := [(0, ["x"])] } ∧
    ∃ v1, ∀ fuel, NShards ≤ fuel →
      rebalance fuel (buildGidToShards
        (joinGroups (copyGroups [((0 : Int), ["x"])]) [(-3, []), (0, [])])
        [-1, -1, -1, -1, -1, -1, -1, -1, -1, -1]) = .ok v1 :=
  ⟨reachable_zeroGroup, by decide!,
    join_loop_terminates zeroGroup reachable_zeroGroup
      { Num := 1, Shards := [-1, -1, -1, -1, -1, -1, -1, -1, -1, -1],
        Groups := [(0, ["x"])] } (by decide!) [(-3, []), (0, [])]⟩

/-- C17.  For every state whose latest configuration has `NShards` shard
entries and every gid list, `Leave` returns `OK` and, when the resulting
groups are not empty, every shard whose previous owner is not in the gid
list keeps exactly that owner: only shards previously owned by a listed gid
change owner. -/
theorem leave_keeps_owners (csm : CtrlerStateMachine) (c : Config)
    (hc : csm.Configs.getLast? = some c) (hlen : c.Shards.length = NShards)
    (gids : List Int) :
    ∃ c1, Leave csm gids = ({ Configs := csm.Configs ++ [c1] }, .ok Err.OK) ∧
      (c1.Groups ≠ [] →
        (∀ (s : Nat) (g : Int), c.Shards[s]? = some g → g ∉ gids → c1.Shards[s]? = some g) ∧
        (∀ (s : Nat) (g g1 : Int), c.Shards[s]? = some g → c1.Shards[s]? = some g1 →
          g1 ≠ g → g ∈ gids)) := by
  obtain ⟨v1, B1, U, _, _, a3, a4, _, _, _, _, a9⟩ := Leave_run csm gids c hc hlen
  have keep : deleteAll gids (copyGroups c.Groups) ≠ [] →
      ∀ (s : Nat) (g : Int), c.Shards[s]? = some g → g ∉ gids →
        (if (deleteAll gids (copyGroups c.Groups)).length ≠ 0 then toShards B1
          else List.replicate NShards 0)[s]? = some g := by
    intro hne s g hs hg
    have hl : (deleteAll gids (copyGroups c.Groups)).length ≠ 0 := by
      intro h0
      exact hne (List.eq_nil_of_length_eq_zero h0)
    have hb : (blankAll gids (c.Shards.map some))[s]? = some (some g) := by
      rw [getElem?_blankAll]
      exact ⟨hg, by simp [hs]⟩
    have hsU : s ∉ U := by
      intro hm
      have := (a4 s hm).1
      rw [hb] at this
      cases this
    rw [if_pos hl]
    unfold toShards
    rw [List.getElem?_map, a3 s hsU, hb]
    rfl
  refine ⟨_, a9, ?_⟩
  intro hne
  refine ⟨keep hne, ?_⟩
  intro s g g1 hs hs1 hg1
  by_contra hg
  have := keep hne s g hs hg
  rw [this] at hs1
  exact hg1 (Option.some.inj hs1).symm

/-- Witness of `leave_keeps_owners`: `Leave([2])` on `skewed`. -/
theorem leave_keeps_owners_witness :
    skewed.Configs.getLast? = some skewedConfig ∧ skewedConfig.Shards.length = NShards ∧
    ∃ c1, Leave skewed [2] = ({ Configs := skewed.Configs ++ [c1] }, .ok Err.OK) ∧
      (c1.Groups ≠ [] →
        (∀ (s : Nat) (g : Int), skewedConfig.Shards[s]? = some g → g ∉ [(2 : Int)] →
          c1.Shards[s]? = some g) ∧
        (∀ (s : Nat) (g g1 : Int), skewedConfig.Shards[s]? = some g →
          c1.Shards[s]? = some g1 → g1 ≠ g → g ∈ [(2 : Int)])) :=
  ⟨by decide!, by decide!, leave_keeps_owners skewed skewedConfig (by decide!) (by decide!) [2]⟩

/-- C19.  If in the latest configuration every shard entry is 0 or a key of
the groups, 0 is not a key of the groups and the shard counts of the groups
differ pairwise by at most 1, then for every gid list `Leave` returns `OK`
and, when it leaves the groups non-empty, the shard counts of the groups of
the appended configuration again differ pairwise by at most 1. -/
theorem leave_preserves_balance (csm : CtrlerStateMachine) (c : Config)
    (hc : csm.Configs.getLast? = some c) (hlen : c.Shards.length = NShards)
    (hv : ShardsValid c) (h0 : 0 ∉ mapKeys c.Groups)
    (hb : ∀ g ∈ mapKeys c.Groups, ∀ k ∈ mapKeys c.Groups,
      shardCount c g ≤ shardCount c k + 1)
    (gids : List Int) :
    ∃ c1, Leave csm gids = ({ Configs := csm.Configs ++ [c1] }, .ok Err.OK) ∧
      (c1.Groups ≠ [] →
        ∀ g ∈ mapKeys c1.Groups, ∀ k ∈ mapKeys c1.Groups,
          shardCount c1 g ≤ shardCount c1 k + 1) := by
  have hall : BalancedAll c := by
    intro g k hg0 hk0 hg hk
    have key : ∀ x, x ≠ 0 → (x ∈ mapKeys c.Groups ∨ x ∈ c.Shards) → x ∈ mapKeys c.Groups := by
      intro x hx0 hx
      rcases hx with e | e
      · exact e
      · exact (hv x e).resolve_left hx0
    exact hb g (key g hg0 hg) k (key k hk0 hk)
  obtain ⟨c1, h1, _, h3⟩ := Leave_balancedAll csm gids c hc hlen hall
  refine ⟨c1, h1, ?_⟩
  intro _ g hg k hk
  obtain ⟨v1, B1, U, _, _, _, _, _, _, _, _, a9⟩ := Leave_run csm gids c hc hlen
  rw [a9] at h1
  have hc1 := List.append_cancel_left (CtrlerStateMachine.mk.inj (Prod.mk.inj h1).1)
  have hG : c1.Groups = deleteAll gids (copyGroups c.Groups) := by
    rw [← List.singleton_inj.1 hc1]
  have nz : ∀ x ∈ mapKeys c1.Groups, x ≠ 0 := by
    intro x hx e
    rw [hG, mem_mapKeys_deleteAll, mem_mapKeys_copyGroups] at hx
    exact h0 (e ▸ hx.1)
  exact h3 g k (nz g hg) (nz k hk) (Or.inl hg) (Or.inl hk)

/-- Witness of `leave_preserves_balance`: `Leave([2])` after
`Join({1: [a], 2: [b]})`. -/
theorem leave_preserves_balance_witness :
    (Join NShards NewCtrlerStateMachine [(1, ["a"]), (2, ["b"])]).1.Configs.getLast?
      = some { Num := 1, Shards := [1, 2, 1, 2, 1, 2, 1, 2, 1, 2],
               Groups := [(1, ["a"]), (2, ["b"])] } ∧
    ([1, 2, 1, 2, 1, 2, 1, 2, 1, 2] : List Int).length = NShards ∧
    ShardsValid { Num := 1, Shards := [1, 2, 1, 2, 1, 2, 1, 2, 1, 2],
                  Groups := [(1, ["a"]), (2, ["b"])] } ∧
    (0 : Int) ∉ mapKeys [((1 : Int), ["a"]), (2, ["b"])] ∧
    (∀ g ∈ mapKeys [((1 : Int), ["a"]), (2, ["b"])],
      ∀ k ∈ mapKeys [((1 : Int), ["a"]), (2, ["b"])],
        shardCount { Num := 1, Shards := [1, 2, 1, 2, 1, 2, 1, 2, 1, 2],
                     Groups := [(1, ["a"]), (2, ["b"])] } g
          ≤ shardCount { Num := 1, Shards := [1, 2, 1, 2, 1, 2, 1, 2, 1, 2],
                         Groups := [(1, ["a"]), (2, ["b"])] } k + 1) ∧
    ∃ c1, Leave (Join NShards NewCtrlerStateMachine [(1, ["a"]), (2, ["b"])]).1 [2]
        = ({ Configs := (Join NShards NewCtrlerStateMachine
              [(1, ["a"]), (2, ["b"])]).1.Configs ++ [c1] }, .ok Err.OK) ∧
      (c1.Groups ≠ [] →
        ∀ g ∈ mapKeys c1.Groups, ∀ k ∈ mapKeys c1.Groups,
          shardCount c1 g ≤ shardCount c1 k + 1) :=
  ⟨by decide!, by decide!, by unfold ShardsValid; decide!, by decide!, by decide!,
    leave_preserves_balance _
      { Num := 1, Shards := [1, 2, 1, 2, 1, 2, 1, 2, 1, 2], Groups := [(1, ["a"]), (2, ["b"])] }
      (by decide!) (by decide!) (by unfold ShardsValid; decide!) (by decide!) (by decide!) [2]⟩

/-- C20.  If every shard entry of the latest configuration is 0 or a key of
its groups and the resulting groups (the previous ones and the newly joined
ones) have a key different from 0, then `Join` returns `OK` and in the
appended configuration each of the `NShards` shard entries is a key of the
resulting groups different from 0. -/
theorem join_assigns_all (csm : CtrlerStateMachine) (c : Config)
    (hc : csm.Configs.getLast? = some c) (hlen : c.Shards.length = NShards)
    (hv : ShardsValid c) (fuel : Nat) (hf : NShards ≤ fuel)
    (groups : List (Int × List String))
    (hk : ∃ k, k ≠ 0 ∧ (k ∈ mapKeys c.Groups ∨ k ∈ mapKeys groups)) :
    ∃ c1, Join fuel csm groups = ({ Configs := csm.Configs ++ [c1] }, .ok Err.OK) ∧
      c1.Shards.length = NShards ∧
      (∀ g, g ∈ mapKeys c1.Groups ↔ g ∈ mapKeys c.Groups ∨ g ∈ mapKeys groups) ∧
      ∀ g ∈ c1.Shards, g ≠ 0 ∧ g ∈ mapKeys c1.Groups := by
  obtain ⟨v1, B1, _, h2, h3, h4, h5, _, h7, h8⟩ := Join_run fuel csm groups c hc hlen hf
  have hkeys : ∀ g, g ∈ mapKeys (joinGroups (copyGroups c.Groups) groups) ↔
      g ∈ mapKeys c.Groups ∨ g ∈ mapKeys groups := by
    intro g
    rw [mem_mapKeys_joinGroups, mem_mapKeys_copyGroups]
  obtain ⟨k0, hk0, hk1⟩ := hk
  refine ⟨_, h8, by simp [length_toShards, h3], hkeys, ?_⟩
  intro g hg
  rcases mem_toShards B1 g hg with e | e
  · have hm := h2.mem_keys_of_mem e
    have hg0 : g ≠ 0 := by
      intro e0
      rw [e0] at hm
      exact hm.2 (h5.balanced h2 h3).1
    refine ⟨hg0, ?_⟩
    rcases h7 g hm.1 with (e1 | e1) | ⟨_, e1⟩
    · exact e1
    · rcases hv g e1 with e2 | e2
      · exact absurd e2 hg0
      · exact (hkeys g).2 (Or.inl e2)
    · exact absurd (e1 k0 (Or.inl ((hkeys k0).2 hk1))) hk0
  · exact absurd e.2 (fun hm => h4 none hm rfl)

/-- Witness of `join_assigns_all`: `Join({0: [x], 4: [d]})` on the fresh state
machine, whose shards are all unassigned. -/
theorem join_assigns_all_witness :
    NewCtrlerStateMachine.Configs.getLast? = some DefaultConfig ∧
    DefaultConfig.Shards.length = NShards ∧ ShardsValid DefaultConfig ∧ NShards ≤ NShards ∧
    (∃ k : Int, k ≠ 0 ∧ (k ∈ mapKeys DefaultConfig.Groups ∨
      k ∈ mapKeys [((0 : Int), ["x"]), (4, ["d"])])) ∧
    ∃ c1, Join NShards NewCtrlerStateMachine [(0, ["x"]), (4, ["d"])]
        = ({ Configs := NewCtrlerStateMachine.Configs ++ [c1] }, .ok Err.OK) ∧
      c1.Shards.length = NShards ∧
      (∀ g, g ∈ mapKeys c1.Groups ↔
        g ∈ mapKeys DefaultConfig.Groups ∨ g ∈ mapKeys [((0 : Int), ["x"]), (4, ["d"])]) ∧
      ∀ g ∈ c1.Shards, g ≠ 0 ∧ g ∈ mapKeys c1.Groups :=
  ⟨by decide!, by decide!, by unfold ShardsValid; decide!, le_refl _,
    ⟨4, by decide, Or.inr (by decide!)⟩,
    join_assigns_all NewCtrlerStateMachine DefaultConfig (by decide!) (by decide!)
      (by unfold ShardsValid; decide!) NShards (le_refl _) [(0, ["x"]), (4, ["d"])]
      ⟨4, by decide, Or.inr (by decide!)⟩⟩

/-- C18.  For every reachable state and every argument, `Join` returns `OK`
and the moves `(shard, from, to)` of its rebalance loop are such that no gid
is both a `from` and a `to`, gid 0 is never a `to` and no shard moves twice;
the appended shard array is the previous one with every moved shard at its
`to`.  Hence for every gid the set of shards mapped to it afterwards is a
subset or a superset of the set mapped to it before, and gid 0 only
loses. -/
theorem join_no_round_trip (csm : CtrlerStateMachine) (h : Reachable csm) (c : Config)
    (hc : csm.Configs.getLast? = some c) (fuel : Nat) (hf : NShards ≤ fuel)
    (groups : List (Int × List String)) :
    ∃ c1 ms, Join fuel csm groups = ({ Configs := csm.Configs ++ [c1] }, .ok Err.OK) ∧
      ms = rebalanceMoves fuel
        (buildGidToShards (joinGroups (copyGroups c.Groups) groups) c.Shards) ∧
      (∀ m ∈ ms, ∀ m' ∈ ms, m.2.1 ≠ m'.2.2) ∧
      (∀ m ∈ ms, m.2.2 ≠ 0) ∧
      (ms.map (fun m => m.1)).Nodup ∧
      (∀ m ∈ ms, c.Shards[m.1]? = some m.2.1 ∧ c1.Shards[m.1]? = some m.2.2) ∧
      (∀ s : Nat, s ∉ ms.map (fun m => m.1) → c1.Shards[s]? = c.Shards[s]?) ∧
      (∀ gid : Int,
        (∀ s : Nat, c1.Shards[s]? = some gid → c.Shards[s]? = some gid) ∨
        (∀ s : Nat, c.Shards[s]? = some gid → c1.Shards[s]? = some gid)) ∧
      (∀ s : Nat, c1.Shards[s]? = some 0 → c.Shards[s]? = some 0) := by
  obtain ⟨c', hc', hw⟩ := h.wellFormed
  rw [hc] at hc'
  cases Option.some.inj hc'
  have hrep := Rep_build (joinGroups (copyGroups c.Groups) groups) c.Shards
  obtain ⟨v1, B1, h1, h2, h3, h4, t1, t2, t3, t4, t5⟩ :=
    rebalance_trace fuel _ _ [] [] hrep (by simpa using hw.1) (by simp)
      (Receivers_nil _) (Donors_nil _) (by rw [pending_nil]; simpa [hw.1] using hf)
  have hold : ∀ (s : Nat) (g : Int),
      (c.Shards.map some)[s]? = some (some g) ↔ c.Shards[s]? = some g := by
    intro s g
    rw [List.getElem?_map]
    cases c.Shards[s]? <;> simp
  have hnew : ∀ (s : Nat) (g : Int), (toShards B1)[s]? = some g ↔ B1[s]? = some (some g) :=
    getElem?_toShards B1 h4
  have m4 : ∀ m ∈ rebalanceMoves fuel
      (buildGidToShards (joinGroups (copyGroups c.Groups) groups) c.Shards),
      c.Shards[m.1]? = some m.2.1 ∧ (toShards B1)[m.1]? = some m.2.2 := by
    intro m hm
    exact ⟨(hold _ _).1 (t4 m hm).1, (hnew _ _).2 (t4 m hm).2⟩
  have m5 : ∀ s : Nat, s ∉ (rebalanceMoves fuel
      (buildGidToShards (joinGroups (copyGroups c.Groups) groups) c.Shards)).map (fun m => m.1) →
      (toShards B1)[s]? = c.Shards[s]? := by
    intro s hs
    have e := t5 s hs
    unfold toShards
    rw [List.getElem?_map, e, List.getElem?_map]
    cases c.Shards[s]? <;> rfl
  have sub : ∀ gid : Int, (∀ m ∈ rebalanceMoves fuel
      (buildGidToShards (joinGroups (copyGroups c.Groups) groups) c.Shards), m.2.2 ≠ gid) →
      ∀ s : Nat, (toShards B1)[s]? = some gid → c.Shards[s]? = some gid := by
    intro gid hno s hs
    by_cases hm : s ∈ (rebalanceMoves fuel (buildGidToShards
        (joinGroups (copyGroups c.Groups) groups) c.Shards)).map (fun m => m.1)
    · obtain ⟨m, hm1, hm2⟩ := List.mem_map.1 hm
      have e := (m4 m hm1).2
      rw [hm2, hs] at e
      exact absurd (Option.some.inj e).symm (hno m hm1)
    · rw [← m5 s hm]
      exact hs
  refine ⟨{ Num := (csm.Configs.length : Int), Shards := toShards B1,
            Groups := joinGroups (copyGroups c.Groups) groups }, _, ?_, rfl, t2,
    fun m hm => (t1 m hm).2.2, t3, m4, m5, ?_, ?_⟩
  · unfold Join
    simp only [hc, h1, Rep_store h2 h3]
  · intro gid
    by_cases hrec : ∃ m ∈ rebalanceMoves fuel
        (buildGidToShards (joinGroups (copyGroups c.Groups) groups) c.Shards), m.2.2 = gid
    · right
      obtain ⟨m, hm, hmg⟩ := hrec
      intro s hs
      by_cases hmv : s ∈ (rebalanceMoves fuel (buildGidToShards
          (joinGroups (copyGroups c.Groups) groups) c.Shards)).map (fun m => m.1)
      · obtain ⟨m', hm1, hm2⟩ := List.mem_map.1 hmv
        have e := (m4 m' hm1).1
        rw [hm2, hs] at e
        exact absurd ((Option.some.inj e).symm.trans hmg.symm) (t2 m' hm1 m hm)
      · rw [m5 s hmv]
        exact hs
    · left
      exact sub gid (fun m hm e => hrec ⟨m, hm, e⟩)
  · exact sub 0 (fun m hm => (t1 m hm).2.2)

/-- Witness of `join_no_round_trip`: `Join({3: [c]})` on `skewed`, which
takes shards from gid 1 only. -/
theorem join_no_round_trip_witness :
    Reachable skewed ∧ skewed.Configs.getLast? = some skewedConfig ∧ NShards ≤ NShards ∧
    ∃ c1 ms, Join NShards skewed [(3, ["c"])]
        = ({ Configs := skewed.Configs ++ [c1] }, .ok Err.OK) ∧
      ms = rebalanceMoves NShards
        (buildGidToShards (joinGroups (copyGroups skewedConfig.Groups) [(3, ["c"])])
          skewedConfig.Shards) ∧
      (∀ m ∈ ms, ∀ m' ∈ ms, m.2.1 ≠ m'.2.2) ∧
      (∀ m ∈ ms, m.2.2 ≠ 0) ∧
      (ms.map (fun m => m.1)).Nodup ∧
      (∀ m ∈ ms, skewedConfig.Shards[m.1]? = some m.2.1 ∧ c1.Shards[m.1]? = some m.2.2) ∧
      (∀ s : Nat, s ∉ ms.map (fun m => m.1) → c1.Shards[s]? = skewedConfig.Shards[s]?) ∧
      (∀ gid : Int,
        (∀ s : Nat, c1.Shards[s]? = some gid → skewedConfig.Shards[s]? = some gid) ∨
        (∀ s : Nat, skewedConfig.Shards[s]? = some gid → c1.Shards[s]? = some gid)) ∧
      (∀ s : Nat, c1.Shards[s]? = some 0 → skewedConfig.Shards[s]? = some 0) :=
  ⟨reachable_skewed, by decide!, le_refl _,
    join_no_round_trip skewed reachable_skewed skewedConfig (by decide!) NShards (le_refl _)
      [(3, ["c"])]⟩


/-- C15. Determinism and independence of the enumeration order of the maps:
with every map (the argument of `Join`, `Groups`, the gid to shards view)
modelled as a key/value list, the configuration appended by `Join` and by
`Leave` has a `Shards` array and a set of `Groups` fixed by the latest
configuration and the argument (two logs `csmA` and `csmB` of any length
whose latest configurations agree up to the order of the groups get the same
`Shards` and the same groups up to order); two state machines whose logs
agree up to the order of the groups, fed the same calls up to the order of
the `Join` arguments, return the same outcomes and keep logs that agree up to
the order of the groups; and on a view of the shard assignment the choice of
`maxGid` and of `minGid`, the rebalance loop and the write-back do not depend
on the order in which the view is enumerated. -/
theorem iteration_order_independent (fuel : Nat) (hf : NShards ≤ fuel)
    (csmA csmB : CtrlerStateMachine) (c c' : Config)
    (hc : csmA.Configs.getLast? = some c) (hc' : csmB.Configs.getLast? = some c')
    (hw : WellFormed c) (hS : c'.Shards = c.Shards) (hG : c'.Groups.Perm c.Groups)
    (groups groups' : List (Int × List String)) (hg : groups'.Perm groups)
    (hn : (mapKeys groups).Nodup) (gids : List Int)
    (csm csm' : CtrlerStateMachine) (hL : LogEquiv csm csm')
    (hlast : ∃ c0, csm.Configs.getLast? = some c0 ∧ WellFormed c0)
    (ops ops' : List Op) (ho : List.Forall₂ OpEquiv ops ops')
    (v v' : List (Int × List Nat)) (B : List (Option Int)) (hp : v'.Perm v)
    (hr : Rep v B) (hb : B.length = NShards) :
    (∃ c1 c1', Join fuel csmA groups = ({ Configs := csmA.Configs ++ [c1] }, .ok Err.OK) ∧
      Join fuel csmB groups' = ({ Configs := csmB.Configs ++ [c1'] }, .ok Err.OK) ∧
      c1'.Shards = c1.Shards ∧ c1'.Groups.Perm c1.Groups) ∧
    (∃ c1 c1', Leave csmA gids = ({ Configs := csmA.Configs ++ [c1] }, .ok Err.OK) ∧
      Leave csmB gids = ({ Configs := csmB.Configs ++ [c1'] }, .ok Err.OK) ∧
      c1'.Shards = c1.Shards ∧ c1'.Groups.Perm c1.Groups) ∧
    (runOps fuel csm' ops').2 = (runOps fuel csm ops).2 ∧
    LogEquiv (runOps fuel csm ops).1 (runOps fuel csm' ops').1 ∧
    gidWithMaxShards v' = gidWithMaxShards v ∧
    gidWithMinShards v' = gidWithMinShards v ∧
    storeGidToShards v' (List.replicate NShards 0)
      = storeGidToShards v (List.replicate NShards 0) ∧
    (∀ v1, rebalance fuel v = .ok v1 → ∃ v1', rebalance fuel v' = .ok v1' ∧ v1'.Perm v1) := by
  obtain ⟨a, a', j1, j2, _, _, j3, j4, _⟩ :=
    Join_perm fuel hf csmA csmB c c' hc hc' hw hS hG groups groups' hg hn
  obtain ⟨b, b', l1, l2, _, _, l3, l4, _⟩ := Leave_perm csmA csmB c c' hc hc' hw hS hG gids
  obtain ⟨r1, r2⟩ := runOps_equiv fuel hf ho csm csm' hL hlast
  exact ⟨⟨a, a', j1, j2, j3, j4⟩, ⟨b, b', l1, l2, l3, l4⟩, r1, r2,
    gidWithMaxShards_perm hp hr.keys, gidWithMinShards_perm hp hr.keys,
    storeGidToShards_perm hr hb hp, fun v1 h1 => rebalance_perm fuel v v' v1 hp hr.keys h1⟩

theorem iteration_order_independent_witness :
    LogEquiv joinedAB joinedBA ∧ List.Forall₂ OpEquiv opsCD opsDC ∧
    (∃ c1 c1', Join NShards joinedAB [(3, ["c"]), (4, ["d"])]
        = ({ Configs := joinedAB.Configs ++ [c1] }, .ok Err.OK) ∧
      Join NShards joinedBA [(4, ["d"]), (3, ["c"])]
        = ({ Configs := joinedBA.Configs ++ [c1'] }, .ok Err.OK) ∧
      c1'.Shards = c1.Shards ∧ c1'.Groups.Perm c1.Groups) ∧
    (∃ c1 c1', Leave joinedAB [1] = ({ Configs := joinedAB.Configs ++ [c1] }, .ok Err.OK) ∧
      Leave joinedBA [1] = ({ Configs := joinedBA.Configs ++ [c1'] }, .ok Err.OK) ∧
      c1'.Shards = c1.Shards ∧ c1'.Groups.Perm c1.Groups) ∧
    (runOps NShards joinedBA opsDC).2 = (runOps NShards joinedAB opsCD).2 ∧
    LogEquiv (runOps NShards joinedAB opsCD).1 (runOps NShards joinedBA opsDC).1 ∧
    gidWithMaxShards (buildGidToShards joinedBAConfig.Groups joinedABConfig.Shards)
      = gidWithMaxShards (buildGidToShards joinedABConfig.Groups joinedABConfig.Shards) ∧
    gidWithMinShards (buildGidToShards joinedBAConfig.Groups joinedABConfig.Shards)
      = gidWithMinShards (buildGidToShards joinedABConfig.Groups joinedABConfig.Shards) ∧
    storeGidToShards (buildGidToShards joinedBAConfig.Groups joinedABConfig.Shards)
        (List.replicate NShards 0)
      = storeGidToShards (buildGidToShards joinedABConfig.Groups joinedABConfig.Shards)
        (List.replicate NShards 0) ∧
    (∀ v1, rebalance NShards (buildGidToShards joinedABConfig.Groups joinedABConfig.Shards)
        = .ok v1 →
      ∃ v1', rebalance NShards (buildGidToShards joinedBAConfig.Groups joinedABConfig.Shards)
          = .ok v1' ∧ v1'.Perm v1) :=
  ⟨logEquiv_joined, opEquiv_example,
    iteration_order_independent NShards (le_refl _) joinedAB joinedBA joinedABConfig
      joinedBAConfig joinedAB_last joinedBA_last wellFormed_joinedAB rfl perm_joined
      [(3, ["c"]), (4, ["d"])] [(4, ["d"]), (3, ["c"])]
      (List.Perm.swap (3, ["c"]) (4, ["d"]) []) (by decide) [1]
      joinedAB joinedBA logEquiv_joined ⟨joinedABConfig, joinedAB_last, wellFormed_joinedAB⟩
      opsCD opsDC opEquiv_example
      (buildGidToShards joinedABConfig.Groups joinedABConfig.Shards)
      (buildGidToShards joinedBAConfig.Groups joinedABConfig.Shards)
      (joinedABConfig.Shards.map some)
      (buildGidToShards_perm perm_joined wellFormed_joinedAB.2 joinedABConfig.Shards)
      (Rep_build joinedABConfig.Groups joinedABConfig.Shards) rfl⟩

end ShardCtrler
